import Mathlib

/-!
# ktxlist: a doubly-linked ring list with a sentinel (`src/ktxlist/list_implementation.hpp`)

The C++ class `list<T, Allocator>` is embedded over an explicit memory.

* A pointer `BaseNode*` is a `Ptr`: either the address of the sentinel `fakeNode`
  embedded in the list object number `n` (`Ptr.obj n`), or the address of the
  `n`-th piece of node storage handed out by the allocator (`Ptr.node n`).
* `BaseNode` and `Node` are one record `Node` whose `value` is absent for a
  link-only record (the sentinel) and for allocated storage in which no element
  has been constructed yet.
* The members `sz` and `alloc` of list object `n` are `World.sz n` and
  `World.alloc n`.
* Every member function is a state transformer `Prog` over `World`; when an
  exception leaves a function the world reached so far is kept.
-/

namespace ktxlist

/-- Address of a link record: the sentinel of list object `n`, or the `n`-th
    node storage obtained from the allocator. -/
inductive Ptr where
  | obj (n : Nat)
  | node (n : Nat)
  deriving DecidableEq, Repr

/-- Source: `struct BaseNode { next; prev; }` and `struct Node : BaseNode { value; }`.
    `value = none`: no element lives in the record. -/
structure Node (T : Type) where
  next : Ptr
  prev : Ptr
  value : Option T
  deriving DecidableEq, Repr

/-- The exceptions that can leave an allocator call or an element constructor. -/
inductive Failure where
  | bad_alloc
  | ctor_throw
  deriving DecidableEq, Repr

/-- How a call ends: normally, by an exception that propagates, by undefined
    behaviour (use of storage that is not live, destroying a record that holds
    no element, releasing storage the allocator does not own), or by running
    out of the step budget given to a pointer-chasing loop. -/
inductive Outcome (α : Type) where
  | done (a : α)
  | raised (e : Failure)
  | undefined
  | timeout
  deriving DecidableEq, Repr

/-- The template parameters the container is instantiated with, as far as they
    decide failures: `allocFails k` tells whether the allocate call number `k`
    (counted from 0) fails, `ctorThrows k` whether the element copy constructor
    throws in construct call number `k`. -/
structure Env where
  allocFails : Nat → Bool
  ctorThrows : Nat → Bool

/-- An environment in which no allocation and no construction fails. -/
def Env.reliable : Env := ⟨fun _ => false, fun _ => false⟩

/-- Memory and allocator bookkeeping. -/
structure World (T : Type) where
  /-- live link records: sentinels of constructed lists and allocated node storage -/
  mem : Ptr → Option (Node T)
  /-- member `sz` of list object `n` -/
  sz : Nat → Nat
  /-- member `alloc` of list object `n` (an allocator handle) -/
  alloc : Nat → Nat
  /-- number of `allocate` calls made so far -/
  allocCalls : Nat
  /-- number of `allocate` calls that returned storage -/
  allocated : Nat
  /-- number of `deallocate` calls that released storage -/
  deallocated : Nat
  /-- number of `construct` calls made so far -/
  ctorCalls : Nat
  /-- number of `destroy` calls on element nodes -/
  destroyed : Nat

/-- A world with no live record. -/
def World.empty (T : Type) : World T :=
  ⟨fun _ => none, fun _ => 0, fun _ => 0, 0, 0, 0, 0, 0⟩

/-- Width of `size_type` (`std::size_t`). -/
def size_bits : Nat := 64

/-- Source: `++n` on a `size_type`. -/
def size_incr (n : Nat) : Nat := (n + 1) % 2 ^ size_bits

/-- Source: `--n` on a `size_type`. -/
def size_decr (n : Nat) : Nat := (n + 2 ^ size_bits - 1) % 2 ^ size_bits

/-- A computation over the world. -/
def Prog (T α : Type) : Type := World T → Outcome α × World T

/-- Sequencing: anything but a normal end skips the rest. -/
def Prog.bind {T α β : Type} (m : Prog T α) (f : α → Prog T β) : Prog T β := fun w =>
  match m w with
  | (Outcome.done a, w1) => f a w1
  | (Outcome.raised e, w1) => (Outcome.raised e, w1)
  | (Outcome.undefined, w1) => (Outcome.undefined, w1)
  | (Outcome.timeout, w1) => (Outcome.timeout, w1)

instance (T : Type) : Monad (Prog T) where
  pure a := fun w => (Outcome.done a, w)
  bind := Prog.bind

/-- Source: `throw e`. -/
def raise {T α : Type} (e : Failure) : Prog T α := fun w => (Outcome.raised e, w)

/-- Undefined behaviour. -/
def undef {T α : Type} : Prog T α := fun w => (Outcome.undefined, w)

/-- Step budget exhausted. -/
def diverge {T α : Type} : Prog T α := fun w => (Outcome.timeout, w)

/-- Read the record at `p`; the storage must be live. -/
def getNode {T : Type} (p : Ptr) : Prog T (Node T) := fun w =>
  match w.mem p with
  | some c => (Outcome.done c, w)
  | none => (Outcome.undefined, w)

/-- Overwrite the record at `p`. -/
def putNode {T : Type} (p : Ptr) (c : Node T) : Prog T Unit := fun w =>
  (Outcome.done (), { w with mem := Function.update w.mem p (some c) })

/-- Read `p->next`. -/
def getNext {T : Type} (p : Ptr) : Prog T Ptr := do
  let c ← getNode p
  pure c.next

/-- Read `p->prev`. -/
def getPrev {T : Type} (p : Ptr) : Prog T Ptr := do
  let c ← getNode p
  pure c.prev

/-- Write `p->next = q`. -/
def setNext {T : Type} (p q : Ptr) : Prog T Unit := do
  let c ← getNode p
  putNode p { c with next := q }

/-- Write `p->prev = q`. -/
def setPrev {T : Type} (p q : Ptr) : Prog T Unit := do
  let c ← getNode p
  putNode p { c with prev := q }

/-- Read member `sz`. -/
def getSz {T : Type} (this : Nat) : Prog T Nat := fun w => (Outcome.done (w.sz this), w)

/-- Write member `sz`. -/
def setSz {T : Type} (this : Nat) (n : Nat) : Prog T Unit := fun w =>
  (Outcome.done (), { w with sz := Function.update w.sz this n })

/-- Read member `alloc`. -/
def getAlloc {T : Type} (this : Nat) : Prog T Nat := fun w => (Outcome.done (w.alloc this), w)

/-- Write member `alloc`. -/
def setAlloc {T : Type} (this : Nat) (a : Nat) : Prog T Unit := fun w =>
  (Outcome.done (), { w with alloc := Function.update w.alloc this a })

/-- Source: `AllocTraits::allocate(alloc, 1)`: fresh storage for one node, whose fields
    are not yet written (they are modelled as referring to the storage itself),
    or `bad_alloc`. -/
def allocate {T : Type} (E : Env) : Prog T Ptr := fun w =>
  if E.allocFails w.allocCalls then
    (Outcome.raised Failure.bad_alloc, { w with allocCalls := w.allocCalls + 1 })
  else
    (Outcome.done (Ptr.node w.allocCalls),
     { w with
       mem := Function.update w.mem (Ptr.node w.allocCalls)
                (some ⟨Ptr.node w.allocCalls, Ptr.node w.allocCalls, none⟩)
       allocCalls := w.allocCalls + 1
       allocated := w.allocated + 1 })

/-- Source: `AllocTraits::construct(alloc, p, value)`: runs `Node(const value_type&)`,
    which copy-constructs the element in the storage at `p`; the element copy
    constructor may throw. -/
def construct {T : Type} (E : Env) (p : Ptr) (value : T) : Prog T Unit := fun w =>
  match w.mem p with
  | none => (Outcome.undefined, w)
  | some c =>
    if E.ctorThrows w.ctorCalls then
      (Outcome.raised Failure.ctor_throw, { w with ctorCalls := w.ctorCalls + 1 })
    else
      (Outcome.done (),
       { w with
         mem := Function.update w.mem p (some { c with value := some value })
         ctorCalls := w.ctorCalls + 1 })

/-- Source: `AllocTraits::destroy(alloc, p)` with `p : Node*`: ends the life of the
    element held at `p`. -/
def destroy {T : Type} (p : Ptr) : Prog T Unit := fun w =>
  match w.mem p with
  | none => (Outcome.undefined, w)
  | some c =>
    match c.value with
    | none => (Outcome.undefined, w)
    | some _ =>
      (Outcome.done (),
       { w with
         mem := Function.update w.mem p (some { c with value := none })
         destroyed := w.destroyed + 1 })

/-- Source: `AllocTraits::destroy(alloc, p)` with `p : BaseNode*` (the static type of
    `base_iterator::ptr`): runs the trivial destructor of `BaseNode`; the
    record must be live. -/
def destroyBase {T : Type} (p : Ptr) : Prog T Unit := do
  let _ ← getNode (T := T) p
  pure ()

/-- Source: `AllocTraits::deallocate(alloc, p, 1)`: `p` must be storage obtained from
    the allocator and not yet released. -/
def deallocate {T : Type} (p : Ptr) : Prog T Unit := fun w =>
  match p with
  | Ptr.obj _ => (Outcome.undefined, w)
  | Ptr.node _ =>
    match w.mem p with
    | none => (Outcome.undefined, w)
    | some _ =>
      (Outcome.done (),
       { w with
         mem := Function.update w.mem p none
         deallocated := w.deallocated + 1 })

/-- Source: `deallocate` applied to a local `Node*` that may never have been assigned. -/
def deallocateLocal {T : Type} (p : Option Ptr) : Prog T Unit :=
  match p with
  | none => undef
  | some q => deallocate q

/-! ## The container -/

/-- Source: `&fakeNode` of list object `this`. -/
def fakeNode (this : Nat) : Ptr := Ptr.obj this

/-- Source: `bindNewNodeToTop(node)`. -/
def bindNewNodeToTop {T : Type} (this : Nat) (node : Ptr) : Prog T Unit := do
  let head ← getNext (fakeNode this)
  setNext (fakeNode this) node
  setPrev node (fakeNode this)
  setPrev head node
  setNext node head

/-- Source: `bindNewNodeToEnd(node)`. -/
def bindNewNodeToEnd {T : Type} (this : Nat) (node : Ptr) : Prog T Unit := do
  let tail ← getPrev (fakeNode this)
  setPrev (fakeNode this) node
  setNext tail node
  setNext node (fakeNode this)
  setPrev node tail

/-- The member initialiser `fakeNode{&fakeNode, &fakeNode}`. -/
def initFakeNode {T : Type} (this : Nat) : Prog T Unit :=
  putNode (fakeNode this) ⟨fakeNode this, fakeNode this, none⟩

/-- Source: `list()`: self-linked sentinel, `sz(0)`, default allocator (handle 0). -/
def list_default {T : Type} (this : Nat) : Prog T Unit := do
  initFakeNode this
  setSz this 0
  setAlloc this 0

/-- Source: `list(const Allocator& alloc)`. -/
def list_alloc {T : Type} (this : Nat) (a : Nat) : Prog T Unit := do
  initFakeNode this
  setSz this 0
  setAlloc this a

/-- Source: `size()`. -/
def size {T : Type} (this : Nat) : Prog T Nat := getSz this

/-- Source: `empty()`: `!sz`. -/
def empty {T : Type} (this : Nat) : Prog T Bool := do
  let n ← getSz this
  pure (n == 0)

/-- Source: `begin()` / `cbegin()`. -/
def begin {T : Type} (this : Nat) : Prog T Ptr := getNext (fakeNode this)

/-- Source: `end()` / `cend()`. -/
def end_ (this : Nat) : Ptr := fakeNode this

/-- Source: `base_iterator::operator++`. -/
def it_incr {T : Type} (it : Ptr) : Prog T Ptr := getNext it

/-- Source: `base_iterator::operator--`. -/
def it_decr {T : Type} (it : Ptr) : Prog T Ptr := getPrev it

/-- Source: `base_iterator::operator*`: the record must hold an element. -/
def it_deref {T : Type} (it : Ptr) : Prog T T := do
  let c ← getNode it
  match c.value with
  | some v => pure v
  | none => undef

/-- Source: `front()`. -/
def front {T : Type} (this : Nat) : Prog T T := do
  let p ← getNext (fakeNode this)
  it_deref p

/-- Source: `back()`. -/
def back {T : Type} (this : Nat) : Prog T T := do
  let p ← getPrev (fakeNode this)
  it_deref p

/-- Source: `push_front(value)`. -/
def push_front {T : Type} (E : Env) (this : Nat) (value : T) : Prog T Unit := do
  let newNode ← allocate E
  construct E newNode value
  bindNewNodeToTop this newNode
  setSz this (size_incr (← getSz this))

/-- Source: `pop_front()`. -/
def pop_front {T : Type} (this : Nat) : Prog T Unit := do
  let node ← getNext (T := T) (fakeNode this)
  setNext (fakeNode this) (← getNext node)
  setPrev (← getNext node) (fakeNode this)
  destroy node
  deallocate node
  setSz this (size_decr (← getSz this))

/-- Source: `push_back(value)`. -/
def push_back {T : Type} (E : Env) (this : Nat) (value : T) : Prog T Unit := do
  let newNode ← allocate E
  construct E newNode value
  bindNewNodeToEnd this newNode
  setSz this (size_incr (← getSz this))

/-- Source: `pop_back()`. -/
def pop_back {T : Type} (this : Nat) : Prog T Unit := do
  let node ← getPrev (T := T) (fakeNode this)
  setPrev (fakeNode this) (← getPrev node)
  setNext (← getPrev node) (fakeNode this)
  destroy node
  deallocate node
  setSz this (size_decr (← getSz this))

/-- Source: `insert(pos, value)`. -/
def insert {T : Type} (E : Env) (this : Nat) (pos : Ptr) (value : T) : Prog T Unit := do
  let newNode ← allocate E
  construct E newNode value
  let before := pos
  let after ← getPrev before
  setNext newNode before
  setPrev newNode after
  setNext after newNode
  setPrev before newNode
  setSz this (size_incr (← getSz this))

/-- Source: `erase(pos)`. -/
def erase {T : Type} (this : Nat) (pos : Ptr) : Prog T Unit := do
  let node := pos
  setNext (T := T) (← getPrev node) (← getNext node)
  setPrev (← getNext node) (← getPrev node)
  destroy node
  deallocate node
  setSz this (size_decr (← getSz this))

/-- The loop of `clear()`: `while (sz) { next = current->next; destroy; deallocate;
    current = next; --sz; }`, the argument `n` being the value of `sz`. -/
def clearLoop {T : Type} (this : Nat) : Nat → Ptr → Prog T Unit
  | 0, _ => pure ()
  | n + 1, current => do
    let next ← getNext current
    destroy current
    deallocate current
    setSz this (size_decr (n + 1))
    clearLoop this n next

/-- Source: `clear()`. -/
def clear {T : Type} (this : Nat) : Prog T Unit := do
  let current ← getNext (T := T) (fakeNode this)
  clearLoop this (← getSz this) current

/-- Forget the result of a computation that did not end normally. -/
def Outcome.forget {α : Type} : Outcome α → Outcome Unit
  | Outcome.done _ => Outcome.done ()
  | Outcome.raised e => Outcome.raised e
  | Outcome.undefined => Outcome.undefined
  | Outcome.timeout => Outcome.timeout

/-- What the fill constructor does with the storage `newNode` once it is
    allocated: `construct(newNode, value); bindNewNodeToTop(newNode);`. -/
def fillStep {T : Type} (E : Env) (this : Nat) (value : T) (newNode : Ptr) : Prog T Unit := do
  construct E newNode value
  bindNewNodeToTop this newNode

/-- The try block of `list(size_type count, const T& value, const Allocator&)`:
    `for (; i != count; ++i) { newNode = allocate; construct(newNode, value);
    bindNewNodeToTop(newNode); }`. The first argument is `count - i`, the number
    of iterations left. Besides the outcome the loop hands back the locals `i`
    and `newNode` (`none` while it was never assigned) as they stand when the
    loop is left, which is what the handler reads. -/
def fillLoop {T : Type} (E : Env) (this : Nat) (value : T) :
    Nat → Nat → Option Ptr → World T → Outcome Unit × (Nat × Option Ptr) × World T
  | 0, i, newNode, w => (Outcome.done (), (i, newNode), w)
  | n + 1, i, newNode, w =>
    match allocate E w with
    | (Outcome.done p, w1) =>
      match fillStep E this value p w1 with
      | (Outcome.done _, w2) => fillLoop E this value n (i + 1) (some p) w2
      | (o, w2) => (o, (i, some p), w2)
    | (o, w1) => (o.forget, (i, newNode), w1)

/-- The handler loop of the fill constructor: `while (i) { next = current->next;
    destroy(current); deallocate(current); current = next; --i; }`. -/
def fillRollback {T : Type} : Nat → Ptr → Prog T Unit
  | 0, _ => pure ()
  | i + 1, current => do
    let next ← getNext current
    destroy current
    deallocate current
    fillRollback i next

/-- The handler `catch (...)` of the fill constructor, entered with the locals
    `i` and `newNode` and the exception `e` in flight: `current = fakeNode.next;`
    the loop `while (i)`, then `deallocate(newNode); throw;`. -/
def fillHandler {T : Type} (this : Nat) (i : Nat) (newNode : Option Ptr) (e : Failure) :
    Prog T Unit := do
  let current ← getNext (fakeNode this)
  fillRollback i current
  deallocateLocal newNode
  raise e

/-- The member initialisers of the fill constructor: `fakeNode{&fakeNode,
    &fakeNode}, alloc(alloc)`; `sz` is not initialised. -/
def fillInit {T : Type} (this : Nat) (a : Nat) : Prog T Unit := do
  initFakeNode this
  setAlloc this a

/-- Source: `list(size_type count, const T& value, const Allocator& alloc)`. The
    member `sz` is written only after the loop. -/
def list_fill {T : Type} (E : Env) (this : Nat) (count : Nat) (value : T) (a : Nat) :
    Prog T Unit := fun w =>
  match fillInit this a w with
  | (_, w0) =>
    match fillLoop E this value count 0 none w0 with
    | (Outcome.done _, _, w1) => setSz this count w1
    | (Outcome.raised e, (i, newNode), w1) => fillHandler this i newNode e w1
    | (o, _, w1) => (o, w1)

/-- Source: `AllocTraits::select_on_container_copy_construction`; the default of
    `std::allocator_traits` returns a copy of the allocator. -/
def select_on_container_copy_construction (a : Nat) : Nat := a

/-- One round of the loop of the copy constructor: the body `newNode = allocate;
    construct(newNode, *it); bindNewNodeToEnd(newNode);` followed by `++it`;
    the result is the advanced iterator. -/
def copyStep {T : Type} (E : Env) (this : Nat) (it : Ptr) : Prog T Ptr := do
  let newNode ← allocate E
  construct E newNode (← it_deref it)
  bindNewNodeToEnd this newNode
  it_incr it

/-- The try block of `list(const list& other)`: `for (; it != other.cend(); ++it)
    { newNode = allocate; construct(newNode, *it); bindNewNodeToEnd(newNode); }`.
    The first argument bounds the number of tests of the loop condition.
    Besides the outcome the loop hands back the iterator `it` as it stands
    when the loop is left. -/
def copyLoop {T : Type} (E : Env) (this other : Nat) :
    Nat → Ptr → World T → Outcome Unit × Ptr × World T
  | 0, it, w => (Outcome.timeout, it, w)
  | fuel + 1, it, w =>
    if it ≠ end_ other then
      match copyStep E this it w with
      | (Outcome.done it1, w1) => copyLoop E this other fuel it1 w1
      | (o, w1) => (o.forget, it, w1)
    else (Outcome.done (), it, w)

/-- The handler loop of the copy constructor: `for (auto start = this->begin();
    it != start; ++start) { destroy(alloc, it.ptr); deallocate(alloc, it.ptr, 1); }`.
    The first argument bounds the number of tests of the loop condition. -/
def copyRollback {T : Type} (it : Ptr) : Nat → Ptr → Prog T Unit
  | 0, _ => diverge
  | fuel + 1, start =>
    if it ≠ start then do
      destroyBase (T := T) it
      deallocate it
      copyRollback it fuel (← it_incr start)
    else pure ()

/-- The handler `catch (...)` of the copy constructor, entered with the local
    `it` and the exception `e` in flight: the loop from `start = this->begin()`,
    then `throw;`. -/
def copyHandler {T : Type} (fuel : Nat) (this : Nat) (it : Ptr) (e : Failure) : Prog T Unit := do
  let start ← begin this
  copyRollback it fuel start
  raise e

/-- The member initialisers of the copy constructor, `fakeNode{&fakeNode,
    &fakeNode}, sz(other.sz), alloc(select_on_container_copy_construction(
    other.alloc))`, and the first statement `auto it = other.cbegin();`, whose
    iterator is the result. -/
def copyInit {T : Type} (this other : Nat) : Prog T Ptr := do
  initFakeNode this
  setSz this (← getSz other)
  setAlloc this (select_on_container_copy_construction (← getAlloc other))
  begin other

/-- Source: `list(const list& other)`. -/
def list_copy {T : Type} (E : Env) (fuel : Nat) (this other : Nat) : Prog T Unit := fun w =>
  match copyInit this other w with
  | (Outcome.done it0, w0) =>
    match copyLoop E this other fuel it0 w0 with
    | (Outcome.done _, _, w1) => (Outcome.done (), w1)
    | (Outcome.raised e, it, w1) => copyHandler fuel this it e w1
    | (o, _, w1) => (o, w1)
  | (o, w0) => (o.forget, w0)

/-- Source: `friend void swap(list& lhs, list& rhs)`. -/
def swap {T : Type} (lhs rhs : Nat) : Prog T Unit := do
  if (← empty (T := T) lhs) then
    setNext (fakeNode lhs) (← getNext (fakeNode rhs))
    setPrev (fakeNode lhs) (← getPrev (fakeNode rhs))
    setPrev (← getNext (fakeNode lhs)) (fakeNode lhs)
    setNext (← getPrev (fakeNode lhs)) (fakeNode lhs)
    setNext (fakeNode rhs) (fakeNode rhs)
    setPrev (fakeNode rhs) (fakeNode rhs)
  if (← empty rhs) then
    setNext (fakeNode rhs) (← getNext (fakeNode lhs))
    setPrev (fakeNode rhs) (← getPrev (fakeNode lhs))
    setPrev (← getNext (fakeNode rhs)) (fakeNode rhs)
    setNext (← getPrev (fakeNode rhs)) (fakeNode rhs)
    setNext (fakeNode lhs) (fakeNode lhs)
    setPrev (fakeNode lhs) (fakeNode lhs)
  if (← size lhs) != 0 && (← size rhs) != 0 then
    let lhs_first ← getNext (fakeNode lhs)
    let lhs_last ← getPrev (fakeNode lhs)
    let rhs_first ← getNext (fakeNode rhs)
    let rhs_last ← getPrev (fakeNode rhs)
    setNext (fakeNode lhs) rhs_first
    setPrev (fakeNode lhs) rhs_last
    setNext (fakeNode rhs) lhs_first
    setPrev (fakeNode rhs) lhs_last
    setPrev lhs_first (fakeNode rhs)
    setNext lhs_last (fakeNode rhs)
    setPrev rhs_first (fakeNode lhs)
    setNext rhs_last (fakeNode lhs)
  let lsz ← getSz lhs
  setSz lhs (← getSz rhs)
  setSz rhs lsz
  let lalloc ← getAlloc lhs
  setAlloc lhs (← getAlloc rhs)
  setAlloc rhs lalloc

/-- Source: `list(list&& other) noexcept : list() { swap(*this, other); }`. -/
def list_move {T : Type} (this other : Nat) : Prog T Unit := do
  list_default (T := T) this
  swap this other

/-- Source: `~list() { clear(); }`. -/
def list_dtor {T : Type} (this : Nat) : Prog T Unit := clear (T := T) this

/-- Source: `list& operator=(list other) &` called with an lvalue `src`: the by-value
    parameter is the list object `tmp`, copy-constructed from `src` by the
    caller and destroyed when the call is over. -/
def assign {T : Type} (E : Env) (fuel : Nat) (this tmp src : Nat) : Prog T Unit := do
  list_copy (T := T) E fuel tmp src
  swap this tmp
  list_dtor tmp

/-- Walk `it` up to `last` with `operator!=`, `operator*` and `operator++`,
    collecting the elements met; the first argument bounds the number of tests
    of `it != last`. -/
def collect {T : Type} (last : Ptr) : Nat → Ptr → Prog T (List T)
  | 0, _ => diverge
  | fuel + 1, it =>
    if it ≠ last then do
      let v ← it_deref it
      let rest ← collect last fuel (← it_incr it)
      pure (v :: rest)
    else pure []

/-- The elements met by `for (it = begin(); it != end(); ++it)` on list `this`. -/
def to_seq {T : Type} (fuel : Nat) (this : Nat) : Prog T (List T) := do
  collect (end_ this) fuel (← begin this)

/-- Assignment through a non-const iterator, `*it = value`: `operator*` hands out
    a reference to the element of the node, which must hold one. -/
def it_assign {T : Type} (it : Ptr) (value : T) : Prog T Unit := do
  let c ← getNode it
  match c.value with
  | some _ => putNode it { c with value := some value }
  | none => undef

/-- Call `erase` on each iterator of a list of iterators, first to last. -/
def eraseMany {T : Type} (this : Nat) : List Ptr → Prog T Unit
  | [] => pure ()
  | q :: rest => do
    erase (T := T) this q
    eraseMany this rest

/-- Where `n` applications of `operator++` take the iterator `it` in the memory
    of world `w`, which is left as it is; `none` when a step reads storage
    that is not live. -/
def advance {T : Type} (w : World T) : Nat → Ptr → Option Ptr
  | 0, it => some it
  | n + 1, it =>
    match (it_incr it w).1 with
    | Outcome.done it1 => advance w n it1
    | _ => none

/-! ## Abstraction: the ring described by the list of its element nodes -/

/-- Addresses of the element nodes `ps`. -/
def keys {T : Type} (ps : List (Ptr × T)) : List Ptr := ps.map Prod.fst

/-- Elements held by the element nodes `ps`. -/
def values {T : Type} (ps : List (Ptr × T)) : List T := ps.map Prod.snd

/-- Address of the first node of `ps`, or `after` when there is none. -/
def nextOf {T : Type} (ps : List (Ptr × T)) (after : Ptr) : Ptr :=
  match ps with
  | [] => after
  | pc :: _ => pc.1

/-- Address of the last node of `ps`, or `before` when there is none. -/
def lastOf {T : Type} (before : Ptr) : List (Ptr × T) → Ptr
  | [] => before
  | pc :: rest => lastOf pc.1 rest

/-- The records a chain of element nodes `ps` must hold when it is linked
    between the record `before` and the record `after`. -/
def cells {T : Type} (before : Ptr) : List (Ptr × T) → Ptr → List (Ptr × Node T)
  | [], _ => []
  | pc :: rest, after => (pc.1, ⟨nextOf rest after, before, some pc.2⟩) :: cells pc.1 rest after

/-- The records of a closed ring: the sentinel `s` and the element nodes `ps`. -/
def ringCells {T : Type} (s : Ptr) (ps : List (Ptr × T)) : List (Ptr × Node T) :=
  (s, ⟨nextOf ps s, lastOf s ps, none⟩) :: cells s ps s

/-- The memory `m` holds every record of `L`. -/
def Holds {T : Type} (m : Ptr → Option (Node T)) (L : List (Ptr × Node T)) : Prop :=
  ∀ pc ∈ L, m pc.1 = some pc.2

/-- Whether the pointer is node storage from the allocator. -/
def Ptr.isNode : Ptr → Bool
  | Ptr.obj _ => false
  | Ptr.node _ => true

/-- List object `this` is a closed ring whose element nodes are, front to back,
    `ps` (address and element): the sentinel and every node hold the links of
    a ring, the nodes are pairwise distinct and are allocator storage. -/
def Ring {T : Type} (w : World T) (this : Nat) (ps : List (Ptr × T)) : Prop :=
  Holds w.mem (ringCells (fakeNode this) ps) ∧ (keys ps).Nodup ∧
    ∀ p ∈ keys ps, p.isNode = true

/-- A well-formed list: a closed ring whose member `sz`, a `size_type`, is the
    number of element nodes. -/
def WellFormed {T : Type} (w : World T) (this : Nat) (ps : List (Ptr × T)) : Prop :=
  Ring w this ps ∧ w.sz this = ps.length ∧ ps.length < 2 ^ size_bits

/-- The iterator that references the `i`-th node of the ring `ps` of list
    `this`; for `i = ps.length` (and beyond) it is `end()`. -/
def nodeAt {T : Type} (this : Nat) (ps : List (Ptr × T)) (i : Nat) : Ptr :=
  nextOf (ps.drop i) (fakeNode this)

/-- The allocator is consistent with the memory: storage it has not handed out
    yet is not live. -/
def Fresh {T : Type} (w : World T) : Prop :=
  ∀ n, w.allocCalls ≤ n → w.mem (Ptr.node n) = none

/-- Number of node storages allocated and not yet released. -/
def outstanding {T : Type} (w : World T) : Nat := w.allocated - w.deallocated

instance instDecidableHolds {T : Type} [DecidableEq T] (m : Ptr → Option (Node T))
    (L : List (Ptr × Node T)) : Decidable (Holds m L) := by
  unfold Holds; infer_instance

instance instDecidableRing {T : Type} [DecidableEq T] (w : World T) (this : Nat)
    (ps : List (Ptr × T)) : Decidable (Ring w this ps) := by
  unfold Ring; infer_instance

instance instDecidableWellFormed {T : Type} [DecidableEq T] (w : World T) (this : Nat)
    (ps : List (Ptr × T)) : Decidable (WellFormed w this ps) := by
  unfold WellFormed; infer_instance

/-- What linking a new node `q` holding `v` between the adjacent records `a`
    and `b` does to a memory `m`, giving `m1`: `q` is linked to both, `a->next`
    and `b->prev` refer to `q`, every other record is untouched. -/
def Linked {T : Type} (m m1 : Ptr → Option (Node T)) (a q b : Ptr) (v : T) : Prop :=
  m1 q = some ⟨b, a, some v⟩ ∧
  (∀ c, m a = some c →
    m1 a = some (if a = b then { c with next := q, prev := q } else { c with next := q })) ∧
  (∀ c, m b = some c → a ≠ b → m1 b = some { c with prev := q }) ∧
  (∀ p, p ≠ q → p ≠ a → p ≠ b → m1 p = m p)

/-- What unlinking the node `p` that sits between the records `a` and `b`
    does to a memory `m`, giving `m1`: `a->next` refers to `b`, `b->prev` to
    `a`, every record other than `a`, `b` and `p` is untouched. -/
def Unlinked {T : Type} (m m1 : Ptr → Option (Node T)) (a p b : Ptr) : Prop :=
  (∀ c, m a = some c →
    m1 a = some (if a = b then { c with next := b, prev := a } else { c with next := b })) ∧
  (∀ c, m b = some c → a ≠ b → m1 b = some { c with prev := a }) ∧
  (∀ r, r ≠ p → r ≠ a → r ≠ b → m1 r = m r)

/-- The memory and the allocator of world `w1` are those of world `w` after one
    more node holding `v` has been allocated, constructed and linked between
    `a` and `b`: the memory is linked, the allocator has made one more
    allocation and one more construction. -/
def Pushed {T : Type} (w w1 : World T) (a b : Ptr) (v : T) : Prop :=
  Linked w.mem w1.mem a (Ptr.node w.allocCalls) b v ∧
  w1.alloc = w.alloc ∧
  w1.allocCalls = w.allocCalls + 1 ∧
  w1.allocated = w.allocated + 1 ∧
  w1.deallocated = w.deallocated ∧
  w1.ctorCalls = w.ctorCalls + 1 ∧
  w1.destroyed = w.destroyed

/-- The memory and the allocator of world `w1` are those of world `w` after the
    node `p` between `a` and `b` has been unlinked, destroyed and deallocated:
    the memory is unlinked and `p` is no longer live, one more element is
    destroyed and one more storage released. -/
def Popped {T : Type} (w w1 : World T) (a p b : Ptr) : Prop :=
  Unlinked w.mem w1.mem a p b ∧
  w1.mem p = none ∧
  w1.alloc = w.alloc ∧
  w1.allocCalls = w.allocCalls ∧
  w1.allocated = w.allocated ∧
  w1.deallocated = w.deallocated + 1 ∧
  w1.ctorCalls = w.ctorCalls ∧
  w1.destroyed = w.destroyed + 1

/-- What `swap(lhs, rhs)` does outside the memory: the members `sz` and `alloc`
    of the two lists are exchanged, the allocator bookkeeping is untouched. -/
def SwappedFields {T : Type} (w w1 : World T) (lhs rhs : Nat) : Prop :=
  w1.sz = Function.update (Function.update w.sz lhs (w.sz rhs)) rhs (w.sz lhs) ∧
  w1.alloc = Function.update (Function.update w.alloc lhs (w.alloc rhs)) rhs (w.alloc lhs) ∧
  w1.allocCalls = w.allocCalls ∧
  w1.allocated = w.allocated ∧
  w1.deallocated = w.deallocated ∧
  w1.ctorCalls = w.ctorCalls ∧
  w1.destroyed = w.destroyed

/-- Every link of the ring of list `this` stays inside the ring: the sentinel
    and each element node of `ps` are live and their `next` and `prev` refer to
    the sentinel of `this` or to an element node of `ps`. -/
def Closed {T : Type} (w : World T) (this : Nat) (ps : List (Ptr × T)) : Prop :=
  ∀ p ∈ fakeNode this :: keys ps, ∃ c, w.mem p = some c ∧
    c.next ∈ fakeNode this :: keys ps ∧ c.prev ∈ fakeNode this :: keys ps

/-! ## Sequences of end operations and their abstract meaning -/

/-- The four end operations. -/
inductive Op (T : Type) where
  | push_back (v : T)
  | push_front (v : T)
  | pop_back
  | pop_front

/-- Run one end operation on list `this`. -/
def Op.run {T : Type} (E : Env) (this : Nat) : Op T → Prog T Unit
  | Op.push_back v => ktxlist.push_back E this v
  | Op.push_front v => ktxlist.push_front E this v
  | Op.pop_back => ktxlist.pop_back this
  | Op.pop_front => ktxlist.pop_front this

/-- Run a sequence of end operations on list `this`, first to last. -/
def runOps {T : Type} (E : Env) (this : Nat) : List (Op T) → Prog T Unit
  | [] => pure ()
  | op :: rest => do
    op.run E this
    runOps E this rest

/-- The abstract meaning of one end operation on a sequence: append, prepend,
    drop-last, drop-first; a pop of the empty sequence is not allowed. -/
def Op.abs {T : Type} : Op T → List T → Option (List T)
  | Op.push_back v, xs => some (xs ++ [v])
  | Op.push_front v, xs => some (v :: xs)
  | Op.pop_back, xs => if xs.isEmpty then none else some xs.dropLast
  | Op.pop_front, xs => if xs.isEmpty then none else some xs.tail

/-- The abstract meaning of a sequence of end operations. -/
def absRun {T : Type} : List (Op T) → List T → Option (List T)
  | [], xs => some xs
  | op :: rest, xs =>
    match op.abs xs with
    | some ys => absRun rest ys
    | none => none

/-- Default-construct list `this`, then run a sequence of end operations on it. -/
def runFromDefault {T : Type} (E : Env) (this : Nat) (ops : List (Op T)) : Prog T Unit := do
  list_default this
  runOps E this ops

/-- The public mutators of a list, with their arguments; a position is given by
    the index of the node the iterator references in the ring (the length of
    the ring standing for `end()`); `assign i v` is `*it = v` through an
    iterator to the `i`-th node. -/
inductive Mutation (T : Type) where
  | push_back (v : T)
  | push_front (v : T)
  | pop_back
  | pop_front
  | insert (i : Nat) (v : T)
  | erase (i : Nat)
  | clear
  | assign (i : Nat) (v : T)

/-- Run one mutator on list `this`, whose element nodes are `ps`. -/
def Mutation.run {T : Type} (E : Env) (this : Nat) (ps : List (Ptr × T)) :
    Mutation T → Prog T Unit
  | Mutation.push_back v => ktxlist.push_back E this v
  | Mutation.push_front v => ktxlist.push_front E this v
  | Mutation.pop_back => ktxlist.pop_back this
  | Mutation.pop_front => ktxlist.pop_front this
  | Mutation.insert i v => ktxlist.insert E this (nodeAt this ps i) v
  | Mutation.erase i => ktxlist.erase this (nodeAt this ps i)
  | Mutation.clear => ktxlist.clear this
  | Mutation.assign i v => it_assign (nodeAt this ps i) v

/-- The precondition of a mutator on a list with element nodes `ps`: no pop of
    an empty list, a position inside the ring, an element node to erase or to
    assign through. -/
def Mutation.valid {T : Type} (ps : List (Ptr × T)) : Mutation T → Prop
  | Mutation.push_back _ => True
  | Mutation.push_front _ => True
  | Mutation.pop_back => ps ≠ []
  | Mutation.pop_front => ps ≠ []
  | Mutation.insert i _ => i ≤ ps.length
  | Mutation.erase i => i < ps.length
  | Mutation.clear => True
  | Mutation.assign i _ => i < ps.length

/-- Whether the operation is a push. -/
def Op.isPush {T : Type} : Op T → Bool
  | Op.push_back _ => true
  | Op.push_front _ => true
  | Op.pop_back => false
  | Op.pop_front => false

/-- Number of pushes in a sequence of operations. -/
def pushes {T : Type} (ops : List (Op T)) : Nat := (ops.filter Op.isPush).length

/-- Number of pops in a sequence of operations. -/
def pops {T : Type} (ops : List (Op T)) : Nat := (ops.filter (fun op => !op.isPush)).length

/-- The nodes the loop of the fill constructor has linked after `j` rounds that
    began when the allocator had made `c` calls: the latest node is first. -/
def fillNodes {T : Type} (c : Nat) (value : T) : Nat → List (Ptr × T)
  | 0 => []
  | j + 1 => (Ptr.node (c + j), value) :: fillNodes c value j

/-- The local `newNode` of the fill constructor after `j` rounds that began
    when the allocator had made `c` calls and the local held `newNode`. -/
def lastNew (newNode : Option Ptr) (c : Nat) : Nat → Option Ptr
  | 0 => newNode
  | j + 1 => some (Ptr.node (c + j))

/-! ## Concrete worlds used as test inputs -/

/-- A world in which list object 0 holds the elements 1, 2 in the node storages
    0 and 1 handed out by the allocator. -/
def world12 : World Nat where
  mem := fun p =>
    match p with
    | Ptr.obj 0 => some ⟨Ptr.node 0, Ptr.node 1, none⟩
    | Ptr.node 0 => some ⟨Ptr.node 1, Ptr.obj 0, some 1⟩
    | Ptr.node 1 => some ⟨Ptr.obj 0, Ptr.node 0, some 2⟩
    | _ => none
  sz := fun n => if n = 0 then 2 else 0
  alloc := fun _ => 0
  allocCalls := 2
  allocated := 2
  deallocated := 0
  ctorCalls := 2
  destroyed := 0

/-- A world with two lists: list object 0 holds 1, 2 in the node storages 0 and
    1, list object 1 holds 3 in the node storage 2. -/
def worldTwo : World Nat where
  mem := fun p =>
    match p with
    | Ptr.obj 0 => some ⟨Ptr.node 0, Ptr.node 1, none⟩
    | Ptr.node 0 => some ⟨Ptr.node 1, Ptr.obj 0, some 1⟩
    | Ptr.node 1 => some ⟨Ptr.obj 0, Ptr.node 0, some 2⟩
    | Ptr.obj 1 => some ⟨Ptr.node 2, Ptr.node 2, none⟩
    | Ptr.node 2 => some ⟨Ptr.obj 1, Ptr.obj 1, some 3⟩
    | _ => none
  sz := fun n => if n = 0 then 2 else if n = 1 then 1 else 0
  alloc := fun _ => 0
  allocCalls := 3
  allocated := 3
  deallocated := 0
  ctorCalls := 3
  destroyed := 0

/-- The element nodes of list object 1 in `worldTwo`. -/
def ps3 : List (Ptr × Nat) := [(Ptr.node 2, 3)]

/-- An element type whose copy constructor always throws, with an allocator
    that never fails. -/
def throwingCtor : Env := ⟨fun _ => false, fun _ => true⟩

/-- An environment whose second construct call (number 1) throws; allocations
    never fail. -/
def throwSecondCtor : Env := ⟨fun _ => false, fun k => k == 1⟩

/-- An allocator whose allocate call number `n` fails (calls are counted from
    0); constructions never throw. -/
def failAlloc (n : Nat) : Env := ⟨fun k => k == n, fun _ => false⟩

/-- The element nodes of list object 0 in `world12`. -/
def ps12 : List (Ptr × Nat) := [(Ptr.node 0, 1), (Ptr.node 1, 2)]

/-- The world in which the handler of the copy constructor is entered when list
    object 1 is copy-constructed from list object 0 of `world12` and the second
    allocation of the copy fails: the new list holds one node, node storage 2. -/
def copyFailWorld : World Nat :=
  (copyLoop (failAlloc 3) 1 0 10 (Ptr.node 0) (copyInit 1 0 world12).2).2.2

/-! ## Theorems -/

section basic

variable {T : Type}

@[simp] theorem bind_apply {α β : Type} (m : Prog T α) (f : α → Prog T β) (w : World T) :
    (m >>= f) w = Prog.bind m f w := rfl

@[simp] theorem pure_apply {α : Type} (a : α) (w : World T) :
    (pure a : Prog T α) w = (Outcome.done a, w) := rfl

theorem Prog.bind_done {α β : Type} {m : Prog T α} {f : α → Prog T β} {w w1 : World T} {a : α}
    (h : m w = (Outcome.done a, w1)) : Prog.bind m f w = f a w1 := by
  simp [Prog.bind, h]

theorem Prog.eq_of_fst {α : Type} {r : Outcome α × World T} {a : α} (h : r.1 = Outcome.done a) :
    r = (Outcome.done a, r.2) :=
  Prod.ext h rfl

theorem getNode_eq {w : World T} {p : Ptr} {c : Node T} (h : w.mem p = some c) :
    getNode p w = (Outcome.done c, w) := by
  simp [getNode, h]

theorem getNext_eq {w : World T} {p : Ptr} {c : Node T} (h : w.mem p = some c) :
    getNext p w = (Outcome.done c.next, w) := by
  simp [getNext, Prog.bind, getNode, h]

theorem getPrev_eq {w : World T} {p : Ptr} {c : Node T} (h : w.mem p = some c) :
    getPrev p w = (Outcome.done c.prev, w) := by
  simp [getPrev, Prog.bind, getNode, h]

@[simp] theorem keys_nil : keys ([] : List (Ptr × T)) = [] := rfl

@[simp] theorem keys_cons (pc : Ptr × T) (ps : List (Ptr × T)) :
    keys (pc :: ps) = pc.1 :: keys ps := rfl

@[simp] theorem keys_append (l1 l2 : List (Ptr × T)) :
    keys (l1 ++ l2) = keys l1 ++ keys l2 := by
  simp [keys]

@[simp] theorem values_nil : values ([] : List (Ptr × T)) = [] := rfl

@[simp] theorem values_cons (pc : Ptr × T) (ps : List (Ptr × T)) :
    values (pc :: ps) = pc.2 :: values ps := rfl

@[simp] theorem values_append (l1 l2 : List (Ptr × T)) :
    values (l1 ++ l2) = values l1 ++ values l2 := by
  simp [values]

@[simp] theorem values_length (ps : List (Ptr × T)) : (values ps).length = ps.length := by
  simp [values]

@[simp] theorem nextOf_nil (x : Ptr) : nextOf ([] : List (Ptr × T)) x = x := rfl

@[simp] theorem nextOf_cons (pc : Ptr × T) (ps : List (Ptr × T)) (x : Ptr) :
    nextOf (pc :: ps) x = pc.1 := rfl

@[simp] theorem lastOf_nil (x : Ptr) : lastOf x ([] : List (Ptr × T)) = x := rfl

@[simp] theorem lastOf_cons (pc : Ptr × T) (ps : List (Ptr × T)) (x : Ptr) :
    lastOf x (pc :: ps) = lastOf pc.1 ps := rfl

@[simp] theorem nextOf_append (l1 l2 : List (Ptr × T)) (x : Ptr) :
    nextOf (l1 ++ l2) x = nextOf l1 (nextOf l2 x) := by
  cases l1 <;> simp

@[simp] theorem lastOf_append (l1 l2 : List (Ptr × T)) (x : Ptr) :
    lastOf x (l1 ++ l2) = lastOf (lastOf x l1) l2 := by
  induction l1 generalizing x with
  | nil => simp
  | cons pc l1 ih => simp [ih]

@[simp] theorem cells_nil (x y : Ptr) : cells x ([] : List (Ptr × T)) y = [] := rfl

@[simp] theorem cells_cons (pc : Ptr × T) (ps : List (Ptr × T)) (x y : Ptr) :
    cells x (pc :: ps) y = (pc.1, ⟨nextOf ps y, x, some pc.2⟩) :: cells pc.1 ps y := rfl

theorem cells_append (l1 l2 : List (Ptr × T)) (x y : Ptr) :
    cells x (l1 ++ l2) y = cells x l1 (nextOf l2 y) ++ cells (lastOf x l1) l2 y := by
  induction l1 generalizing x with
  | nil => simp
  | cons pc l1 ih => simp [ih]

theorem cells_keys (l : List (Ptr × T)) (x y : Ptr) :
    (cells x l y).map Prod.fst = keys l := by
  induction l generalizing x with
  | nil => simp
  | cons pc l ih => simp [ih]

theorem nextOf_of_ne_nil {l : List (Ptr × T)} (h : l ≠ []) (x y : Ptr) :
    nextOf l x = nextOf l y := by
  cases l with
  | nil => exact absurd rfl h
  | cons pc l => simp

theorem lastOf_of_ne_nil {l : List (Ptr × T)} (h : l ≠ []) (x y : Ptr) :
    lastOf x l = lastOf y l := by
  cases l with
  | nil => exact absurd rfl h
  | cons pc l => simp

theorem nextOf_mem {l : List (Ptr × T)} (h : l ≠ []) (x : Ptr) : nextOf l x ∈ keys l := by
  cases l with
  | nil => exact absurd rfl h
  | cons pc l => simp

theorem lastOf_mem {l : List (Ptr × T)} (h : l ≠ []) (x : Ptr) : lastOf x l ∈ keys l := by
  induction l generalizing x with
  | nil => exact absurd rfl h
  | cons pc l ih =>
    cases l with
    | nil => simp
    | cons pd l =>
      have := ih (by simp) pc.1
      simp only [lastOf_cons, keys_cons, List.mem_cons] at this ⊢
      exact Or.inr this

@[simp] theorem Holds_nil (m : Ptr → Option (Node T)) : Holds m [] := by
  simp [Holds]

@[simp] theorem Holds_cons (m : Ptr → Option (Node T)) (pc : Ptr × Node T)
    (L : List (Ptr × Node T)) : Holds m (pc :: L) ↔ m pc.1 = some pc.2 ∧ Holds m L := by
  simp [Holds]

@[simp] theorem Holds_append (m : Ptr → Option (Node T)) (L1 L2 : List (Ptr × Node T)) :
    Holds m (L1 ++ L2) ↔ Holds m L1 ∧ Holds m L2 := by
  simp [Holds, or_imp, forall_and]

theorem Holds.frame {m m1 : Ptr → Option (Node T)} {L : List (Ptr × Node T)}
    (h : Holds m L) (hm : ∀ p ∈ L.map Prod.fst, m1 p = m p) : Holds m1 L := by
  intro pc hpc
  rw [hm pc.1 (List.mem_map_of_mem _ hpc)]
  exact h pc hpc

theorem collect_cells (w : World T) (s : Ptr) (l : List (Ptr × T)) (bf : Ptr)
    (hs : ∀ p ∈ keys l, p ≠ s) (h : Holds w.mem (cells bf l s)) (fuel : Nat)
    (hf : l.length < fuel) :
    collect s fuel (nextOf l s) w = (Outcome.done (values l), w) := by
  induction l generalizing bf fuel with
  | nil =>
    cases fuel with
    | zero => simp at hf
    | succ f => simp [collect]
  | cons pc l ih =>
    cases fuel with
    | zero => simp at hf
    | succ f =>
      simp only [cells_cons, Holds_cons] at h
      have hne : pc.1 ≠ s := hs pc.1 (by simp)
      have hrec := ih pc.1 (fun p hp => hs p (by simp [hp])) h.2 f
        (by simpa using hf)
      simp [collect, hne, it_deref, it_incr, Prog.bind, getNode, getNext, h.1, hrec]

theorem Ring.sentinel_not_mem {w : World T} {this : Nat} {ps : List (Ptr × T)}
    (h : Ring w this ps) : fakeNode this ∉ keys ps := by
  intro hmem
  have := h.2.2 _ hmem
  simp [fakeNode, Ptr.isNode] at this

theorem to_seq_ring {w : World T} {this : Nat} {ps : List (Ptr × T)} (h : Ring w this ps)
    (fuel : Nat) (hf : ps.length < fuel) :
    to_seq fuel this w = (Outcome.done (values ps), w) := by
  have hs : ∀ p ∈ keys ps, p ≠ fakeNode this := fun p hp e => h.sentinel_not_mem (e ▸ hp)
  have hc := h.1
  simp only [ringCells, Holds_cons] at hc
  have := collect_cells w (fakeNode this) ps (fakeNode this) hs hc.2 fuel hf
  simp [to_seq, begin, end_, Prog.bind, getNext, getNode, hc.1, this]

theorem Holds.relink_after {m m1 : Ptr → Option (Node T)} {bf x y : Ptr} {l : List (Ptr × T)}
    (h : Holds m (cells bf l x)) (hnd : (keys l).Nodup)
    (hfr : ∀ p ∈ keys l, p ≠ lastOf bf l → m1 p = m p)
    (hlast : l ≠ [] → ∀ c, m (lastOf bf l) = some c →
      m1 (lastOf bf l) = some { c with next := y }) :
    Holds m1 (cells bf l y) := by
  induction l generalizing bf with
  | nil => simp
  | cons pc l ih =>
    simp only [cells_cons, Holds_cons, keys_cons, List.nodup_cons] at h hnd ⊢
    by_cases hl : l = []
    · subst hl
      have := hlast (by simp) _ h.1
      simpa using this
    · have hne : pc.1 ≠ lastOf pc.1 l := fun e => hnd.1 (e ▸ lastOf_mem hl pc.1)
      refine ⟨?_, ih h.2 hnd.2 (fun p hp hpl => hfr p (by simp [hp]) (by simpa using hpl))
        (fun _ c hc => by simpa using hlast (by simp) c (by simpa using hc))⟩
      rw [hfr pc.1 (by simp) (by simpa using hne), h.1, nextOf_of_ne_nil hl x y]

theorem Holds.relink_before {m m1 : Ptr → Option (Node T)} {x y af : Ptr}
    {l : List (Ptr × T)} (h : Holds m (cells x l af)) (hnd : (keys l).Nodup)
    (hfr : ∀ p ∈ keys l, p ≠ nextOf l af → m1 p = m p)
    (hfirst : l ≠ [] → ∀ c, m (nextOf l af) = some c →
      m1 (nextOf l af) = some { c with prev := y }) :
    Holds m1 (cells y l af) := by
  cases l with
  | nil => simp
  | cons pc l =>
    simp only [cells_cons, Holds_cons, keys_cons, List.nodup_cons] at h hnd ⊢
    refine ⟨by simpa using hfirst (by simp) _ h.1, h.2.frame ?_⟩
    intro p hp
    rw [cells_keys] at hp
    exact hfr p (by simp [hp]) (by simp only [nextOf_cons]; rintro rfl; exact hnd.1 hp)

theorem ends_ne_of_left {s : Ptr} {l1 l2 : List (Ptr × T)} (hnd : (keys (l1 ++ l2)).Nodup)
    (hs : s ∉ keys (l1 ++ l2)) (h1 : l1 ≠ []) : lastOf s l1 ≠ nextOf l2 s := by
  have ha : lastOf s l1 ∈ keys l1 := lastOf_mem h1 s
  simp only [keys_append, List.nodup_append, List.mem_append, not_or] at hnd hs
  by_cases h2 : l2 = []
  · subst h2
    intro e
    exact hs.1 (by simpa [e] using ha)
  · intro e
    exact hnd.2.2 ha (e ▸ nextOf_mem h2 s)

theorem ends_ne_of_right {s : Ptr} {l1 l2 : List (Ptr × T)} (hnd : (keys (l1 ++ l2)).Nodup)
    (hs : s ∉ keys (l1 ++ l2)) (h2 : l2 ≠ []) : lastOf s l1 ≠ nextOf l2 s := by
  have hb : nextOf l2 s ∈ keys l2 := nextOf_mem h2 s
  simp only [keys_append, List.nodup_append, List.mem_append, not_or] at hnd hs
  by_cases h1 : l1 = []
  · subst h1
    intro e
    exact hs.2 (by simpa [← e] using hb)
  · intro e
    exact hnd.2.2 (lastOf_mem h1 s) (e ▸ hb)

theorem Holds.link {m m1 : Ptr → Option (Node T)} {s q : Ptr} {l1 l2 : List (Ptr × T)} {v : T}
    (h : Holds m (ringCells s (l1 ++ l2))) (hnd : (keys (l1 ++ l2)).Nodup)
    (hs : s ∉ keys (l1 ++ l2)) (hq : q ∉ keys (l1 ++ l2)) (hqs : q ≠ s)
    (hL : Linked m m1 (lastOf s l1) q (nextOf l2 s) v) :
    Holds m1 (ringCells s (l1 ++ (q, v) :: l2)) := by
  obtain ⟨hLq, hLa, hLb, hLo⟩ := hL
  have hab1 := @ends_ne_of_left T s l1 l2 hnd hs
  have hab2 := @ends_ne_of_right T s l1 l2 hnd hs
  simp only [ringCells, cells_append, Holds_cons, Holds_append, nextOf_append, lastOf_append,
    cells_cons, nextOf_cons, lastOf_cons] at h ⊢
  obtain ⟨hms, hm1, hm2⟩ := h
  have hnd' := hnd
  simp only [keys_append, List.nodup_append, List.mem_append, not_or] at hnd' hs hq
  have hsa : l1 ≠ [] → s ≠ lastOf s l1 := fun h1 e => hs.1 (e ▸ lastOf_mem h1 s)
  have hsb : l2 ≠ [] → s ≠ nextOf l2 s := fun h2 e => hs.2 (e ▸ nextOf_mem h2 s)
  refine ⟨?_, ?_, hLq, ?_⟩
  · by_cases h1 : l1 = []
    · by_cases h2 : l2 = []
      · subst h1 h2
        simpa using hLa _ hms
      · subst h1
        have := hLa _ hms
        simp only [lastOf_nil, nextOf_nil] at this hab2 ⊢
        rw [this, if_neg (hab2 h2), lastOf_of_ne_nil h2 q s]
    · by_cases h2 : l2 = []
      · subst h2
        have := hLb _ hms (hab1 h1)
        simp only [lastOf_nil, nextOf_nil] at this ⊢
        rw [this, nextOf_of_ne_nil h1 q s]
      · rw [hLo s (Ne.symm hqs) (hsa h1) (hsb h2), hms, nextOf_of_ne_nil h1 q (nextOf l2 s),
          lastOf_of_ne_nil h2 q (lastOf s l1)]
  · refine hm1.relink_after hnd'.1 ?_ ?_
    · intro p hp hpa
      refine hLo p (fun e => hq.1 (e ▸ hp)) hpa ?_
      by_cases h2 : l2 = []
      · subst h2
        exact fun e => hs.1 (by simpa [e] using hp)
      · exact fun e => hnd'.2.2 hp (e ▸ nextOf_mem h2 s)
    · intro h1 c hc
      have := hLa c hc
      rwa [if_neg (hab1 h1)] at this
  · refine hm2.relink_before hnd'.2.1 ?_ ?_
    · intro p hp hpb
      refine hLo p (fun e => hq.2 (e ▸ hp)) ?_ hpb
      by_cases h1 : l1 = []
      · subst h1
        exact fun e => hs.2 (by simpa [e] using hp)
      · exact fun e => hnd'.2.2 (lastOf_mem h1 s) (e ▸ hp)
    · intro h2 c hc
      exact hLb c hc (hab2 h2)

theorem Holds.unlink {m m1 : Ptr → Option (Node T)} {s p : Ptr} {l1 l2 : List (Ptr × T)}
    {v : T} (h : Holds m (ringCells s (l1 ++ (p, v) :: l2)))
    (hnd : (keys (l1 ++ (p, v) :: l2)).Nodup) (hs : s ∉ keys (l1 ++ (p, v) :: l2))
    (hU : Unlinked m m1 (lastOf s l1) p (nextOf l2 s)) :
    Holds m1 (ringCells s (l1 ++ l2)) := by
  obtain ⟨hUa, hUb, hUo⟩ := hU
  have hnd2 : (keys (l1 ++ l2)).Nodup := by
    simp only [keys_append, keys_cons, List.nodup_append, List.nodup_cons, List.mem_append,
      List.mem_cons, List.Disjoint] at hnd ⊢
    exact ⟨hnd.1, hnd.2.1.2, fun a ha hb => hnd.2.2 ha (Or.inr hb)⟩
  have hs2 : s ∉ keys (l1 ++ l2) := by
    simp only [keys_append, keys_cons, List.mem_append, List.mem_cons, not_or] at hs ⊢
    exact ⟨hs.1, hs.2.2⟩
  have hab1 := @ends_ne_of_left T s l1 l2 hnd2 hs2
  have hab2 := @ends_ne_of_right T s l1 l2 hnd2 hs2
  simp only [ringCells, cells_append, Holds_cons, Holds_append, nextOf_append, lastOf_append,
    cells_cons, nextOf_cons, lastOf_cons] at h ⊢
  obtain ⟨hms, hm1, -, hm2⟩ := h
  simp only [keys_append, keys_cons, List.nodup_append, List.nodup_cons, List.mem_append,
    List.mem_cons, not_or] at hnd hs
  have hp1 : p ∉ keys l1 := fun hp => hnd.2.2 hp (by simp)
  have hp2 : p ∉ keys l2 := hnd.2.1.1
  have hd : ∀ a, a ∈ keys l1 → a ∈ keys l2 → False := fun a ha hb =>
    hnd.2.2 ha (List.mem_cons_of_mem _ hb)
  have hsa : l1 ≠ [] → s ≠ lastOf s l1 := fun h1 e => hs.1 (e ▸ lastOf_mem h1 s)
  have hsb : l2 ≠ [] → s ≠ nextOf l2 s := fun h2 e => hs.2.2 (e ▸ nextOf_mem h2 s)
  refine ⟨?_, ?_, ?_⟩
  · by_cases h1 : l1 = []
    · by_cases h2 : l2 = []
      · subst h1 h2
        simpa using hUa _ hms
      · subst h1
        have := hUa _ hms
        simp only [lastOf_nil, nextOf_nil] at this hab2 ⊢
        rw [this, if_neg (hab2 h2), lastOf_of_ne_nil h2 p s]
    · by_cases h2 : l2 = []
      · subst h2
        have := hUb _ hms (hab1 h1)
        simp only [lastOf_nil, nextOf_nil] at this ⊢
        rw [this, nextOf_of_ne_nil h1 p s]
      · rw [hUo s hs.2.1 (hsa h1) (hsb h2), hms,
          nextOf_of_ne_nil h1 p (nextOf l2 s), lastOf_of_ne_nil h2 p (lastOf s l1)]
  · refine hm1.relink_after hnd.1 ?_ ?_
    · intro r hr hra
      refine hUo r (fun e => hp1 (e ▸ hr)) hra ?_
      by_cases h2 : l2 = []
      · subst h2
        exact fun e => hs.1 (by simpa [e] using hr)
      · exact fun e => hd r hr (e ▸ nextOf_mem h2 s)
    · intro h1 c hc
      have := hUa c hc
      rwa [if_neg (hab1 h1)] at this
  · refine hm2.relink_before hnd.2.1.2 ?_ ?_
    · intro r hr hrb
      refine hUo r (fun e => hp2 (e ▸ hr)) ?_ hrb
      by_cases h1 : l1 = []
      · subst h1
        exact fun e => hs.2.2 (by simpa [e] using hr)
      · exact fun e => hd _ (lastOf_mem h1 s) (e ▸ hr)
    · intro h2 c hc
      exact hUb c hc (hab2 h2)

end basic

section exec

variable {T : Type}

theorem insert_exec (E : Env) {w : World T} (this : Nat) {pos : Ptr} (v : T) {ca cb : Node T}
    (hb : w.mem pos = some cb) (ha : w.mem cb.prev = some ca)
    (hq : w.mem (Ptr.node w.allocCalls) = none)
    (hE1 : E.allocFails w.allocCalls = false) (hE2 : E.ctorThrows w.ctorCalls = false) :
    (insert E this pos v w).1 = Outcome.done () ∧
      Pushed w (insert E this pos v w).2 cb.prev pos v ∧
      (insert E this pos v w).2.sz = Function.update w.sz this (size_incr (w.sz this)) := by
  have hqb : Ptr.node w.allocCalls ≠ pos := fun e => by rw [e, hb] at hq; cases hq
  have hqa : Ptr.node w.allocCalls ≠ cb.prev := fun e => by rw [e, ha] at hq; cases hq
  by_cases hab : cb.prev = pos
  · have hca : ca = cb := by rw [hab, hb] at ha; exact (Option.some.inj ha).symm
    subst hca
    simp [insert, Prog.bind, allocate, construct, getPrev, setNext, setPrev, getNode, putNode,
      getSz, setSz, hE1, hE2, hb, hqb, hqa, hab, Function.update_apply, Ne.symm hqb,
      Pushed, Linked]
    intro p h1 h2
    simp [h1, h2]
  · simp [insert, Prog.bind, allocate, construct, getPrev, setNext, setPrev, getNode, putNode,
      getSz, setSz, hE1, hE2, hb, ha, hqb, hqa, hab, Function.update_apply, Ne.symm hqb,
      Ne.symm hqa, Ne.symm hab, Pushed, Linked]
    intro p h1 h2 h3
    simp [h1, h2, h3]

theorem push_back_exec (E : Env) {w : World T} (this : Nat) (v : T) {ca cs : Node T}
    (hs : w.mem (fakeNode this) = some cs) (ha : w.mem cs.prev = some ca)
    (hq : w.mem (Ptr.node w.allocCalls) = none)
    (hE1 : E.allocFails w.allocCalls = false) (hE2 : E.ctorThrows w.ctorCalls = false) :
    (push_back E this v w).1 = Outcome.done () ∧
      Pushed w (push_back E this v w).2 cs.prev (fakeNode this) v ∧
      (push_back E this v w).2.sz = Function.update w.sz this (size_incr (w.sz this)) := by
  have hqb : Ptr.node w.allocCalls ≠ fakeNode this := fun e => by rw [e, hs] at hq; cases hq
  have hqa : Ptr.node w.allocCalls ≠ cs.prev := fun e => by rw [e, ha] at hq; cases hq
  by_cases hab : cs.prev = fakeNode this
  · have hca : ca = cs := by rw [hab, hs] at ha; exact (Option.some.inj ha).symm
    subst hca
    simp [push_back, bindNewNodeToEnd, Prog.bind, allocate, construct, getPrev, setNext, setPrev, getNode, putNode,
      getSz, setSz, hE1, hE2, hs, hqb, hqa, hab, Function.update_apply, Ne.symm hqb,
      Pushed, Linked]
    intro p h1 h2
    simp [h1, h2]
  · simp [push_back, bindNewNodeToEnd, Prog.bind, allocate, construct, getPrev, setNext, setPrev, getNode, putNode,
      getSz, setSz, hE1, hE2, hs, ha, hqb, hqa, hab, Function.update_apply, Ne.symm hqb,
      Ne.symm hqa, Ne.symm hab, Pushed, Linked]
    intro p h1 h2 h3
    simp [h1, h2, h3]

theorem push_front_exec (E : Env) {w : World T} (this : Nat) (v : T) {cb cs : Node T}
    (hs : w.mem (fakeNode this) = some cs) (hb : w.mem cs.next = some cb)
    (hq : w.mem (Ptr.node w.allocCalls) = none)
    (hE1 : E.allocFails w.allocCalls = false) (hE2 : E.ctorThrows w.ctorCalls = false) :
    (push_front E this v w).1 = Outcome.done () ∧
      Pushed w (push_front E this v w).2 (fakeNode this) cs.next v ∧
      (push_front E this v w).2.sz = Function.update w.sz this (size_incr (w.sz this)) := by
  have hqa : Ptr.node w.allocCalls ≠ fakeNode this := fun e => by rw [e, hs] at hq; cases hq
  have hqb : Ptr.node w.allocCalls ≠ cs.next := fun e => by rw [e, hb] at hq; cases hq
  by_cases hab : fakeNode this = cs.next
  · have hca : cb = cs := by rw [← hab, hs] at hb; exact (Option.some.inj hb).symm
    subst hca
    simp [push_front, bindNewNodeToTop, Prog.bind, allocate, construct, getPrev, getNext, setNext, setPrev, getNode, putNode,
      getSz, setSz, hE1, hE2, hs, hqb, hqa, ← hab, Function.update_apply, Ne.symm hqa,
      Pushed, Linked]
    intro p h1 h2
    simp [h1, h2]
  · simp [push_front, bindNewNodeToTop, Prog.bind, allocate, construct, getPrev, getNext, setNext, setPrev, getNode, putNode,
      getSz, setSz, hE1, hE2, hs, hb, hqb, hqa, hab, Function.update_apply, Ne.symm hqb,
      Ne.symm hqa, Ne.symm hab, Pushed, Linked]
    intro p h1 h2 h3
    simp [h1, h2, h3]

theorem erase_exec {w : World T} (this : Nat) {n : Nat} {v : T} {ca cb cp : Node T}
    (hp : w.mem (Ptr.node n) = some cp) (hv : cp.value = some v)
    (ha : w.mem cp.prev = some ca) (hb : w.mem cp.next = some cb)
    (hpa : Ptr.node n ≠ cp.prev) (hpb : Ptr.node n ≠ cp.next) :
    (erase this (Ptr.node n) w).1 = Outcome.done () ∧
      Popped w (erase this (Ptr.node n) w).2 cp.prev (Ptr.node n) cp.next ∧
      (erase this (Ptr.node n) w).2.sz = Function.update w.sz this (size_decr (w.sz this)) := by
  by_cases hab : cp.prev = cp.next
  · have hca : ca = cb := by rw [hab, hb] at ha; exact (Option.some.inj ha).symm
    subst hca
    simp [erase, Prog.bind, destroy, deallocate, getPrev, getNext, setNext, setPrev, getNode,
      putNode, getSz, setSz, hp, hv, hb, hpa, hpb, hab, Function.update_apply, Ne.symm hpb,
      Popped, Unlinked]
    intro p h1 h2
    simp [h1, h2]
  · simp [erase, Prog.bind, destroy, deallocate, getPrev, getNext, setNext, setPrev, getNode,
      putNode, getSz, setSz, hp, hv, ha, hb, hpa, hpb, hab, Function.update_apply, Ne.symm hpa,
      Ne.symm hpb, Ne.symm hab, Popped, Unlinked]
    intro p h1 h2 h3
    simp [h1, h2, h3]

theorem pop_front_exec {w : World T} (this : Nat) {n : Nat} {v : T} {cs cb cp : Node T}
    (hs : w.mem (fakeNode this) = some cs) (hn : cs.next = Ptr.node n)
    (hp : w.mem (Ptr.node n) = some cp) (hv : cp.value = some v)
    (hb : w.mem cp.next = some cb) (hpb : Ptr.node n ≠ cp.next) :
    (pop_front this w).1 = Outcome.done () ∧
      Popped w (pop_front this w).2 (fakeNode this) (Ptr.node n) cp.next ∧
      (pop_front this w).2.sz = Function.update w.sz this (size_decr (w.sz this)) := by
  have hpa : Ptr.node n ≠ fakeNode this := by simp [fakeNode]
  by_cases hab : fakeNode this = cp.next
  · have hca : cb = cs := by rw [← hab, hs] at hb; exact (Option.some.inj hb).symm
    subst hca
    simp [pop_front, Prog.bind, destroy, deallocate, getPrev, getNext, setNext, setPrev, getNode,
      putNode, getSz, setSz, hs, hn, hp, hv, hpa, ← hab, Function.update_apply, Ne.symm hpa,
      Popped, Unlinked]
    intro p h1 h2
    simp [h1, h2]
  · simp [pop_front, Prog.bind, destroy, deallocate, getPrev, getNext, setNext, setPrev, getNode,
      putNode, getSz, setSz, hs, hn, hp, hv, hb, hpa, hpb, hab, Function.update_apply,
      Ne.symm hpa, Ne.symm hpb, Ne.symm hab, Popped, Unlinked]
    intro p h1 h2 h3
    simp [h1, h2, h3]

theorem pop_back_exec {w : World T} (this : Nat) {n : Nat} {v : T} {cs ca cp : Node T}
    (hs : w.mem (fakeNode this) = some cs) (hn : cs.prev = Ptr.node n)
    (hp : w.mem (Ptr.node n) = some cp) (hv : cp.value = some v)
    (ha : w.mem cp.prev = some ca) (hpa : Ptr.node n ≠ cp.prev) :
    (pop_back this w).1 = Outcome.done () ∧
      Popped w (pop_back this w).2 cp.prev (Ptr.node n) (fakeNode this) ∧
      (pop_back this w).2.sz = Function.update w.sz this (size_decr (w.sz this)) := by
  have hpb : Ptr.node n ≠ fakeNode this := by simp [fakeNode]
  by_cases hab : cp.prev = fakeNode this
  · have hca : ca = cs := by rw [hab, hs] at ha; exact (Option.some.inj ha).symm
    subst hca
    simp [pop_back, Prog.bind, destroy, deallocate, getPrev, getNext, setNext, setPrev, getNode,
      putNode, getSz, setSz, hs, hn, hp, hv, hpb, hab, Function.update_apply, Ne.symm hpb,
      Popped, Unlinked]
    intro p h1 h2
    simp [h1, h2]
  · simp [pop_back, Prog.bind, destroy, deallocate, getPrev, getNext, setNext, setPrev, getNode,
      putNode, getSz, setSz, hs, hn, hp, hv, ha, hpa, hpb, hab, Function.update_apply,
      Ne.symm hpa, Ne.symm hpb, Ne.symm hab, Popped, Unlinked]
    intro p h1 h2 h3
    simp [h1, h2, h3]


end exec

section ring

variable {T : Type}

theorem Holds.key_live {m : Ptr → Option (Node T)} {bf x p : Ptr} {l : List (Ptr × T)}
    (h : Holds m (cells bf l x)) (hp : p ∈ keys l) : ∃ c, m p = some c := by
  rw [← cells_keys l bf x] at hp
  obtain ⟨pc, hpc, rfl⟩ := List.mem_map.1 hp
  exact ⟨pc.2, h pc hpc⟩

theorem Ring.live {w : World T} {this : Nat} {ps : List (Ptr × T)} (h : Ring w this ps)
    {p : Ptr} (hp : p ∈ keys ps) : ∃ c, w.mem p = some c := by
  have hc := h.1
  simp only [ringCells, Holds_cons] at hc
  exact hc.2.key_live hp

theorem Ring.sentinel {w : World T} {this : Nat} {ps : List (Ptr × T)} (h : Ring w this ps) :
    w.mem (fakeNode this) =
      some ⟨nextOf ps (fakeNode this), lastOf (fakeNode this) ps, none⟩ := by
  have hc := h.1
  simp only [ringCells, Holds_cons] at hc
  exact hc.1

theorem Holds.last_cell {m : Ptr → Option (Node T)} {bf x : Ptr} {l : List (Ptr × T)}
    (h : Holds m (cells bf l x)) (hl : l ≠ []) :
    ∃ c, m (lastOf bf l) = some c ∧ c.next = x := by
  induction l generalizing bf with
  | nil => exact absurd rfl hl
  | cons pc l ih =>
    simp only [cells_cons, Holds_cons] at h
    by_cases h2 : l = []
    · subst h2
      exact ⟨_, h.1, rfl⟩
    · simpa using ih h.2 h2

theorem Holds.first_cell {m : Ptr → Option (Node T)} {bf x : Ptr} {l : List (Ptr × T)}
    (h : Holds m (cells bf l x)) (hl : l ≠ []) :
    ∃ c, m (nextOf l x) = some c ∧ c.prev = bf := by
  cases l with
  | nil => exact absurd rfl hl
  | cons pc l =>
    simp only [cells_cons, Holds_cons] at h
    exact ⟨_, h.1, rfl⟩

theorem Ring.at_split {w : World T} {this : Nat} {l1 l2 : List (Ptr × T)}
    (h : Ring w this (l1 ++ l2)) :
    ∃ ca cb, w.mem (lastOf (fakeNode this) l1) = some ca ∧
      w.mem (nextOf l2 (fakeNode this)) = some cb ∧
      ca.next = nextOf l2 (fakeNode this) ∧ cb.prev = lastOf (fakeNode this) l1 := by
  have hc := h.1
  simp only [ringCells, Holds_cons, cells_append, Holds_append, nextOf_append,
    lastOf_append] at hc
  obtain ⟨hs, h1, h2⟩ := hc
  have ha : ∃ ca, w.mem (lastOf (fakeNode this) l1) = some ca ∧
      ca.next = nextOf l2 (fakeNode this) := by
    by_cases hl : l1 = []
    · subst hl
      exact ⟨_, hs, rfl⟩
    · exact h1.last_cell hl
  have hb : ∃ cb, w.mem (nextOf l2 (fakeNode this)) = some cb ∧
      cb.prev = lastOf (fakeNode this) l1 := by
    by_cases hl : l2 = []
    · subst hl
      exact ⟨_, hs, rfl⟩
    · exact h2.first_cell hl
  obtain ⟨ca, hca, hca2⟩ := ha
  obtain ⟨cb, hcb, hcb2⟩ := hb
  exact ⟨ca, cb, hca, hcb, hca2, hcb2⟩

theorem Ring.at_elem {w : World T} {this : Nat} {l1 l2 : List (Ptr × T)} {p : Ptr} {v : T}
    (h : Ring w this (l1 ++ (p, v) :: l2)) :
    w.mem p = some ⟨nextOf l2 (fakeNode this), lastOf (fakeNode this) l1, some v⟩ := by
  have hc := h.1
  simp only [ringCells, Holds_cons, cells_append, Holds_append, cells_cons] at hc
  exact hc.2.2.1

theorem Pushed.ring_grows {w w1 : World T} {this : Nat} {l1 l2 : List (Ptr × T)} {v : T}
    (h : Ring w this (l1 ++ l2)) (hF : Fresh w)
    (hP : Pushed w w1 (lastOf (fakeNode this) l1) (nextOf l2 (fakeNode this)) v) :
    Ring w1 this (l1 ++ (Ptr.node w.allocCalls, v) :: l2) ∧ Fresh w1 := by
  have hq : w.mem (Ptr.node w.allocCalls) = none := hF _ (le_refl _)
  have hqk : Ptr.node w.allocCalls ∉ keys (l1 ++ l2) := by
    intro hm
    obtain ⟨c, hc⟩ := h.live hm
    rw [hq] at hc
    cases hc
  obtain ⟨ca, cb, hca, hcb, -, -⟩ := h.at_split
  refine ⟨⟨h.1.link h.2.1 h.sentinel_not_mem hqk (by simp [fakeNode]) hP.1, ?_, ?_⟩, ?_⟩
  · have hnd := h.2.1
    simp only [keys_append, keys_cons, List.nodup_append, List.nodup_cons, List.mem_append,
      not_or, List.Disjoint, List.mem_cons] at hnd hqk ⊢
    refine ⟨hnd.1, ⟨hqk.2, hnd.2.1⟩, ?_⟩
    rintro a ha (rfl | hb)
    · exact hqk.1 ha
    · exact hnd.2.2 ha hb
  · intro p hp
    have := h.2.2
    simp only [keys_append, keys_cons, List.mem_append, List.mem_cons] at hp this
    rcases hp with hp | rfl | hp
    · exact this p (Or.inl hp)
    · rfl
    · exact this p (Or.inr hp)
  · intro n hn
    rw [hP.2.2.1] at hn
    have hn0 : w.mem (Ptr.node n) = none := hF n (by omega)
    rw [hP.1.2.2.2 (Ptr.node n) (by simp; omega) (fun e => by rw [e, hca] at hn0; cases hn0)
      (fun e => by rw [e, hcb] at hn0; cases hn0)]
    exact hn0

theorem Popped.ring_shrinks {w w1 : World T} {this : Nat} {l1 l2 : List (Ptr × T)} {p : Ptr} {v : T}
    (h : Ring w this (l1 ++ (p, v) :: l2)) (hF : Fresh w)
    (hP : Popped w w1 (lastOf (fakeNode this) l1) p (nextOf l2 (fakeNode this))) :
    Ring w1 this (l1 ++ l2) ∧ Fresh w1 := by
  have hnd := h.2.1
  have h' : Ring w this ((l1 ++ [(p, v)]) ++ l2) := by simpa using h
  obtain ⟨-, cb, -, hcb, -, -⟩ := h'.at_split
  obtain ⟨ca, -, hca, -, -, -⟩ := h.at_split
  refine ⟨⟨h.1.unlink h.2.1 h.sentinel_not_mem hP.1, ?_, ?_⟩, ?_⟩
  · simp only [keys_append, keys_cons, List.nodup_append, List.nodup_cons, List.mem_append,
      List.mem_cons, List.Disjoint] at hnd ⊢
    exact ⟨hnd.1, hnd.2.1.2, fun a ha hb => hnd.2.2 ha (Or.inr hb)⟩
  · intro q hq
    have := h.2.2
    simp only [keys_append, keys_cons, List.mem_append, List.mem_cons] at hq this
    rcases hq with hq | hq
    · exact this q (Or.inl hq)
    · exact this q (Or.inr (Or.inr hq))
  · intro n hn
    rw [hP.2.2.2.1] at hn
    have hn0 : w.mem (Ptr.node n) = none := hF n hn
    by_cases hnp : Ptr.node n = p
    · rw [hnp]; exact hP.2.1
    · rw [hP.1.2.2 (Ptr.node n) hnp (fun e => by rw [e, hca] at hn0; cases hn0)
        (fun e => by rw [e, hcb] at hn0; cases hn0)]
      exact hn0


theorem size_incr_eq {n : Nat} (h : n + 1 < 2 ^ size_bits) : size_incr n = n + 1 :=
  Nat.mod_eq_of_lt h

theorem size_decr_eq {n : Nat} (h0 : 0 < n) (h : n < 2 ^ size_bits) : size_decr n = n - 1 := by
  unfold size_decr
  have : n + 2 ^ size_bits - 1 = (n - 1) + 2 ^ size_bits := by omega
  rw [this, Nat.add_mod_right]
  exact Nat.mod_eq_of_lt (by omega)

theorem Ring.elem_ne_prev {w : World T} {this : Nat} {l1 l2 : List (Ptr × T)} {p : Ptr} {v : T}
    (h : Ring w this (l1 ++ (p, v) :: l2)) : p ≠ lastOf (fakeNode this) l1 := by
  have hs := h.sentinel_not_mem
  have hnd := h.2.1
  simp only [keys_append, keys_cons, List.nodup_append, List.nodup_cons, List.mem_append,
    List.mem_cons, not_or] at hs hnd
  by_cases hl : l1 = []
  · subst hl
    exact fun e => hs.2.1 e.symm
  · exact fun e => hnd.2.2 (lastOf_mem hl (fakeNode this)) (by simp [e])

theorem Ring.elem_ne_next {w : World T} {this : Nat} {l1 l2 : List (Ptr × T)} {p : Ptr} {v : T}
    (h : Ring w this (l1 ++ (p, v) :: l2)) : p ≠ nextOf l2 (fakeNode this) := by
  have hs := h.sentinel_not_mem
  have hnd := h.2.1
  simp only [keys_append, keys_cons, List.nodup_append, List.nodup_cons, List.mem_append,
    List.mem_cons, not_or] at hs hnd
  by_cases hl : l2 = []
  · subst hl
    exact fun e => hs.2.1 e.symm
  · exact fun e => hnd.2.1.1 (e ▸ nextOf_mem hl (fakeNode this))

theorem Ring.elem_isNode {w : World T} {this : Nat} {l1 l2 : List (Ptr × T)} {p : Ptr} {v : T}
    (h : Ring w this (l1 ++ (p, v) :: l2)) : ∃ n, p = Ptr.node n := by
  have := h.2.2 p (by simp)
  cases p with
  | obj n => simp [Ptr.isNode] at this
  | node n => exact ⟨n, rfl⟩

theorem insert_ring {E : Env} {w : World T} {this : Nat} {l1 l2 : List (Ptr × T)} (v : T)
    (h : Ring w this (l1 ++ l2)) (hF : Fresh w)
    (hE1 : E.allocFails w.allocCalls = false) (hE2 : E.ctorThrows w.ctorCalls = false) :
    (insert E this (nextOf l2 (fakeNode this)) v w).1 = Outcome.done () ∧
      Pushed w (insert E this (nextOf l2 (fakeNode this)) v w).2
        (lastOf (fakeNode this) l1) (nextOf l2 (fakeNode this)) v ∧
      (insert E this (nextOf l2 (fakeNode this)) v w).2.sz = Function.update w.sz this (size_incr (w.sz this)) := by
  obtain ⟨ca, cb, hca, hcb, -, hcb2⟩ := h.at_split
  have := insert_exec E this v hcb (by rw [hcb2]; exact hca)
    (hF _ (le_refl _)) hE1 hE2
  rwa [hcb2] at this

theorem push_back_ring {E : Env} {w : World T} {this : Nat} {ps : List (Ptr × T)} (v : T)
    (h : Ring w this ps) (hF : Fresh w)
    (hE1 : E.allocFails w.allocCalls = false) (hE2 : E.ctorThrows w.ctorCalls = false) :
    (push_back E this v w).1 = Outcome.done () ∧
      Pushed w (push_back E this v w).2 (lastOf (fakeNode this) ps) (fakeNode this) v ∧
      (push_back E this v w).2.sz = Function.update w.sz this (size_incr (w.sz this)) := by
  have h' : Ring w this (ps ++ []) := by simpa using h
  obtain ⟨ca, cb, hca, hcb, -, hcb2⟩ := h'.at_split
  simp only [nextOf_nil] at hcb hcb2
  have := push_back_exec E this v hcb (by rw [hcb2]; exact hca)
    (hF _ (le_refl _)) hE1 hE2
  rwa [hcb2] at this

theorem push_front_ring {E : Env} {w : World T} {this : Nat} {ps : List (Ptr × T)} (v : T)
    (h : Ring w this ps) (hF : Fresh w)
    (hE1 : E.allocFails w.allocCalls = false) (hE2 : E.ctorThrows w.ctorCalls = false) :
    (push_front E this v w).1 = Outcome.done () ∧
      Pushed w (push_front E this v w).2 (fakeNode this) (nextOf ps (fakeNode this)) v ∧
      (push_front E this v w).2.sz = Function.update w.sz this (size_incr (w.sz this)) := by
  have h' : Ring w this ([] ++ ps) := by simpa using h
  obtain ⟨ca, cb, hca, hcb, hca2, -⟩ := h'.at_split
  simp only [lastOf_nil] at hca hca2
  have := push_front_exec E this v hca (by rw [hca2]; exact hcb)
    (hF _ (le_refl _)) hE1 hE2
  rwa [hca2] at this

theorem erase_ring {w : World T} {this : Nat} {l1 l2 : List (Ptr × T)} {p : Ptr} {v : T}
    (h : Ring w this (l1 ++ (p, v) :: l2)) :
    (erase this p w).1 = Outcome.done () ∧
      Popped w (erase this p w).2 (lastOf (fakeNode this) l1) p
        (nextOf l2 (fakeNode this)) ∧
      (erase this p w).2.sz = Function.update w.sz this (size_decr (w.sz this)) := by
  obtain ⟨n, rfl⟩ := h.elem_isNode
  have h' : Ring w this ((l1 ++ [(Ptr.node n, v)]) ++ l2) := by simpa using h
  obtain ⟨-, cb, -, hcb, -, -⟩ := h'.at_split
  obtain ⟨ca, -, hca, -, -, -⟩ := h.at_split
  exact erase_exec this h.at_elem rfl hca hcb h.elem_ne_prev h.elem_ne_next

theorem pop_front_ring {w : World T} {this : Nat} {l2 : List (Ptr × T)} {p : Ptr} {v : T}
    (h : Ring w this ((p, v) :: l2)) :
    (pop_front this w).1 = Outcome.done () ∧
      Popped w (pop_front this w).2 (fakeNode this) p (nextOf l2 (fakeNode this)) ∧
      (pop_front this w).2.sz = Function.update w.sz this (size_decr (w.sz this)) := by
  have h0 : Ring w this ([] ++ (p, v) :: l2) := by simpa using h
  obtain ⟨n, rfl⟩ := h0.elem_isNode
  have h' : Ring w this ([(Ptr.node n, v)] ++ l2) := by simpa using h
  obtain ⟨-, cb, -, hcb, -, -⟩ := h'.at_split
  exact pop_front_exec this h.sentinel rfl h0.at_elem rfl hcb h0.elem_ne_next

theorem pop_back_ring {w : World T} {this : Nat} {l1 : List (Ptr × T)} {p : Ptr} {v : T}
    (h : Ring w this (l1 ++ [(p, v)])) :
    (pop_back this w).1 = Outcome.done () ∧
      Popped w (pop_back this w).2 (lastOf (fakeNode this) l1) p (fakeNode this) ∧
      (pop_back this w).2.sz = Function.update w.sz this (size_decr (w.sz this)) := by
  obtain ⟨n, rfl⟩ := h.elem_isNode
  obtain ⟨ca, -, hca, -, -, -⟩ := h.at_split
  have hs := h.sentinel
  simp only [lastOf_append, lastOf_cons, lastOf_nil] at hs
  exact pop_back_exec this hs rfl h.at_elem rfl hca h.elem_ne_prev


end ring

section fill

variable {T : Type}

theorem Holds.key_value {m : Ptr → Option (Node T)} {bf x p : Ptr} {l : List (Ptr × T)}
    (h : Holds m (cells bf l x)) (hp : p ∈ keys l) : ∃ c v, m p = some c ∧ c.value = some v := by
  induction l generalizing bf with
  | nil => simp at hp
  | cons pc l ih =>
    simp only [cells_cons, Holds_cons, keys_cons, List.mem_cons] at h hp
    rcases hp with rfl | hp
    · exact ⟨_, _, h.1, rfl⟩
    · exact ih h.2 hp

theorem mem_keys_fillNodes (c : Nat) (v : T) (j : Nat) (p : Ptr) :
    p ∈ keys (fillNodes c v j) ↔ ∃ t, t < j ∧ p = Ptr.node (c + t) := by
  induction j with
  | zero => simp [fillNodes]
  | succ j ih =>
    simp only [fillNodes, keys_cons, List.mem_cons, ih]
    constructor
    · rintro (rfl | ⟨t, ht, rfl⟩)
      · exact ⟨j, by omega, rfl⟩
      · exact ⟨t, by omega, rfl⟩
    · rintro ⟨t, ht, rfl⟩
      by_cases htj : t = j
      · subst htj; exact Or.inl rfl
      · exact Or.inr ⟨t, by omega, rfl⟩

theorem length_fillNodes (c : Nat) (v : T) (j : Nat) : (fillNodes c v j).length = j := by
  induction j with
  | zero => rfl
  | succ j ih => simp [fillNodes, ih]

theorem values_fillNodes (c : Nat) (v : T) (j : Nat) :
    values (fillNodes c v j) = List.replicate j v := by
  induction j with
  | zero => rfl
  | succ j ih => simp [fillNodes, ih, List.replicate_succ]

theorem fillStep_exec (E : Env) {w : World T} (this : Nat) (v : T) {cb cs : Node T}
    (hs : w.mem (fakeNode this) = some cs) (hb : w.mem cs.next = some cb)
    (hq : w.mem (Ptr.node w.allocCalls) = none)
    (hE1 : E.allocFails w.allocCalls = false) (hE2 : E.ctorThrows w.ctorCalls = false) :
    allocate E w = (Outcome.done (Ptr.node w.allocCalls), (allocate E w).2) ∧
      (fillStep E this v (Ptr.node w.allocCalls) (allocate E w).2).1 = Outcome.done () ∧
      Pushed w (fillStep E this v (Ptr.node w.allocCalls) (allocate E w).2).2
        (fakeNode this) cs.next v ∧
      (fillStep E this v (Ptr.node w.allocCalls) (allocate E w).2).2.sz = w.sz := by
  have hqa : Ptr.node w.allocCalls ≠ fakeNode this := fun e => by rw [e, hs] at hq; cases hq
  have hqb : Ptr.node w.allocCalls ≠ cs.next := fun e => by rw [e, hb] at hq; cases hq
  by_cases hab : fakeNode this = cs.next
  · have hca : cb = cs := by rw [← hab, hs] at hb; exact (Option.some.inj hb).symm
    subst hca
    simp [fillStep, bindNewNodeToTop, Prog.bind, allocate, construct, getPrev, getNext, setNext,
      setPrev, getNode, putNode, hE1, hE2, hs, hqb, hqa, ← hab, Function.update_apply,
      Ne.symm hqa, Pushed, Linked]
    intro p h1 h2
    simp [h1, h2]
  · simp [fillStep, bindNewNodeToTop, Prog.bind, allocate, construct, getPrev, getNext, setNext,
      setPrev, getNode, putNode, hE1, hE2, hs, hb, hqb, hqa, hab, Function.update_apply,
      Ne.symm hqb, Ne.symm hqa, Ne.symm hab, Pushed, Linked]
    intro p h1 h2 h3
    simp [h1, h2, h3]

theorem fillStep_ring (E : Env) {w : World T} (this : Nat) (v : T) {ps : List (Ptr × T)}
    (h : Ring w this ps) (hF : Fresh w)
    (hE1 : E.allocFails w.allocCalls = false) (hE2 : E.ctorThrows w.ctorCalls = false) :
    allocate E w = (Outcome.done (Ptr.node w.allocCalls), (allocate E w).2) ∧
      (fillStep E this v (Ptr.node w.allocCalls) (allocate E w).2).1 = Outcome.done () ∧
      Pushed w (fillStep E this v (Ptr.node w.allocCalls) (allocate E w).2).2
        (fakeNode this) (nextOf ps (fakeNode this)) v ∧
      (fillStep E this v (Ptr.node w.allocCalls) (allocate E w).2).2.sz = w.sz := by
  have h' : Ring w this ([] ++ ps) := by simpa using h
  obtain ⟨ca, cb, hca, hcb, hca2, -⟩ := h'.at_split
  simp only [lastOf_nil] at hca hca2
  have := fillStep_exec E this v hca (by rw [hca2]; exact hcb) (hF _ (le_refl _)) hE1 hE2
  rwa [hca2] at this

theorem fillLoop_steps (E : Env) (this : Nat) (v : T) (i : Nat) (nn : Option Ptr)
    (w : World T) (ps : List (Ptr × T)) (hR : Ring w this ps) (hF : Fresh w) (j : Nat)
    (hEa : ∀ t, t < j → E.allocFails (w.allocCalls + t) = false)
    (hEc : ∀ t, t < j → E.ctorThrows (w.ctorCalls + t) = false) :
    ∀ n, ∃ w1, fillLoop E this v (j + n) i nn w =
        fillLoop E this v n (i + j) (lastNew nn w.allocCalls j) w1 ∧
      Ring w1 this (fillNodes w.allocCalls v j ++ ps) ∧ Fresh w1 ∧
      w1.allocCalls = w.allocCalls + j ∧ w1.ctorCalls = w.ctorCalls + j ∧
      w1.allocated = w.allocated + j ∧ w1.deallocated = w.deallocated ∧
      w1.destroyed = w.destroyed ∧ w1.sz = w.sz ∧ w1.alloc = w.alloc := by
  induction j with
  | zero =>
    intro n
    exact ⟨w, by simp [lastNew], by simpa [fillNodes] using hR, hF, rfl, rfl, rfl, rfl, rfl, rfl, rfl⟩
  | succ j ih =>
    intro n
    obtain ⟨w1, hrun, hR1, hF1, hc1, hc2, hc3, hc4, hc5, hc6, hc7⟩ :=
      ih (fun t ht => hEa t (by omega)) (fun t ht => hEc t (by omega)) (n + 1)
    have hE1 : E.allocFails w1.allocCalls = false := by rw [hc1]; exact hEa j (by omega)
    have hE2 : E.ctorThrows w1.ctorCalls = false := by rw [hc2]; exact hEc j (by omega)
    obtain ⟨hA, hS, hP, hsz⟩ := fillStep_ring E this v hR1 hF1 hE1 hE2
    have hR1' : Ring w1 this ([] ++ (fillNodes w.allocCalls v j ++ ps)) := by simpa using hR1
    obtain ⟨hR2, hF2⟩ := Pushed.ring_grows hR1' hF1 (by simpa using hP)
    refine ⟨_, ?_, ?_, hF2, ?_, ?_, ?_, ?_, ?_, ?_, ?_⟩
    · rw [show j + 1 + n = j + (n + 1) by omega, hrun]
      conv_lhs => rw [fillLoop]
      rw [hA]
      simp only []
      rw [Prog.eq_of_fst hS]
      simp only [lastNew, hc1]
      rfl
    · simpa [fillNodes, hc1] using hR2
    · rw [hP.2.2.1, hc1]; omega
    · rw [hP.2.2.2.2.2.1, hc2]; omega
    · rw [hP.2.2.2.1, hc3]; omega
    · rw [hP.2.2.2.2.1, hc4]
    · rw [hP.2.2.2.2.2.2, hc5]
    · rw [hsz, hc6]
    · rw [hP.2.1, hc7]


theorem fillRollback_cells (l : List (Ptr × T)) :
    ∀ (bf x : Ptr) (w : World T), Holds w.mem (cells bf l x) → (keys l).Nodup →
      (∀ p ∈ keys l, p.isNode = true) →
      ∃ w1, fillRollback l.length (nextOf l x) w = (Outcome.done (), w1) ∧
        (∀ p ∈ keys l, w1.mem p = none) ∧ (∀ p, p ∉ keys l → w1.mem p = w.mem p) ∧
        w1.destroyed = w.destroyed + l.length ∧ w1.deallocated = w.deallocated + l.length ∧
        w1.allocated = w.allocated ∧ w1.allocCalls = w.allocCalls ∧
        w1.ctorCalls = w.ctorCalls ∧ w1.sz = w.sz ∧ w1.alloc = w.alloc := by
  induction l with
  | nil =>
    intro bf x w _ _ _
    exact ⟨w, rfl, by simp, fun _ _ => rfl, rfl, rfl, rfl, rfl, rfl, rfl, rfl⟩
  | cons pc l ih =>
    intro bf x w h hnd hnode
    simp only [cells_cons, Holds_cons, keys_cons, List.nodup_cons] at h hnd
    obtain ⟨n, hn⟩ : ∃ n, pc.1 = Ptr.node n := by
      have := hnode pc.1 (by simp)
      cases hp : pc.1 with
      | obj n => rw [hp] at this; simp [Ptr.isNode] at this
      | node n => exact ⟨n, rfl⟩
    let w' : World T :=
      { w with mem := Function.update w.mem pc.1 none
               destroyed := w.destroyed + 1
               deallocated := w.deallocated + 1 }
    have hstep : fillRollback (l.length + 1) pc.1 w = fillRollback l.length (nextOf l x) w' := by
      have h1 := h.1
      rw [hn] at h1
      simp [fillRollback, Prog.bind, getNext, getNode, destroy, deallocate, h1, hn, w']
    have h' : Holds w'.mem (cells pc.1 l x) := by
      refine h.2.frame ?_
      intro p hp
      rw [cells_keys] at hp
      have : p ≠ pc.1 := fun e => hnd.1 (e ▸ hp)
      simp [w', Function.update_apply, this]
    obtain ⟨w1, hrun, hk, hfr, hd1, hd2, hd3, hd4, hd5, hd6, hd7⟩ :=
      ih pc.1 x w' h' hnd.2 (fun p hp => hnode p (by simp [hp]))
    refine ⟨w1, ?_, ?_, ?_, ?_, ?_, hd3, hd4, hd5, hd6, hd7⟩
    · simp only [List.length_cons, nextOf_cons]
      rw [hstep, hrun]
    · intro p hp
      simp only [keys_cons, List.mem_cons] at hp
      by_cases hpl : p ∈ keys l
      · exact hk p hpl
      · rcases hp with rfl | hp
        · rw [hfr _ hpl]; simp [w']
        · exact absurd hp hpl
    · intro p hp
      simp only [keys_cons, List.mem_cons, not_or] at hp
      rw [hfr p hp.2]
      simp [w', Function.update_apply, hp.1]
    · rw [hd1]; simp [w']; omega
    · rw [hd2]; simp [w']; omega


theorem fillLoop_throw_step (E : Env) (this : Nat) (v : T) (n i : Nat) (nn : Option Ptr)
    (w : World T) (hE1 : E.allocFails w.allocCalls = false)
    (hE2 : E.ctorThrows w.ctorCalls = true) :
    fillLoop E this v (n + 1) i nn w =
      (Outcome.raised Failure.ctor_throw, (i, some (Ptr.node w.allocCalls)),
        { w with
          mem := Function.update w.mem (Ptr.node w.allocCalls)
                  (some ⟨Ptr.node w.allocCalls, Ptr.node w.allocCalls, none⟩)
          allocCalls := w.allocCalls + 1
          allocated := w.allocated + 1
          ctorCalls := w.ctorCalls + 1 }) := by
  simp [fillLoop, allocate, fillStep, construct, Prog.bind, hE1, hE2]

theorem fillLoop_bad_alloc_step (E : Env) (this : Nat) (v : T) (n i : Nat) (nn : Option Ptr)
    (w : World T) (hE1 : E.allocFails w.allocCalls = true) :
    fillLoop E this v (n + 1) i nn w =
      (Outcome.raised Failure.bad_alloc, (i, nn),
        { w with allocCalls := w.allocCalls + 1 }) := by
  simp [fillLoop, allocate, hE1, Outcome.forget]

theorem initFill_ring (w : World T) (this a : Nat) (hF : Fresh w) :
    Ring { w with mem := Function.update w.mem (fakeNode this)
                    (some ⟨fakeNode this, fakeNode this, none⟩)
                  alloc := Function.update w.alloc this a } this [] ∧
    Fresh { w with mem := Function.update w.mem (fakeNode this)
                    (some ⟨fakeNode this, fakeNode this, none⟩)
                   alloc := Function.update w.alloc this a } := by
  refine ⟨⟨by simp [ringCells], by simp, by simp⟩, ?_⟩
  intro n hn
  have := hF n hn
  simpa [fakeNode, Function.update_apply] using this

theorem Ring.frame_ring {w w1 : World T} {this : Nat} {ps : List (Ptr × T)} (h : Ring w this ps)
    (hs : w1.mem (fakeNode this) = w.mem (fakeNode this))
    (hk : ∀ p ∈ keys ps, w1.mem p = w.mem p) : Ring w1 this ps := by
  refine ⟨h.1.frame ?_, h.2⟩
  intro p hp
  simp only [ringCells, List.map_cons, cells_keys, List.mem_cons] at hp
  rcases hp with rfl | hp
  · exact hs
  · exact hk p hp

theorem fillHandler_throw (w : World T) (this : Nat) (l : List (Ptr × T)) (m : Nat)
    (e : Failure) (hR : Ring w this l) (hqk : Ptr.node m ∉ keys l) (cq : Node T)
    (hq : w.mem (Ptr.node m) = some cq) :
    ∃ w1, fillHandler this l.length (some (Ptr.node m)) e w = (Outcome.raised e, w1) ∧
      (∀ p ∈ keys l, w1.mem p = none) ∧ w1.mem (Ptr.node m) = none ∧
      (∀ p, p ∉ keys l → p ≠ Ptr.node m → w1.mem p = w.mem p) ∧
      w1.destroyed = w.destroyed + l.length ∧ w1.deallocated = w.deallocated + l.length + 1 ∧
      w1.allocated = w.allocated := by
  have hc := hR.1
  simp only [ringCells, Holds_cons] at hc
  obtain ⟨w2, hrun, hk, hfr, hd1, hd2, hd3, -, -, -, -⟩ :=
    fillRollback_cells l (fakeNode this) (fakeNode this) w hc.2 hR.2.1 hR.2.2
  have hq2 : w2.mem (Ptr.node m) = some cq := by rw [hfr _ hqk, hq]
  refine ⟨{ w2 with mem := Function.update w2.mem (Ptr.node m) none
                    deallocated := w2.deallocated + 1 }, ?_, ?_, ?_, ?_, ?_, ?_, ?_⟩
  · simp [fillHandler, Prog.bind, getNext, getNode, hc.1, hrun, deallocateLocal, deallocate, hq2,
      raise]
  · intro p hp
    have : p ≠ Ptr.node m := fun e => hqk (e ▸ hp)
    simp [Function.update_apply, this, hk p hp]
  · simp
  · intro p hp hpm
    simp [Function.update_apply, hpm, hfr p hp]
  · simp [hd1]
  · simp [hd2]
  · simp [hd3]

/-- C7: in `list(count, value, alloc)`, when every allocation succeeds and the element
    copy constructor throws in the construction of the `k`-th element (`1 ≤ k ≤ count`,
    the earlier constructions succeeding), the exception propagates out of the
    constructor; the call has allocated `k` node storages and deallocated `k`, has
    destroyed the `k - 1` constructed elements, none of the storage handed out during the
    call is live afterwards, and the allocator's allocate and deallocate counts are
    equal afterwards if they were equal before. -/
theorem fill_ctor_throw_releases_all (E : Env) (w : World T) (this count k : Nat) (value : T)
    (a : Nat) (hF : Fresh w) (hk1 : 1 ≤ k) (hk2 : k ≤ count)
    (hEa : ∀ t, t < k → E.allocFails (w.allocCalls + t) = false)
    (hEc : ∀ t, t < k - 1 → E.ctorThrows (w.ctorCalls + t) = false)
    (hEk : E.ctorThrows (w.ctorCalls + (k - 1)) = true) :
    ∃ w1, list_fill E this count value a w = (Outcome.raised Failure.ctor_throw, w1) ∧
      w1.allocated = w.allocated + k ∧ w1.deallocated = w.deallocated + k ∧
      w1.destroyed = w.destroyed + (k - 1) ∧
      (∀ n, w.allocCalls ≤ n → w1.mem (Ptr.node n) = none) ∧
      (w.allocated = w.deallocated → w1.allocated = w1.deallocated) := by
  obtain ⟨j, rfl⟩ : ∃ j, k = j + 1 := ⟨k - 1, by omega⟩
  obtain ⟨n, rfl⟩ : ∃ n, count = j + (n + 1) := ⟨count - j - 1, by omega⟩
  simp only [Nat.add_sub_cancel] at hEc hEk
  obtain ⟨hR0, hF0⟩ := initFill_ring w this a hF
  obtain ⟨w1, hrun, hR1, hF1, hc1, hc2, hc3, hc4, hc5, -, -⟩ :=
    fillLoop_steps E this value 0 none _ [] hR0 hF0 j (fun t ht => hEa t (by omega)) hEc (n + 1)
  simp only [List.append_nil, Nat.zero_add] at hR1 hrun hc1 hc2 hc3 hc4 hc5
  have hE1 : E.allocFails w1.allocCalls = false := by rw [hc1]; exact hEa j (by omega)
  have hE2 : E.ctorThrows w1.ctorCalls = true := by rw [hc2]; exact hEk
  have hstep := fillLoop_throw_step E this value n j (lastNew none w.allocCalls j) w1 hE1 hE2
  have hq1 : w1.mem (Ptr.node w1.allocCalls) = none := hF1 _ (le_refl _)
  have hqk : Ptr.node w1.allocCalls ∉ keys (fillNodes w.allocCalls value j) := by
    rw [mem_keys_fillNodes, hc1]
    rintro ⟨t, ht, e⟩
    simp only [Ptr.node.injEq] at e
    omega
  have hqs : Ptr.node w1.allocCalls ≠ fakeNode this := by simp [fakeNode]
  set w2 : World T :=
    { w1 with
      mem := Function.update w1.mem (Ptr.node w1.allocCalls)
              (some ⟨Ptr.node w1.allocCalls, Ptr.node w1.allocCalls, none⟩)
      allocCalls := w1.allocCalls + 1
      allocated := w1.allocated + 1
      ctorCalls := w1.ctorCalls + 1 } with hw2
  have hR2 : Ring w2 this (fillNodes w.allocCalls value j) := by
    refine hR1.frame_ring ?_ ?_
    · simp [hw2, Function.update_apply, Ne.symm hqs]
    · intro p hp
      have : p ≠ Ptr.node w1.allocCalls := fun e => hqk (e ▸ hp)
      simp [hw2, Function.update_apply, this]
  obtain ⟨w3, hh, hk3, hq3, hfr3, hd1, hd2, hd3⟩ :=
    fillHandler_throw w2 this (fillNodes w.allocCalls value j) w1.allocCalls
      Failure.ctor_throw hR2 hqk ⟨Ptr.node w1.allocCalls, Ptr.node w1.allocCalls, none⟩
      (by simp [hw2])
  rw [length_fillNodes] at hh hd1 hd2
  refine ⟨w3, ?_, ?_, ?_, ?_, ?_, ?_⟩
  · simp only [list_fill, fillInit, initFakeNode, putNode, setAlloc, Prog.bind, bind_apply]
    rw [hrun, hstep]
    exact hh
  · rw [hd3]; simp [hw2, hc3]; omega
  · rw [hd2]; simp [hw2, hc4]; omega
  · rw [hd1]; simp [hw2, hc5]
  · intro m hm
    by_cases hmk : Ptr.node m ∈ keys (fillNodes w.allocCalls value j)
    · exact hk3 _ hmk
    · by_cases hmq : m = w1.allocCalls
      · rw [hmq]; exact hq3
      · rw [hfr3 _ hmk (by simpa using hmq)]
        have hlt : w1.allocCalls ≤ m := by
          rw [hc1]
          by_contra hcon
          exact hmk ((mem_keys_fillNodes _ _ _ _).2 ⟨m - w.allocCalls, by omega, by
            congr 1; omega⟩)
        have := hF1 m hlt
        simpa [hw2, Function.update_apply, hmq] using this
  · intro heq
    rw [hd3, hd2]; simp [hw2, hc3, hc4]; omega


end fill

section copy

variable {T : Type}

theorem copyStep_exec (E : Env) {w : World T} (this : Nat) {it : Ptr} {v : T}
    {ca cs ci : Node T}
    (hs : w.mem (fakeNode this) = some cs) (ha : w.mem cs.prev = some ca)
    (hit : w.mem it = some ci) (hv : ci.value = some v)
    (hne1 : it ≠ fakeNode this) (hne2 : it ≠ cs.prev)
    (hq : w.mem (Ptr.node w.allocCalls) = none)
    (hE1 : E.allocFails w.allocCalls = false) (hE2 : E.ctorThrows w.ctorCalls = false) :
    (copyStep E this it w).1 = Outcome.done ci.next ∧
      Pushed w (copyStep E this it w).2 cs.prev (fakeNode this) v ∧
      (copyStep E this it w).2.sz = w.sz := by
  have hqb : Ptr.node w.allocCalls ≠ fakeNode this := fun e => by rw [e, hs] at hq; cases hq
  have hqa : Ptr.node w.allocCalls ≠ cs.prev := fun e => by rw [e, ha] at hq; cases hq
  have hqi : Ptr.node w.allocCalls ≠ it := fun e => by rw [e, hit] at hq; cases hq
  by_cases hab : cs.prev = fakeNode this
  · have hca : ca = cs := by rw [hab, hs] at ha; exact (Option.some.inj ha).symm
    subst hca
    simp [copyStep, it_deref, it_incr, bindNewNodeToEnd, Prog.bind, allocate, construct, getPrev,
      getNext, setNext, setPrev, getNode, putNode, hE1, hE2, hs, hit, hv, hqb, hqa, hqi, hab,
      hne1, Function.update_apply, Ne.symm hqb, Ne.symm hqi, Pushed, Linked]
    intro p h1 h2
    simp [h1, h2]
  · simp [copyStep, it_deref, it_incr, bindNewNodeToEnd, Prog.bind, allocate, construct, getPrev,
      getNext, setNext, setPrev, getNode, putNode, hE1, hE2, hs, ha, hit, hv, hqb, hqa, hqi, hab,
      hne1, hne2, Function.update_apply, Ne.symm hqb, Ne.symm hqa, Ne.symm hqi, Ne.symm hab,
      Pushed, Linked]
    intro p h1 h2 h3
    simp [h1, h2, h3]

theorem Pushed.ring_other {w w1 : World T} {other : Nat} {ps : List (Ptr × T)} {a b : Ptr}
    {v : T} (hR : Ring w other ps) (hF : Fresh w) (hP : Pushed w w1 a b v)
    (ha : a ≠ fakeNode other) (hb : b ≠ fakeNode other)
    (hak : a ∉ keys ps) (hbk : b ∉ keys ps) : Ring w1 other ps := by
  have hq : w.mem (Ptr.node w.allocCalls) = none := hF _ (le_refl _)
  refine hR.frame_ring ?_ ?_
  · exact hP.1.2.2.2 _ (by simp [fakeNode]) (Ne.symm ha) (Ne.symm hb)
  · intro p hp
    refine hP.1.2.2.2 p ?_ (fun e => hak (e ▸ hp)) (fun e => hbk (e ▸ hp))
    intro e
    obtain ⟨c, hc⟩ := hR.live hp
    rw [e, hq] at hc
    cases hc


theorem lastOf_cases (s : Ptr) (l : List (Ptr × T)) : lastOf s l = s ∨ lastOf s l ∈ keys l := by
  by_cases h : l = []
  · subst h; exact Or.inl rfl
  · exact Or.inr (lastOf_mem h s)

theorem Ring.key_ne_sentinel {w : World T} {this : Nat} {ps : List (Ptr × T)}
    (h : Ring w this ps) {p : Ptr} (hp : p ∈ keys ps) (other : Nat) : p ≠ fakeNode other := by
  intro e
  have := h.2.2 p hp
  rw [e] at this
  simp [fakeNode, Ptr.isNode] at this

theorem copyLoop_ok (E : Env) (hEa : ∀ k, E.allocFails k = false)
    (hEc : ∀ k, E.ctorThrows k = false) (this other : Nat) (hne : this ≠ other)
    (l2 : List (Ptr × T)) :
    ∀ (l1 pt : List (Ptr × T)) (w : World T) (fuel : Nat), Ring w other (l1 ++ l2) →
      Ring w this pt → (∀ p ∈ keys pt, p ∉ keys (l1 ++ l2)) → Fresh w → l2.length < fuel →
      ∃ w1 pt1, copyLoop E this other fuel (nextOf l2 (fakeNode other)) w =
          (Outcome.done (), fakeNode other, w1) ∧
        Ring w1 other (l1 ++ l2) ∧ Ring w1 this (pt ++ pt1) ∧ values pt1 = values l2 ∧
        (∀ p ∈ keys (pt ++ pt1), p ∉ keys (l1 ++ l2)) ∧ Fresh w1 ∧
        w1.sz = w.sz ∧ w1.alloc = w.alloc ∧ w1.allocated = w.allocated + l2.length ∧
        w1.deallocated = w.deallocated ∧ w1.destroyed = w.destroyed := by
  induction l2 with
  | nil =>
    intro l1 pt w fuel hRo hRt hdis hF hf
    cases fuel with
    | zero => simp at hf
    | succ f =>
      refine ⟨w, [], ?_, hRo, by simpa using hRt, rfl, by simpa using hdis, hF, rfl, rfl, rfl,
        rfl, rfl⟩
      simp [copyLoop, end_]
  | cons pv l2 ih =>
    intro l1 pt w fuel hRo hRt hdis hF hf
    cases fuel with
    | zero => simp at hf
    | succ f =>
      have hso : fakeNode this ≠ fakeNode other := by simp [fakeNode, hne]
      have hpvk : pv.1 ∈ keys (l1 ++ pv :: l2) := by simp
      have hit := hRo.at_elem (p := pv.1) (v := pv.2)
      have hRt' : Ring w this (pt ++ []) := by simpa using hRt
      obtain ⟨ca, -, hca, -, -, -⟩ := hRt'.at_split
      have hne1 : pv.1 ≠ fakeNode this := hRo.key_ne_sentinel hpvk this
      have hne2 : pv.1 ≠ lastOf (fakeNode this) pt := by
        rcases lastOf_cases (fakeNode this) pt with e | e
        · rw [e]; exact hne1
        · exact fun e2 => hdis _ e (e2 ▸ hpvk)
      obtain ⟨h1, hP, hS⟩ := copyStep_exec E this hRt.sentinel hca hit rfl hne1 hne2
        (hF _ (le_refl _)) (hEa _) (hEc _)
      simp only at h1 hP
      obtain ⟨hRt1, hF1⟩ := Pushed.ring_grows hRt' hF (by simpa using hP)
      have hak : lastOf (fakeNode this) pt ∉ keys (l1 ++ pv :: l2) := by
        rcases lastOf_cases (fakeNode this) pt with e | e
        · rw [e]; exact fun hm => hRo.key_ne_sentinel hm this rfl
        · exact hdis _ e
      have hao : lastOf (fakeNode this) pt ≠ fakeNode other := by
        rcases lastOf_cases (fakeNode this) pt with e | e
        · rw [e]; exact hso
        · exact hRt.key_ne_sentinel e other
      have hRo1 : Ring (copyStep E this pv.1 w).2 other (l1 ++ pv :: l2) :=
        Pushed.ring_other hRo hF hP hao hso hak
          (fun hm => hRo.key_ne_sentinel hm this rfl)
      have hqk : Ptr.node w.allocCalls ∉ keys (l1 ++ pv :: l2) := by
        intro hm
        obtain ⟨c, hc⟩ := hRo.live hm
        rw [hF _ (le_refl _)] at hc
        cases hc
      obtain ⟨w2, pt2, hrun, hRo2, hRt2, hv2, hdis2, hF2, hs2, ha2, hc1, hc2, hc3⟩ :=
        ih (l1 ++ [pv]) (pt ++ [(Ptr.node w.allocCalls, pv.2)]) _ f
          (by simpa using hRo1) (by simpa using hRt1)
          (by
            intro p hp
            simp only [keys_append, keys_cons, keys_nil, List.mem_append, List.mem_singleton]
              at hp
            rcases hp with hp | rfl
            · simpa using hdis p hp
            · simpa using hqk)
          hF1 (by simpa using hf)
      refine ⟨w2, (Ptr.node w.allocCalls, pv.2) :: pt2, ?_, by simpa using hRo2,
        by simpa using hRt2, by simp [hv2], ?_, hF2, by rw [hs2, hS], ?_, ?_, ?_, ?_⟩
      · simp only [nextOf_cons]
        rw [copyLoop, if_pos (by simpa [end_] using hRo.key_ne_sentinel hpvk other),
          Prog.eq_of_fst h1]
        exact hrun
      · intro p hp
        have := hdis2 p (by simpa using hp)
        simpa using this
      · rw [ha2, hP.2.1]
      · rw [hc1, hP.2.2.2.1]; simp; omega
      · rw [hc2, hP.2.2.2.2.1]
      · rw [hc3, hP.2.2.2.2.2.2]


end copy

section swp

variable {T : Type}

theorem swap_exec_both {w : World T} {lhs rhs : Nat} {csl csr cfl cll cfr clr : Node T}
    (hne : lhs ≠ rhs) (hzl : w.sz lhs ≠ 0) (hzr : w.sz rhs ≠ 0)
    (hsl : w.mem (fakeNode lhs) = some csl) (hsr : w.mem (fakeNode rhs) = some csr)
    (hfl : w.mem csl.next = some cfl) (hll : w.mem csl.prev = some cll)
    (hfr : w.mem csr.next = some cfr) (hlr : w.mem csr.prev = some clr)
    (n1 : csl.next ≠ fakeNode lhs) (n2 : csl.next ≠ fakeNode rhs)
    (n3 : csl.prev ≠ fakeNode lhs) (n4 : csl.prev ≠ fakeNode rhs)
    (n5 : csr.next ≠ fakeNode lhs) (n6 : csr.next ≠ fakeNode rhs)
    (n7 : csr.prev ≠ fakeNode lhs) (n8 : csr.prev ≠ fakeNode rhs)
    (d1 : csl.next ≠ csr.next) (d2 : csl.next ≠ csr.prev)
    (d3 : csl.prev ≠ csr.next) (d4 : csl.prev ≠ csr.prev) :
    (swap lhs rhs w).1 = Outcome.done () ∧
    (swap lhs rhs w).2.mem (fakeNode lhs) = some ⟨csr.next, csr.prev, csl.value⟩ ∧
    (swap lhs rhs w).2.mem (fakeNode rhs) = some ⟨csl.next, csl.prev, csr.value⟩ ∧
    (∀ p, p ≠ fakeNode lhs → p ≠ fakeNode rhs → (swap lhs rhs w).2.mem p =
      (w.mem p).map (fun c =>
        ⟨if p = csl.prev then fakeNode rhs else if p = csr.prev then fakeNode lhs else c.next,
         if p = csl.next then fakeNode rhs else if p = csr.next then fakeNode lhs else c.prev,
         c.value⟩)) ∧
    SwappedFields w (swap lhs rhs w).2 lhs rhs := by
  have hs : fakeNode lhs ≠ fakeNode rhs := by simp [fakeNode, hne]
  by_cases e1 : csl.next = csl.prev
  · have hc1 : cll = cfl := by rw [← e1, hfl] at hll; exact (Option.some.inj hll).symm
    subst hc1
    by_cases e2 : csr.next = csr.prev
    · have hc2 : clr = cfr := by rw [← e2, hfr] at hlr; exact (Option.some.inj hlr).symm
      subst hc2
      simp [swap, empty, size, Prog.bind, getSz, setSz, getAlloc, setAlloc, getNext, getPrev,
        setNext, setPrev, getNode, putNode, hzl, hzr, hsl, hsr, hfl, hfr, hs, Ne.symm hs,
        n1, n2, n5, n6, Ne.symm n1, Ne.symm n2, Ne.symm n5, Ne.symm n6, d1, Ne.symm d1,
        ← e1, ← e2, Function.update_apply, SwappedFields]
      intro p h1 h2
      by_cases q1 : p = csl.next
      · simp [q1, hfl, d1]
      · by_cases q2 : p = csr.next
        · simp [q2, hfr, Ne.symm d1]
        · simp [q1, q2, h1, h2]
    · simp [swap, empty, size, Prog.bind, getSz, setSz, getAlloc, setAlloc, getNext, getPrev,
        setNext, setPrev, getNode, putNode, hzl, hzr, hsl, hsr, hfl, hfr, hlr, hs, Ne.symm hs,
        n1, n2, n5, n6, n7, n8, Ne.symm n1, Ne.symm n2, Ne.symm n5, Ne.symm n6, Ne.symm n7,
        Ne.symm n8, d1, d2, Ne.symm d1, Ne.symm d2, e2, Ne.symm e2,
        ← e1, Function.update_apply, SwappedFields]
      intro p h1 h2
      by_cases q1 : p = csl.next
      · simp [q1, hfl, d1, d2]
      · by_cases q2 : p = csr.next
        · simp [q2, hfr, Ne.symm d1, e2]
        · by_cases q3 : p = csr.prev
          · simp [q3, hlr, Ne.symm d2, Ne.symm e2]
          · simp [q1, q2, q3, h1, h2]
  · by_cases e2 : csr.next = csr.prev
    · have hc2 : clr = cfr := by rw [← e2, hfr] at hlr; exact (Option.some.inj hlr).symm
      subst hc2
      simp [swap, empty, size, Prog.bind, getSz, setSz, getAlloc, setAlloc, getNext, getPrev,
        setNext, setPrev, getNode, putNode, hzl, hzr, hsl, hsr, hfl, hll, hfr, hs, Ne.symm hs,
        n1, n2, n3, n4, n5, n6, Ne.symm n1, Ne.symm n2, Ne.symm n3, Ne.symm n4, Ne.symm n5,
        Ne.symm n6, d1, d3, Ne.symm d1, Ne.symm d3, e1, Ne.symm e1,
        ← e2, Function.update_apply, SwappedFields]
      intro p h1 h2
      by_cases q1 : p = csl.next
      · simp [q1, hfl, d1, e1]
      · by_cases q2 : p = csl.prev
        · simp [q2, hll, d3, Ne.symm e1]
        · by_cases q3 : p = csr.next
          · simp [q3, hfr, Ne.symm d1, Ne.symm d3]
          · simp [q1, q2, q3, h1, h2]
    · simp [swap, empty, size, Prog.bind, getSz, setSz, getAlloc, setAlloc, getNext, getPrev,
        setNext, setPrev, getNode, putNode, hzl, hzr, hsl, hsr, hfl, hll, hfr, hlr, hs,
        Ne.symm hs, n1, n2, n3, n4, n5, n6, n7, n8, Ne.symm n1, Ne.symm n2, Ne.symm n3,
        Ne.symm n4, Ne.symm n5, Ne.symm n6, Ne.symm n7, Ne.symm n8, d1, d2, d3, d4,
        Ne.symm d1, Ne.symm d2, Ne.symm d3, Ne.symm d4, e1, Ne.symm e1, e2, Ne.symm e2,
        Function.update_apply, SwappedFields]
      intro p h1 h2
      by_cases q1 : p = csl.next
      · simp [q1, hfl, d1, d2, e1]
      · by_cases q2 : p = csl.prev
        · simp [q2, hll, d3, d4, Ne.symm e1]
        · by_cases q3 : p = csr.next
          · simp [q3, hfr, Ne.symm d1, Ne.symm d3, e2]
          · by_cases q4 : p = csr.prev
            · simp [q4, hlr, Ne.symm d2, Ne.symm d4, Ne.symm e2]
            · simp [q1, q2, q3, q4, h1, h2]


theorem swap_exec_left_empty {w : World T} {lhs rhs : Nat} {csl csr cfr clr : Node T}
    (hne : lhs ≠ rhs) (hzl : w.sz lhs = 0) (hzr : w.sz rhs ≠ 0)
    (hsl : w.mem (fakeNode lhs) = some csl) (hsr : w.mem (fakeNode rhs) = some csr)
    (hfr : w.mem csr.next = some cfr) (hlr : w.mem csr.prev = some clr)
    (n5 : csr.next ≠ fakeNode lhs) (n6 : csr.next ≠ fakeNode rhs)
    (n7 : csr.prev ≠ fakeNode lhs) (n8 : csr.prev ≠ fakeNode rhs) :
    (swap lhs rhs w).1 = Outcome.done () ∧
    (swap lhs rhs w).2.mem (fakeNode lhs) = some ⟨csr.next, csr.prev, csl.value⟩ ∧
    (swap lhs rhs w).2.mem (fakeNode rhs) = some ⟨fakeNode rhs, fakeNode rhs, csr.value⟩ ∧
    (∀ p, p ≠ fakeNode lhs → p ≠ fakeNode rhs → (swap lhs rhs w).2.mem p =
      (w.mem p).map (fun c =>
        ⟨if p = csr.prev then fakeNode lhs else c.next,
         if p = csr.next then fakeNode lhs else c.prev,
         c.value⟩)) ∧
    SwappedFields w (swap lhs rhs w).2 lhs rhs := by
  have hs : fakeNode lhs ≠ fakeNode rhs := by simp [fakeNode, hne]
  by_cases e2 : csr.next = csr.prev
  · have hc2 : clr = cfr := by rw [← e2, hfr] at hlr; exact (Option.some.inj hlr).symm
    subst hc2
    simp [swap, empty, size, Prog.bind, getSz, setSz, getAlloc, setAlloc, getNext, getPrev,
      setNext, setPrev, getNode, putNode, hzl, hzr, hsl, hsr, hfr, hs, Ne.symm hs,
      n5, n6, Ne.symm n5, Ne.symm n6, ← e2, Function.update_apply, SwappedFields]
    intro p h1 h2
    by_cases q3 : p = csr.next
    · simp [q3, hfr, n5, n6]
    · simp [q3, h1, h2]
  · simp [swap, empty, size, Prog.bind, getSz, setSz, getAlloc, setAlloc, getNext, getPrev,
      setNext, setPrev, getNode, putNode, hzl, hzr, hsl, hsr, hfr, hlr, hs, Ne.symm hs,
      n5, n6, n7, n8, Ne.symm n5, Ne.symm n6, Ne.symm n7, Ne.symm n8, e2, Ne.symm e2,
      Function.update_apply, SwappedFields]
    intro p h1 h2
    by_cases q3 : p = csr.next
    · simp [q3, hfr, e2, n5, n6]
    · by_cases q4 : p = csr.prev
      · simp [q4, hlr, Ne.symm e2, n7, n8]
      · simp [q3, q4, h1, h2]

theorem swap_exec_right_empty {w : World T} {lhs rhs : Nat} {csl csr cfl cll : Node T}
    (hne : lhs ≠ rhs) (hzl : w.sz lhs ≠ 0) (hzr : w.sz rhs = 0)
    (hsl : w.mem (fakeNode lhs) = some csl) (hsr : w.mem (fakeNode rhs) = some csr)
    (hfl : w.mem csl.next = some cfl) (hll : w.mem csl.prev = some cll)
    (n1 : csl.next ≠ fakeNode lhs) (n2 : csl.next ≠ fakeNode rhs)
    (n3 : csl.prev ≠ fakeNode lhs) (n4 : csl.prev ≠ fakeNode rhs) :
    (swap lhs rhs w).1 = Outcome.done () ∧
    (swap lhs rhs w).2.mem (fakeNode lhs) = some ⟨fakeNode lhs, fakeNode lhs, csl.value⟩ ∧
    (swap lhs rhs w).2.mem (fakeNode rhs) = some ⟨csl.next, csl.prev, csr.value⟩ ∧
    (∀ p, p ≠ fakeNode lhs → p ≠ fakeNode rhs → (swap lhs rhs w).2.mem p =
      (w.mem p).map (fun c =>
        ⟨if p = csl.prev then fakeNode rhs else c.next,
         if p = csl.next then fakeNode rhs else c.prev,
         c.value⟩)) ∧
    SwappedFields w (swap lhs rhs w).2 lhs rhs := by
  have hs : fakeNode lhs ≠ fakeNode rhs := by simp [fakeNode, hne]
  by_cases e1 : csl.next = csl.prev
  · have hc1 : cll = cfl := by rw [← e1, hfl] at hll; exact (Option.some.inj hll).symm
    subst hc1
    simp [swap, empty, size, Prog.bind, getSz, setSz, getAlloc, setAlloc, getNext, getPrev,
      setNext, setPrev, getNode, putNode, hzl, hzr, hsl, hsr, hfl, hs, Ne.symm hs,
      n1, n2, Ne.symm n1, Ne.symm n2, ← e1, Function.update_apply, SwappedFields]
    intro p h1 h2
    by_cases q1 : p = csl.next
    · simp [q1, hfl, n1, n2]
    · simp [q1, h1, h2]
  · simp [swap, empty, size, Prog.bind, getSz, setSz, getAlloc, setAlloc, getNext, getPrev,
      setNext, setPrev, getNode, putNode, hzl, hzr, hsl, hsr, hfl, hll, hs, Ne.symm hs,
      n1, n2, n3, n4, Ne.symm n1, Ne.symm n2, Ne.symm n3, Ne.symm n4, e1, Ne.symm e1,
      Function.update_apply, SwappedFields]
    intro p h1 h2
    by_cases q1 : p = csl.next
    · simp [q1, hfl, e1, n1, n2]
    · by_cases q2 : p = csl.prev
      · simp [q2, hll, Ne.symm e1, n3, n4]
      · simp [q1, q2, h1, h2]

theorem swap_exec_both_empty {w : World T} {lhs rhs : Nat} {vl vr : Option T}
    (hne : lhs ≠ rhs) (hzl : w.sz lhs = 0) (hzr : w.sz rhs = 0)
    (hsl : w.mem (fakeNode lhs) = some ⟨fakeNode lhs, fakeNode lhs, vl⟩)
    (hsr : w.mem (fakeNode rhs) = some ⟨fakeNode rhs, fakeNode rhs, vr⟩) :
    (swap lhs rhs w).1 = Outcome.done () ∧
    (swap lhs rhs w).2.mem (fakeNode lhs) = some ⟨fakeNode lhs, fakeNode lhs, vl⟩ ∧
    (swap lhs rhs w).2.mem (fakeNode rhs) = some ⟨fakeNode rhs, fakeNode rhs, vr⟩ ∧
    (∀ p, p ≠ fakeNode lhs → p ≠ fakeNode rhs → (swap lhs rhs w).2.mem p = w.mem p) ∧
    SwappedFields w (swap lhs rhs w).2 lhs rhs := by
  have hs : fakeNode lhs ≠ fakeNode rhs := by simp [fakeNode, hne]
  simp [swap, empty, size, Prog.bind, getSz, setSz, getAlloc, setAlloc, getNext, getPrev,
    setNext, setPrev, getNode, putNode, hzl, hzr, hsl, hsr, hs, Ne.symm hs,
    Function.update_apply, SwappedFields]
  intro p h1 h2
  simp [h1, h2]


theorem Holds.rehome {m m1 : Ptr → Option (Node T)} {s s1 : Ptr} {ps : List (Ptr × T)}
    (h : Holds m (cells s ps s)) (hnd : (keys ps).Nodup) (hps : ps ≠ [])
    (hfl : ∀ p ∈ keys ps, m1 p = (m p).map (fun c =>
      ⟨if p = lastOf s ps then s1 else c.next, if p = nextOf ps s then s1 else c.prev,
       c.value⟩)) :
    Holds m1 (cells s1 ps s1) := by
  have h1 : Holds (fun p => if p = nextOf ps s then (m p).map (fun c => { c with prev := s1 })
      else m p) (cells s1 ps s) :=
    h.relink_before hnd (fun p _ hpn => by simp [hpn]) (fun _ c hc => by simp [hc])
  refine h1.relink_after hnd ?_ ?_
  · intro p hp hpl
    rw [lastOf_of_ne_nil hps s1 s] at hpl
    rw [hfl p hp]
    obtain ⟨c, hc⟩ := h.key_live hp
    by_cases hpf : p = nextOf ps s
    · rw [hpf] at hc hpl
      simp [hpf, hc, hpl]
    · simp [hpl, hpf, hc]
  · intro _ c hc
    rw [lastOf_of_ne_nil hps s1 s] at hc ⊢
    have hl := lastOf_mem hps s
    rw [hfl _ hl]
    obtain ⟨c0, hc0⟩ := h.key_live hl
    by_cases hpf : lastOf s ps = nextOf ps s
    · rw [hpf] at hc0
      simp only [hpf, if_true, hc0, Option.map_some', Option.some.injEq] at hc ⊢
      rw [← hc]
    · simp only [hpf, if_false, hc0, Option.some.injEq] at hc
      simp [hpf, hc0, ← hc]


theorem Ring.of_rehomed {w w1 : World T} {a b : Nat} {ps : List (Ptr × T)} (hR : Ring w a ps)
    (hs : w1.mem (fakeNode b) =
      some ⟨nextOf ps (fakeNode b), lastOf (fakeNode b) ps, none⟩)
    (hU : ∀ p ∈ keys ps, w1.mem p = (w.mem p).map (fun c =>
      ⟨if p = lastOf (fakeNode a) ps then fakeNode b else c.next,
       if p = nextOf ps (fakeNode a) then fakeNode b else c.prev, c.value⟩)) :
    Ring w1 b ps := by
  refine ⟨?_, hR.2⟩
  simp only [ringCells, Holds_cons]
  refine ⟨hs, ?_⟩
  by_cases hps : ps = []
  · subst hps; simp
  · have hc := hR.1
    simp only [ringCells, Holds_cons] at hc
    exact hc.2.rehome hR.2.1 hps hU

theorem swap_rings {w : World T} {lhs rhs : Nat} {pl pr : List (Ptr × T)}
    (hRl : Ring w lhs pl) (hRr : Ring w rhs pr) (hne : lhs ≠ rhs)
    (hdis : ∀ p ∈ keys pl, p ∉ keys pr)
    (hszl : w.sz lhs = pl.length) (hszr : w.sz rhs = pr.length) :
    (swap lhs rhs w).1 = Outcome.done () ∧ Ring (swap lhs rhs w).2 lhs pr ∧
      Ring (swap lhs rhs w).2 rhs pl ∧ SwappedFields w (swap lhs rhs w).2 lhs rhs := by
  have hsl := hRl.sentinel
  have hsr := hRr.sentinel
  by_cases hl : pl = []
  · by_cases hr : pr = []
    · subst hl hr
      obtain ⟨h1, h2, h3, -, h5⟩ := swap_exec_both_empty hne (by simpa using hszl)
        (by simpa using hszr) (by simpa using hsl) (by simpa using hsr)
      exact ⟨h1, hRr.of_rehomed (by simpa using h2) (by simp),
        hRl.of_rehomed (by simpa using h3) (by simp), h5⟩
    · subst hl
      have hfm := nextOf_mem hr (fakeNode rhs)
      have hlm := lastOf_mem hr (fakeNode rhs)
      obtain ⟨cfr, hfr⟩ := hRr.live hfm
      obtain ⟨clr, hlr⟩ := hRr.live hlm
      obtain ⟨h1, h2, h3, h4, h5⟩ := swap_exec_left_empty hne (by simpa using hszl)
        (by rw [hszr]; simpa using hr) hsl hsr hfr hlr
        (hRr.key_ne_sentinel hfm lhs) (hRr.key_ne_sentinel hfm rhs)
        (hRr.key_ne_sentinel hlm lhs) (hRr.key_ne_sentinel hlm rhs)
      refine ⟨h1, hRr.of_rehomed ?_ ?_, hRl.of_rehomed (by simpa using h3) (by simp), h5⟩
      · rw [h2, nextOf_of_ne_nil hr (fakeNode lhs) (fakeNode rhs),
          lastOf_of_ne_nil hr (fakeNode lhs) (fakeNode rhs)]
      · intro p hp
        exact h4 p (hRr.key_ne_sentinel hp lhs) (hRr.key_ne_sentinel hp rhs)
  · have hflm := nextOf_mem hl (fakeNode lhs)
    have hllm := lastOf_mem hl (fakeNode lhs)
    obtain ⟨cfl, hfl⟩ := hRl.live hflm
    obtain ⟨cll, hll⟩ := hRl.live hllm
    by_cases hr : pr = []
    · subst hr
      obtain ⟨h1, h2, h3, h4, h5⟩ := swap_exec_right_empty hne
        (by rw [hszl]; simpa using hl) (by simpa using hszr) hsl hsr hfl hll
        (hRl.key_ne_sentinel hflm lhs) (hRl.key_ne_sentinel hflm rhs)
        (hRl.key_ne_sentinel hllm lhs) (hRl.key_ne_sentinel hllm rhs)
      refine ⟨h1, hRr.of_rehomed (by simpa using h2) (by simp), hRl.of_rehomed ?_ ?_, h5⟩
      · rw [h3, nextOf_of_ne_nil hl (fakeNode rhs) (fakeNode lhs),
          lastOf_of_ne_nil hl (fakeNode rhs) (fakeNode lhs)]
      · intro p hp
        exact h4 p (hRl.key_ne_sentinel hp lhs) (hRl.key_ne_sentinel hp rhs)
    · have hfm := nextOf_mem hr (fakeNode rhs)
      have hlm := lastOf_mem hr (fakeNode rhs)
      obtain ⟨cfr, hfr⟩ := hRr.live hfm
      obtain ⟨clr, hlr⟩ := hRr.live hlm
      have d1 : nextOf pl (fakeNode lhs) ≠ nextOf pr (fakeNode rhs) :=
        fun e => hdis _ hflm (e ▸ hfm)
      have d2 : nextOf pl (fakeNode lhs) ≠ lastOf (fakeNode rhs) pr :=
        fun e => hdis _ hflm (e ▸ hlm)
      have d3 : lastOf (fakeNode lhs) pl ≠ nextOf pr (fakeNode rhs) :=
        fun e => hdis _ hllm (e ▸ hfm)
      have d4 : lastOf (fakeNode lhs) pl ≠ lastOf (fakeNode rhs) pr :=
        fun e => hdis _ hllm (e ▸ hlm)
      obtain ⟨h1, h2, h3, h4, h5⟩ := swap_exec_both hne
        (by rw [hszl]; simpa using hl) (by rw [hszr]; simpa using hr) hsl hsr hfl hll hfr hlr
        (hRl.key_ne_sentinel hflm lhs) (hRl.key_ne_sentinel hflm rhs)
        (hRl.key_ne_sentinel hllm lhs) (hRl.key_ne_sentinel hllm rhs)
        (hRr.key_ne_sentinel hfm lhs) (hRr.key_ne_sentinel hfm rhs)
        (hRr.key_ne_sentinel hlm lhs) (hRr.key_ne_sentinel hlm rhs)
        d1 d2 d3 d4
      refine ⟨h1, hRr.of_rehomed ?_ ?_, hRl.of_rehomed ?_ ?_, h5⟩
      · rw [h2, nextOf_of_ne_nil hr (fakeNode lhs) (fakeNode rhs),
          lastOf_of_ne_nil hr (fakeNode lhs) (fakeNode rhs)]
      · intro p hp
        rw [h4 p (hRr.key_ne_sentinel hp lhs) (hRr.key_ne_sentinel hp rhs)]
        have e1 : p ≠ lastOf (fakeNode lhs) pl := fun e => hdis _ hllm (e ▸ hp)
        have e2 : p ≠ nextOf pl (fakeNode lhs) := fun e => hdis _ hflm (e ▸ hp)
        simp [e1, e2]
      · rw [h3, nextOf_of_ne_nil hl (fakeNode rhs) (fakeNode lhs),
          lastOf_of_ne_nil hl (fakeNode rhs) (fakeNode lhs)]
      · intro p hp
        rw [h4 p (hRl.key_ne_sentinel hp lhs) (hRl.key_ne_sentinel hp rhs)]
        have e3 : p ≠ nextOf pr (fakeNode rhs) := fun e => hdis _ hp (e ▸ hfm)
        have e4 : p ≠ lastOf (fakeNode rhs) pr := fun e => hdis _ hp (e ▸ hlm)
        simp [e3, e4]


end swp

section claims

variable {T : Type}

theorem values_take (ps : List (Ptr × T)) (i : Nat) : values (ps.take i) = (values ps).take i := by
  simp [values, List.map_take]

theorem values_drop (ps : List (Ptr × T)) (i : Nat) : values (ps.drop i) = (values ps).drop i := by
  simp [values, List.map_drop]

theorem sz_incr_this {w w1 : World T} {this : Nat}
    (hS : w1.sz = Function.update w.sz this (size_incr (w.sz this)))
    (h : w.sz this + 1 < 2 ^ size_bits) : w1.sz this = w.sz this + 1 := by
  rw [hS, Function.update_same, size_incr_eq h]

theorem sz_decr_this {w w1 : World T} {this : Nat}
    (hS : w1.sz = Function.update w.sz this (size_decr (w.sz this)))
    (h0 : 0 < w.sz this) (h : w.sz this < 2 ^ size_bits) : w1.sz this = w.sz this - 1 := by
  rw [hS, Function.update_same, size_decr_eq h0 h]

theorem list_default_wf (w : World T) (this : Nat) (hF : Fresh w) :
    (list_default this w).1 = Outcome.done () ∧ WellFormed (list_default this w).2 this [] ∧
      Fresh (list_default this w).2 := by
  refine ⟨rfl, ⟨⟨?_, by simp, by simp⟩, ?_, by simp⟩, ?_⟩
  · simp [list_default, initFakeNode, putNode, setSz, setAlloc, Prog.bind, ringCells]
  · simp [list_default, initFakeNode, putNode, setSz, setAlloc, Prog.bind]
  · intro n hn
    have := hF n (by simpa [list_default, initFakeNode, putNode, setSz, setAlloc, Prog.bind] using hn)
    simpa [list_default, initFakeNode, putNode, setSz, setAlloc, Prog.bind, fakeNode] using this

theorem runOps_cons_done {E : Env} {this : Nat} {op : Op T} {rest : List (Op T)} {w : World T}
    (h : (op.run E this w).1 = Outcome.done ()) :
    runOps E this (op :: rest) w = runOps E this rest (op.run E this w).2 := by
  simp only [runOps, bind_apply]
  exact Prog.bind_done (Prog.eq_of_fst h)

theorem pushes_cons (op : Op T) (rest : List (Op T)) :
    pushes (op :: rest) = (if op.isPush then 1 else 0) + pushes rest := by
  unfold pushes
  by_cases h : op.isPush <;> simp [List.filter_cons, h, Nat.add_comm]

theorem pops_cons (op : Op T) (rest : List (Op T)) :
    pops (op :: rest) = (if op.isPush then 0 else 1) + pops rest := by
  unfold pops
  by_cases h : op.isPush <;> simp [List.filter_cons, h, Nat.add_comm]

theorem runOps_refines (E : Env) (hEa : ∀ k, E.allocFails k = false)
    (hEc : ∀ k, E.ctorThrows k = false) (this : Nat) (ops : List (Op T)) :
    ∀ (w : World T) (ps : List (Ptr × T)) (xs : List T), WellFormed w this ps → Fresh w →
      absRun ops (values ps) = some xs → ps.length + pushes ops < 2 ^ size_bits →
      ∃ w1 ps1, runOps E this ops w = (Outcome.done (), w1) ∧ WellFormed w1 this ps1 ∧
        Fresh w1 ∧ values ps1 = xs ∧ w1.sz this + pops ops = w.sz this + pushes ops := by
  induction ops with
  | nil =>
    intro w ps xs hwf hF habs _
    simp only [absRun, Option.some.injEq] at habs
    exact ⟨w, ps, rfl, hwf, hF, habs, by simp [pushes, pops]⟩
  | cons op rest ih =>
    intro w ps xs hwf hF habs hb
    obtain ⟨hR, hsz, hlt⟩ := hwf
    rw [pushes_cons] at hb
    cases op with
    | push_back v =>
      simp only [Op.isPush, if_true] at hb
      obtain ⟨h1, hP, hS⟩ := push_back_ring (E := E) v hR hF (hEa _) (hEc _)
      have hR' : Ring w this (ps ++ []) := by simpa using hR
      obtain ⟨hR1, hF1⟩ := Pushed.ring_grows hR' hF (by simpa using hP)
      have hs1 := sz_incr_this hS (by omega)
      obtain ⟨w2, ps2, hrun, hwf2, hF2, hv2, hsz2⟩ := ih _ _ xs
        ⟨hR1, by simp [hs1, hsz], by simp; omega⟩ hF1
        (by simpa [absRun, Op.abs] using habs) (by simp; omega)
      refine ⟨w2, ps2, ?_, hwf2, hF2, hv2, ?_⟩
      · rw [runOps_cons_done (by exact h1)]; exact hrun
      · rw [pushes_cons, pops_cons]
        simp only [Op.isPush, if_true] at hsz2 ⊢
        change _ + pops rest = (push_back E this v w).2.sz this + pushes rest at hsz2
        omega
    | push_front v =>
      simp only [Op.isPush, if_true] at hb
      obtain ⟨h1, hP, hS⟩ := push_front_ring (E := E) v hR hF (hEa _) (hEc _)
      have hR' : Ring w this ([] ++ ps) := by simpa using hR
      obtain ⟨hR1, hF1⟩ := Pushed.ring_grows hR' hF (by simpa using hP)
      have hs1 := sz_incr_this hS (by omega)
      obtain ⟨w2, ps2, hrun, hwf2, hF2, hv2, hsz2⟩ := ih _ _ xs
        ⟨hR1, by simp [hs1, hsz], by simp; omega⟩ hF1
        (by simpa [absRun, Op.abs] using habs) (by simp; omega)
      refine ⟨w2, ps2, ?_, hwf2, hF2, hv2, ?_⟩
      · rw [runOps_cons_done (by exact h1)]; exact hrun
      · rw [pushes_cons, pops_cons]
        simp only [Op.isPush, if_true] at hsz2 ⊢
        change _ + pops rest = (push_front E this v w).2.sz this + pushes rest at hsz2
        omega
    | pop_back =>
      simp only [Op.isPush] at hb
      rcases List.eq_nil_or_concat ps with rfl | ⟨l1, pv, hps⟩
      · simp [absRun, Op.abs] at habs
      · rw [List.concat_eq_append] at hps
        subst hps
        obtain ⟨h1, hP, hS⟩ := pop_back_ring (p := pv.1) (v := pv.2) hR
        have hR' : Ring w this (l1 ++ (pv.1, pv.2) :: []) := hR
        obtain ⟨hR1, hF1⟩ := Popped.ring_shrinks hR' hF hP
        simp only [List.length_append, List.length_singleton] at hsz hlt hb
        have hs1 := sz_decr_this hS (by omega) (by omega)
        obtain ⟨w2, ps2, hrun, hwf2, hF2, hv2, hsz2⟩ := ih _ _ xs
          ⟨hR1, by simp [hs1, hsz], by simp; omega⟩ hF1
          (by simpa [absRun, Op.abs, values] using habs) (by simp; omega)
        refine ⟨w2, ps2, ?_, hwf2, hF2, hv2, ?_⟩
        · rw [runOps_cons_done (by exact h1)]; exact hrun
        · rw [pushes_cons, pops_cons]
          simp only [Op.isPush] at hsz2 ⊢
          change _ + pops rest = (pop_back this w).2.sz this + pushes rest at hsz2
          simp at hsz2 ⊢
          omega
    | pop_front =>
      simp only [Op.isPush] at hb
      cases ps with
      | nil => simp [absRun, Op.abs] at habs
      | cons pv l2 =>
        obtain ⟨h1, hP, hS⟩ := pop_front_ring (p := pv.1) (v := pv.2) hR
        have hR' : Ring w this ([] ++ (pv.1, pv.2) :: l2) := hR
        obtain ⟨hR1, hF1⟩ := Popped.ring_shrinks hR' hF hP
        simp only [List.length_cons] at hsz hlt hb
        have hs1 := sz_decr_this hS (by omega) (by omega)
        obtain ⟨w2, ps2, hrun, hwf2, hF2, hv2, hsz2⟩ := ih _ _ xs
          ⟨hR1, by simp [hs1, hsz], by simp; omega⟩ hF1
          (by simpa [absRun, Op.abs, values] using habs) (by simp; omega)
        refine ⟨w2, ps2, ?_, hwf2, hF2, hv2, ?_⟩
        · rw [runOps_cons_done (by exact h1)]; exact hrun
        · rw [pushes_cons, pops_cons]
          simp only [Op.isPush] at hsz2 ⊢
          change _ + pops rest = (pop_front this w).2.sz this + pushes rest at hsz2
          simp at hsz2 ⊢
          omega


/-- C5: on a well-formed list with element nodes `ps`, `insert(p, v)` with `p` referencing
    the `i`-th node (`i = ps.length`: `p == end()`) returns normally when the allocation and
    the construction succeed; the list is then well-formed with the new node sitting
    between the first `i` nodes and the remaining ones, iteration from `begin()` to `end()`
    yields the first `i` elements, `v`, then the remaining elements, and `size()` has grown
    by exactly one. For `i = ps.length` the position is `end()` and `v` is appended. -/
theorem insert_at_position (E : Env) (w : World T) (this : Nat) (ps : List (Ptr × T))
    (i : Nat) (v : T) (hwf : WellFormed w this ps) (hF : Fresh w) (hi : i ≤ ps.length)
    (hE1 : E.allocFails w.allocCalls = false) (hE2 : E.ctorThrows w.ctorCalls = false)
    (hroom : ps.length + 1 < 2 ^ size_bits) :
    ∃ w1, insert E this (nodeAt this ps i) v w = (Outcome.done (), w1) ∧
      WellFormed w1 this (ps.take i ++ (Ptr.node w.allocCalls, v) :: ps.drop i) ∧
      (∀ fuel, ps.length + 1 < fuel →
        to_seq fuel this w1 =
          (Outcome.done ((values ps).take i ++ [v] ++ (values ps).drop i), w1)) ∧
      size this w1 = (Outcome.done (w.sz this + 1), w1) ∧
      (i = ps.length → nodeAt this ps i = end_ this ∧
        (values ps).take i ++ [v] ++ (values ps).drop i = values ps ++ [v]) := by
  obtain ⟨hR, hsz, -⟩ := hwf
  have hR' : Ring w this (ps.take i ++ ps.drop i) := by rwa [List.take_append_drop]
  obtain ⟨h1, hP, hS⟩ := insert_ring (E := E) v hR' hF hE1 hE2
  obtain ⟨hR1, -⟩ := hP.ring_grows hR' hF
  have hlen : (ps.take i ++ (Ptr.node w.allocCalls, v) :: ps.drop i).length = ps.length + 1 := by
    have := congrArg List.length (List.take_append_drop i ps)
    simp only [List.length_append, List.length_cons] at this ⊢
    omega
  have hsz1 : ((insert E this (nodeAt this ps i) v w).2).sz this = w.sz this + 1 :=
    sz_incr_this hS (by rw [hsz]; exact hroom)
  refine ⟨_, Prog.eq_of_fst h1, ⟨hR1, ?_, ?_⟩, ?_, ?_, ?_⟩
  · rw [hlen, ← hsz]; exact hsz1
  · rw [hlen]; exact hroom
  · intro fuel hf
    have := to_seq_ring hR1 fuel (by rw [hlen]; exact hf)
    simpa [values_take, values_drop] using this
  · simp only [size, getSz]
    rw [← hsz1]
  · intro hi
    subst hi
    refine ⟨by simp [nodeAt, end_], ?_⟩
    rw [List.take_of_length_le (by simp), List.drop_of_length_le (by simp)]
    simp

/-- C6: on a well-formed list with element nodes `ps`, `erase(p)` with `p` referencing the
    `i`-th element node (`i < ps.length`) returns normally; the list is then well-formed
    with the other nodes in their order holding their elements, iteration yields the
    sequence without its `i`-th element, `size()` has shrunk by exactly one, and exactly
    one node was destroyed and deallocated: the erased one, which is no longer live. -/
theorem erase_at_position (w : World T) (this : Nat) (ps : List (Ptr × T)) (i : Nat)
    (hwf : WellFormed w this ps) (hF : Fresh w) (hi : i < ps.length) :
    ∃ w1, erase this (nodeAt this ps i) w = (Outcome.done (), w1) ∧
      WellFormed w1 this (ps.eraseIdx i) ∧
      (∀ fuel, ps.length ≤ fuel →
        to_seq fuel this w1 = (Outcome.done ((values ps).eraseIdx i), w1)) ∧
      size this w1 = (Outcome.done (w.sz this - 1), w1) ∧ 0 < w.sz this ∧
      w1.mem (nodeAt this ps i) = none ∧
      w1.destroyed = w.destroyed + 1 ∧ w1.deallocated = w.deallocated + 1 ∧
      w1.allocated = w.allocated := by
  obtain ⟨hR, hsz, hlt⟩ := hwf
  have hsplit : ps = ps.take i ++ (ps[i].1, ps[i].2) :: ps.drop (i + 1) := by
    conv_lhs => rw [← List.take_append_drop i ps, List.drop_eq_getElem_cons hi]
  have hnode : nodeAt this ps i = ps[i].1 := by
    show nextOf (ps.drop i) _ = _
    rw [List.drop_eq_getElem_cons hi]; rfl
  have hR' : Ring w this (ps.take i ++ (ps[i].1, ps[i].2) :: ps.drop (i + 1)) := by
    rw [← hsplit]; exact hR
  obtain ⟨h1, hP, hS⟩ := erase_ring hR'
  obtain ⟨hR1, -⟩ := hP.ring_shrinks hR' hF
  rw [← List.eraseIdx_eq_take_drop_succ] at hR1
  have hlen : (ps.eraseIdx i).length = ps.length - 1 := by
    rw [List.length_eraseIdx, if_pos hi]
  have hpos : 0 < w.sz this := by rw [hsz]; omega
  have hsz1 : ((erase this ps[i].1 w).2).sz this = w.sz this - 1 :=
    sz_decr_this hS hpos (by rw [hsz]; exact hlt)
  rw [hnode]
  refine ⟨_, Prog.eq_of_fst h1, ⟨hR1, ?_, ?_⟩, ?_, ?_, hpos, hP.2.1, hP.2.2.2.2.2.2.2,
    hP.2.2.2.2.2.1, hP.2.2.2.2.1⟩
  · rw [hlen, ← hsz]; exact hsz1
  · rw [hlen]; omega
  · intro fuel hf
    have := to_seq_ring hR1 fuel (by rw [hlen]; omega)
    simpa [values, List.eraseIdx_eq_take_drop_succ, List.map_take, List.map_drop] using this
  · simp only [size, getSz]
    rw [← hsz1]


theorem world12_fresh : Fresh world12 := by
  intro n hn
  match n, hn with
  | n + 2, _ => rfl

theorem world12_wf : WellFormed world12 0 ps12 := by decide

theorem insert_at_position_witness :
    WellFormed world12 0 ps12 ∧ Fresh world12 ∧ 1 ≤ ps12.length ∧
      (to_seq 4 0 (insert Env.reliable 0 (nodeAt 0 ps12 1) 7 world12).2).1
        = Outcome.done [1, 7, 2] := by
  obtain ⟨w1, h1, -, h2, -⟩ := insert_at_position Env.reliable world12 0 ps12 1 7
    world12_wf world12_fresh (by decide) rfl rfl (by decide)
  refine ⟨world12_wf, world12_fresh, by decide, ?_⟩
  rw [h1, h2 4 (by decide)]
  rfl

theorem erase_at_position_witness :
    WellFormed world12 0 ps12 ∧ Fresh world12 ∧ 1 < ps12.length ∧
      (to_seq 4 0 (erase 0 (nodeAt 0 ps12 1) world12).2).1 = Outcome.done [1] := by
  obtain ⟨w1, h1, -, h2, -⟩ := erase_at_position world12 0 ps12 1
    world12_wf world12_fresh (by decide)
  refine ⟨world12_wf, world12_fresh, by decide, ?_⟩
  rw [h1, h2 4 (by decide)]
  rfl

theorem World.empty_fresh : Fresh (World.empty T) := fun _ _ => rfl

/-- C1: take any sequence of `push_back` / `push_front` / `pop_back` / `pop_front` calls
    whose abstract run from the empty sequence is defined (no pop of an empty list) and
    yields `xs`, in an environment where no allocation and no construction fails (the
    number of pushes stays below `2 ^ size_bits`, the number of node storages a machine
    can address). Run on a default-constructed list the calls all return normally,
    `size()` is the number of pushes minus the number of pops, and walking from `begin()`
    to `end()` yields exactly `xs`. -/
theorem end_operations_refine (E : Env) (hEa : ∀ k, E.allocFails k = false)
    (hEc : ∀ k, E.ctorThrows k = false) (this : Nat) (ops : List (Op T)) (xs : List T)
    (w : World T) (hF : Fresh w) (habs : absRun ops [] = some xs)
    (hroom : pushes ops < 2 ^ size_bits) :
    ∃ w1, runFromDefault E this ops w = (Outcome.done (), w1) ∧
      size this w1 = (Outcome.done (pushes ops - pops ops), w1) ∧
      pops ops ≤ pushes ops ∧
      ∀ fuel, xs.length < fuel → to_seq fuel this w1 = (Outcome.done xs, w1) := by
  obtain ⟨h0, hwf0, hF0⟩ := list_default_wf w this hF
  obtain ⟨w1, ps1, hrun, hwf1, -, hv1, hsz1⟩ := runOps_refines E hEa hEc this ops _ [] xs hwf0 hF0
    (by simpa using habs) (by simpa using hroom)
  have hz : (list_default this w).2.sz this = 0 := hwf0.2.1
  rw [hz] at hsz1
  refine ⟨w1, ?_, ?_, by omega, ?_⟩
  · simp only [runFromDefault, bind_apply]
    rw [Prog.bind_done (Prog.eq_of_fst h0)]
    exact hrun
  · simp only [size, getSz]
    congr 2
    omega
  · intro fuel hf
    rw [← hv1] at hf ⊢
    exact to_seq_ring hwf1.1 fuel (by simpa using hf)

theorem end_operations_refine_witness :
    Fresh (World.empty Nat) ∧
      absRun [Op.push_back 1, Op.push_back 2, Op.push_front 0, Op.pop_front] [] = some [1, 2] ∧
      (to_seq 3 0 (runFromDefault Env.reliable 0
        [Op.push_back 1, Op.push_back 2, Op.push_front 0, Op.pop_front]
        (World.empty Nat)).2).1 = Outcome.done [1, 2] := by
  obtain ⟨w1, h1, -, -, h2⟩ := end_operations_refine Env.reliable (fun _ => rfl) (fun _ => rfl) 0
    [Op.push_back 1, Op.push_back 2, Op.push_front 0, Op.pop_front] [1, 2] (World.empty Nat)
    World.empty_fresh (by decide) (by decide)
  refine ⟨World.empty_fresh, by decide, ?_⟩
  rw [h1, h2 3 (by decide)]


/-- C2: copy-constructing list `this` from a well-formed list `other` with element nodes
    `ps`, when no allocation and no construction fails, returns normally (given a step
    budget above the length); the new list is well-formed over nodes of its own, walking
    it from `begin()` to `end()` yields the same elements as walking `other`, its `size()`
    is `other.size()`, and `other` is the same well-formed list as before: same nodes,
    same elements, same size. -/
theorem copy_construct_equal (E : Env) (hEa : ∀ k, E.allocFails k = false)
    (hEc : ∀ k, E.ctorThrows k = false) (w : World T) (this other : Nat)
    (ps : List (Ptr × T)) (fuel : Nat) (hwf : WellFormed w other ps) (hF : Fresh w)
    (hne : this ≠ other) (hfuel : ps.length < fuel) :
    ∃ w1 ps1, list_copy E fuel this other w = (Outcome.done (), w1) ∧
      WellFormed w1 this ps1 ∧ values ps1 = values ps ∧
      (∀ p ∈ keys ps1, p ∉ keys ps) ∧
      WellFormed w1 other ps ∧
      (∀ g, ps.length < g →
        to_seq g this w1 = (Outcome.done (values ps), w1) ∧
        to_seq g other w1 = (Outcome.done (values ps), w1) ∧
        to_seq g other w = (Outcome.done (values ps), w)) ∧
      size this w1 = (Outcome.done (w.sz other), w1) ∧
      size other w1 = (Outcome.done (w.sz other), w1) := by
  obtain ⟨hR, hsz, hlt⟩ := hwf
  have hso : fakeNode this ≠ fakeNode other := by simp [fakeNode, hne]
  set w0 : World T :=
    { w with
      mem := Function.update w.mem (fakeNode this) (some ⟨fakeNode this, fakeNode this, none⟩)
      sz := Function.update w.sz this (w.sz other)
      alloc := Function.update w.alloc this (select_on_container_copy_construction (w.alloc other)) }
    with hw0
  have hinit : copyInit this other w = (Outcome.done (nextOf ps (fakeNode other)), w0) := by
    simp [copyInit, initFakeNode, putNode, setSz, getSz, setAlloc, getAlloc, begin, getNext, getNode,
      Prog.bind, Function.update_apply, Ne.symm hso, hR.sentinel, hw0]
  have hRo0 : Ring w0 other ps := by
    refine hR.frame_ring ?_ ?_
    · simp [hw0, Function.update_apply, Ne.symm hso]
    · intro p hp
      have := hR.key_ne_sentinel hp this
      simp [hw0, Function.update_apply, this]
  have hRt0 : Ring w0 this [] := ⟨by simp [ringCells, hw0], by simp, by simp⟩
  have hF0 : Fresh w0 := by
    intro n hn
    have := hF n hn
    simpa [hw0, fakeNode, Function.update_apply] using this
  obtain ⟨w1, pt1, hrun, hRo1, hRt1, hv1, hdis1, hF1, hs1, -, -, -, -⟩ :=
    copyLoop_ok E hEa hEc this other hne ps [] [] w0 fuel (by simpa using hRo0) hRt0
      (by simp) hF0 hfuel
  simp only [List.nil_append] at hRo1 hRt1 hdis1
  have hlen : pt1.length = ps.length := by
    have := congrArg List.length hv1
    simpa using this
  have hszt : w1.sz this = w.sz other := by rw [hs1]; simp [hw0]
  have hszo : w1.sz other = w.sz other := by
    rw [hs1]; simp [hw0, Function.update_apply, Ne.symm hne]
  refine ⟨w1, pt1, ?_, ⟨hRt1, by rw [hszt, hsz, hlen], by rw [hlen]; exact hlt⟩, hv1, hdis1,
    ⟨hRo1, by rw [hszo, hsz], hlt⟩, ?_, ?_, ?_⟩
  · simp only [list_copy]
    rw [hinit]
    simp only []
    rw [hrun]
  · intro g hg
    refine ⟨?_, to_seq_ring hRo1 g hg, to_seq_ring hR g hg⟩
    rw [← hv1]
    exact to_seq_ring hRt1 g (by rw [hlen]; exact hg)
  · simp only [size, getSz, hszt]
  · simp only [size, getSz, hszo]

theorem copy_construct_equal_witness :
    WellFormed world12 0 ps12 ∧ Fresh world12 ∧ (1 : Nat) ≠ 0 ∧ ps12.length < 3 ∧
      (list_copy Env.reliable 3 1 0 world12).1 = Outcome.done () ∧
      (to_seq 3 1 (list_copy Env.reliable 3 1 0 world12).2).1 = Outcome.done [1, 2] ∧
      (to_seq 3 0 (list_copy Env.reliable 3 1 0 world12).2).1 = Outcome.done [1, 2] := by
  obtain ⟨w1, ps1, h1, -, -, -, -, h2, -⟩ := copy_construct_equal Env.reliable (fun _ => rfl)
    (fun _ => rfl) world12 1 0 ps12 3 world12_wf world12_fresh (by decide) (by decide)
  refine ⟨world12_wf, world12_fresh, by decide, by decide, ?_, ?_, ?_⟩
  · rw [h1]
  · rw [h1, (h2 3 (by decide)).1]; rfl
  · rw [h1, (h2 3 (by decide)).2.1]; rfl


theorem Holds.value_of_mem {m : Ptr → Option (Node T)} {bf x : Ptr} {l : List (Ptr × T)}
    (h : Holds m (cells bf l x)) {pv : Ptr × T} (hp : pv ∈ l) :
    ∃ c, m pv.1 = some c ∧ c.value = some pv.2 := by
  induction l generalizing bf with
  | nil => simp at hp
  | cons pc l ih =>
    simp only [cells_cons, Holds_cons, List.mem_cons] at h hp
    rcases hp with rfl | hp
    · exact ⟨_, h.1, rfl⟩
    · exact ih h.2 hp

theorem Ring.elem_value {w : World T} {this : Nat} {ps : List (Ptr × T)} (h : Ring w this ps)
    {pv : Ptr × T} (hp : pv ∈ ps) : ∃ c, w.mem pv.1 = some c ∧ c.value = some pv.2 := by
  have hc := h.1
  simp only [ringCells, Holds_cons] at hc
  exact hc.2.value_of_mem hp

theorem nextOf_cases (s : Ptr) (l : List (Ptr × T)) : nextOf l s = s ∨ nextOf l s ∈ keys l := by
  by_cases h : l = []
  · subst h; exact Or.inl rfl
  · exact Or.inr (nextOf_mem h s)

theorem cells_links (l : List (Ptr × T)) :
    ∀ (bf af : Ptr), ∀ pc ∈ cells bf l af,
      pc.2.next ∈ af :: keys l ∧ pc.2.prev ∈ bf :: keys l := by
  induction l with
  | nil => intro bf af pc hpc; simp at hpc
  | cons pd l ih =>
    intro bf af pc hpc
    simp only [cells_cons, List.mem_cons] at hpc
    rcases hpc with rfl | hpc
    · constructor
      · rcases nextOf_cases af l with e | e
        · simp [e]
        · simp only [keys_cons, List.mem_cons]
          exact Or.inr (Or.inr e)
      · simp
    · obtain ⟨h1, h2⟩ := ih pd.1 af pc hpc
      simp only [keys_cons, List.mem_cons] at h1 h2 ⊢
      exact ⟨by tauto, by tauto⟩

theorem Ring.closed {w : World T} {this : Nat} {ps : List (Ptr × T)} (h : Ring w this ps) :
    Closed w this ps := by
  intro p hp
  have hc := h.1
  have hk : (ringCells (fakeNode this) ps).map Prod.fst = fakeNode this :: keys ps := by
    simp [ringCells, cells_keys]
  rw [← hk] at hp
  obtain ⟨pc, hpc, rfl⟩ := List.mem_map.1 hp
  refine ⟨pc.2, hc pc hpc, ?_⟩
  simp only [ringCells, List.mem_cons] at hpc
  rcases hpc with rfl | hpc
  · constructor
    · rcases nextOf_cases (fakeNode this) ps with e | e
      · simp [e]
      · exact List.mem_cons_of_mem _ e
    · rcases lastOf_cases (fakeNode this) ps with e | e
      · simp [e]
      · exact List.mem_cons_of_mem _ e
  · exact cells_links ps _ _ pc hpc

theorem worldTwo_wf0 : WellFormed worldTwo 0 ps12 := by decide

theorem worldTwo_wf1 : WellFormed worldTwo 1 ps3 := by decide

/-- C3: for two distinct well-formed lists `lhs` and `rhs` with element nodes `pl` and
    `pr` (either may be empty; distinct lists own disjoint nodes), `swap(lhs, rhs)`
    returns normally; afterwards `lhs` is well-formed over the nodes `pr` and `rhs` over the
    nodes `pl`, so walking `lhs` yields the former sequence of `rhs` and walking `rhs` the
    former sequence of `lhs`; the sizes and the allocators are exchanged; every link of
    each ring refers to its own sentinel or to one of its own nodes, never to the other
    sentinel; every element node holds the element it held before; no allocator call is
    made. -/
theorem swap_exchanges (w : World T) (lhs rhs : Nat) (pl pr : List (Ptr × T))
    (hwl : WellFormed w lhs pl) (hwr : WellFormed w rhs pr) (hne : lhs ≠ rhs)
    (hdis : ∀ p ∈ keys pl, p ∉ keys pr) :
    ∃ w1, swap lhs rhs w = (Outcome.done (), w1) ∧
      WellFormed w1 lhs pr ∧ WellFormed w1 rhs pl ∧
      (∀ g, pl.length < g → pr.length < g →
        to_seq g lhs w = (Outcome.done (values pl), w) ∧
        to_seq g rhs w = (Outcome.done (values pr), w) ∧
        to_seq g lhs w1 = (Outcome.done (values pr), w1) ∧
        to_seq g rhs w1 = (Outcome.done (values pl), w1)) ∧
      size lhs w1 = (Outcome.done (w.sz rhs), w1) ∧
      size rhs w1 = (Outcome.done (w.sz lhs), w1) ∧
      w1.alloc lhs = w.alloc rhs ∧ w1.alloc rhs = w.alloc lhs ∧
      Closed w1 lhs pr ∧ Closed w1 rhs pl ∧
      fakeNode rhs ∉ fakeNode lhs :: keys pr ∧ fakeNode lhs ∉ fakeNode rhs :: keys pl ∧
      (∀ pv ∈ pl ++ pr, ∃ c c1, w.mem pv.1 = some c ∧ w1.mem pv.1 = some c1 ∧
        c.value = some pv.2 ∧ c1.value = some pv.2) ∧
      w1.allocated = w.allocated ∧ w1.deallocated = w.deallocated ∧
      w1.destroyed = w.destroyed := by
  obtain ⟨hRl, hszl, hltl⟩ := hwl
  obtain ⟨hRr, hszr, hltr⟩ := hwr
  obtain ⟨h1, hR1, hR2, hS⟩ := swap_rings hRl hRr hne hdis hszl hszr
  have hs1 : (swap lhs rhs w).2.sz lhs = w.sz rhs := by
    rw [hS.1]; simp [Function.update_apply, hne]
  have hs2 : (swap lhs rhs w).2.sz rhs = w.sz lhs := by
    rw [hS.1]; simp
  have hsne : fakeNode lhs ≠ fakeNode rhs := by simp [fakeNode, hne]
  refine ⟨_, Prog.eq_of_fst h1, ⟨hR1, by rw [hs1, hszr], hltr⟩, ⟨hR2, by rw [hs2, hszl], hltl⟩,
    ?_, ?_, ?_, ?_, ?_, hR1.closed, hR2.closed, ?_, ?_, ?_, hS.2.2.2.1, hS.2.2.2.2.1,
    hS.2.2.2.2.2.2⟩
  · intro g hg1 hg2
    exact ⟨to_seq_ring hRl g hg1, to_seq_ring hRr g hg2, to_seq_ring hR1 g hg2,
      to_seq_ring hR2 g hg1⟩
  · simp only [size, getSz, hs1]
  · simp only [size, getSz, hs2]
  · rw [hS.2.1]; simp [Function.update_apply, hne]
  · rw [hS.2.1]; simp
  · simp only [List.mem_cons, not_or]
    exact ⟨Ne.symm hsne, fun hm => hRr.key_ne_sentinel hm rhs rfl⟩
  · simp only [List.mem_cons, not_or]
    exact ⟨hsne, fun hm => hRl.key_ne_sentinel hm lhs rfl⟩
  · intro pv hpv
    rcases List.mem_append.1 hpv with hp | hp
    · obtain ⟨c, hc, hv⟩ := hRl.elem_value hp
      obtain ⟨c1, hc1, hv1⟩ := hR2.elem_value hp
      exact ⟨c, c1, hc, hc1, hv, hv1⟩
    · obtain ⟨c, hc, hv⟩ := hRr.elem_value hp
      obtain ⟨c1, hc1, hv1⟩ := hR1.elem_value hp
      exact ⟨c, c1, hc, hc1, hv, hv1⟩

theorem swap_exchanges_witness :
    WellFormed worldTwo 0 ps12 ∧ WellFormed worldTwo 1 ps3 ∧ (0 : Nat) ≠ 1 ∧
      (∀ p ∈ keys ps12, p ∉ keys ps3) ∧
      (swap 0 1 worldTwo).1 = Outcome.done () ∧
      (to_seq 3 0 (swap 0 1 worldTwo).2).1 = Outcome.done [3] ∧
      (to_seq 3 1 (swap 0 1 worldTwo).2).1 = Outcome.done [1, 2] := by
  obtain ⟨w1, h1, -, -, h2, -⟩ := swap_exchanges worldTwo 0 1 ps12 ps3 worldTwo_wf0
    worldTwo_wf1 (by decide) (by decide)
  obtain ⟨-, -, h3, h4⟩ := h2 3 (by decide) (by decide)
  refine ⟨worldTwo_wf0, worldTwo_wf1, by decide, by decide, ?_, ?_, ?_⟩
  · rw [h1]
  · rw [h1, h3]; rfl
  · rw [h1, h4]; rfl


theorem fill_ctor_throw_releases_all_witness :
    Fresh (World.empty Nat) ∧ 1 ≤ 2 ∧ 2 ≤ 3 ∧
      (list_fill throwSecondCtor 0 3 5 0 (World.empty Nat)).1
        = Outcome.raised Failure.ctor_throw ∧
      (list_fill throwSecondCtor 0 3 5 0 (World.empty Nat)).2.allocated = 2 ∧
      (list_fill throwSecondCtor 0 3 5 0 (World.empty Nat)).2.deallocated = 2 ∧
      (list_fill throwSecondCtor 0 3 5 0 (World.empty Nat)).2.destroyed = 1 := by
  obtain ⟨w1, h1, h2, h3, h4, -⟩ := fill_ctor_throw_releases_all throwSecondCtor
    (World.empty Nat) 0 3 2 5 0 World.empty_fresh (by decide) (by decide)
    (fun _ _ => rfl) (by decide) (by decide)
  refine ⟨World.empty_fresh, by decide, by decide, ?_, ?_, ?_, ?_⟩
  · rw [h1]
  · rw [h1]; exact h2
  · rw [h1]; exact h3
  · rw [h1]; exact h4

/-- C4 (defect): `clear()` on the list holding 1, 2 returns with `sz == 0` and both nodes
    deallocated, but the sentinel still links to them: `fakeNode.next` is the released
    node 0 and `fakeNode.prev` the released node 1, so `begin() != end()`, and a following
    `push_back(7)` writes through the stale `fakeNode.prev` (undefined behaviour), where on
    a default-constructed list `push_back(7)` gives the sequence `[7]`. -/
theorem clear_keeps_stale_links :
    WellFormed world12 0 ps12 ∧
    (clear 0 world12).1 = Outcome.done () ∧
    (clear 0 world12).2.sz 0 = 0 ∧
    (clear 0 world12).2.mem (fakeNode 0) = some ⟨Ptr.node 0, Ptr.node 1, none⟩ ∧
    (clear 0 world12).2.mem (Ptr.node 0) = none ∧
    (clear 0 world12).2.mem (Ptr.node 1) = none ∧
    (begin 0 (clear 0 world12).2).1 = Outcome.done (Ptr.node 0) ∧
    Ptr.node 0 ≠ end_ 0 ∧
    (to_seq 5 0 (clear 0 world12).2).1 = Outcome.undefined ∧
    (push_back Env.reliable 0 7 (clear 0 world12).2).1 = Outcome.undefined ∧
    (list_default 0 (World.empty Nat)).2.mem (fakeNode 0)
      = some ⟨fakeNode 0, fakeNode 0, none⟩ ∧
    (to_seq 5 0 (push_back Env.reliable 0 7 (list_default 0 (World.empty Nat)).2).2).1
      = Outcome.done [7] := by
  decide

/-- C8 (defect): `list(3, 5, alloc)` whose second allocation fails. The loop leaves with
    `i == 1` and `newNode` still referring to node 0, the node linked in the first round;
    the handler destroys and deallocates node 0 in its `while (i)` loop and then calls
    `deallocate(newNode)` on that same, already released storage: undefined behaviour
    instead of a propagated `bad_alloc`. When the first allocation fails, `newNode` was
    never assigned and is passed to `deallocate` all the same. -/
theorem fill_alloc_failure_releases_twice :
    (fillLoop (failAlloc 1) 0 5 3 0 none (fillInit 0 0 (World.empty Nat)).2).1
      = Outcome.raised Failure.bad_alloc ∧
    (fillLoop (failAlloc 1) 0 5 3 0 none (fillInit 0 0 (World.empty Nat)).2).2.1
      = (1, some (Ptr.node 0)) ∧
    (list_fill (failAlloc 1) 0 3 5 0 (World.empty Nat)).1 = Outcome.undefined ∧
    (list_fill (failAlloc 1) 0 3 5 0 (World.empty Nat)).2.mem (Ptr.node 0) = none ∧
    (list_fill (failAlloc 1) 0 3 5 0 (World.empty Nat)).2.allocated = 1 ∧
    (list_fill (failAlloc 1) 0 3 5 0 (World.empty Nat)).2.destroyed = 1 ∧
    (list_fill (failAlloc 1) 0 3 5 0 (World.empty Nat)).2.deallocated = 1 ∧
    (deallocateLocal (some (Ptr.node 0))
      (list_fill (failAlloc 1) 0 3 5 0 (World.empty Nat)).2).1 = Outcome.undefined ∧
    (fillLoop (failAlloc 0) 0 5 3 0 none (fillInit 0 0 (World.empty Nat)).2).2.1
      = (0, none) ∧
    (list_fill (failAlloc 0) 0 3 5 0 (World.empty Nat)).1 = Outcome.undefined := by
  simp [list_fill, fillInit, fillLoop, fillStep, fillHandler, fillRollback, deallocateLocal,
    bindNewNodeToTop, initFakeNode, allocate, construct, destroy, deallocate, getNext, getPrev,
    setNext, setPrev, getNode, putNode, setAlloc, setSz, raise, undef, Prog.bind, failAlloc,
    World.empty, fakeNode, Function.update_apply, Outcome.forget]

/-- C9 (defect): copy-constructing list 1 from the list holding 1, 2 when the second
    allocation of the copy fails (allocate call number 3). The handler loop tests
    `it != start` with `it` in the source ring and `start` in the new ring, and destroys
    and deallocates `it.ptr`: the second node of the source (node 1) is released, the node
    the call had linked into the new list (node 2) stays allocated, and the second round
    releases the already released node 1 again (undefined behaviour); `bad_alloc` is not
    rethrown. With the first allocation failing (call number 2) the first node of the
    source is released. -/
theorem copy_rollback_releases_source :
    WellFormed world12 0 ps12 ∧
    (copyInit 1 0 world12).1 = Outcome.done (Ptr.node 0) ∧
    (copyLoop (failAlloc 3) 1 0 10 (Ptr.node 0) (copyInit 1 0 world12).2).1
      = Outcome.raised Failure.bad_alloc ∧
    (copyLoop (failAlloc 3) 1 0 10 (Ptr.node 0) (copyInit 1 0 world12).2).2.1
      = Ptr.node 1 ∧
    (list_copy (failAlloc 3) 10 1 0 world12).1 = Outcome.undefined ∧
    (list_copy (failAlloc 3) 10 1 0 world12).2.mem (Ptr.node 1) = none ∧
    (list_copy (failAlloc 3) 10 1 0 world12).2.mem (Ptr.node 2)
      = some ⟨Ptr.obj 1, Ptr.obj 1, some 1⟩ ∧
    (list_copy (failAlloc 3) 10 1 0 world12).2.allocated = 3 ∧
    (list_copy (failAlloc 3) 10 1 0 world12).2.deallocated = 1 ∧
    (to_seq 5 0 (list_copy (failAlloc 3) 10 1 0 world12).2).1 = Outcome.undefined ∧
    (list_copy (failAlloc 2) 10 1 0 world12).1 = Outcome.undefined ∧
    (list_copy (failAlloc 2) 10 1 0 world12).2.mem (Ptr.node 0) = none := by
  refine ⟨world12_wf, ?_⟩
  simp [list_copy, copyInit, copyLoop, copyStep, copyHandler, copyRollback, destroyBase,
    bindNewNodeToEnd, initFakeNode, allocate, construct, destroy, deallocate, getNext,
    getPrev, setNext, setPrev, getNode, putNode, setAlloc, getAlloc, setSz, getSz, raise,
    undef, diverge, Prog.bind, failAlloc, world12, fakeNode, Function.update_apply,
    Outcome.forget, begin, end_, it_deref, it_incr, to_seq, collect,
    select_on_container_copy_construction]

/-- C10 (defect): `push_back(7)` and `push_front(7)` on the list holding 1, 2 when the
    element copy constructor throws. The exception propagates and the list is the same
    well-formed list as before, but the storage obtained for the new node (node 2) is
    never deallocated: the number of outstanding allocations goes from 2 to 3. When the
    allocation itself fails nothing is allocated and the list is unchanged. -/
theorem push_ctor_throw_leaks :
    WellFormed world12 0 ps12 ∧ outstanding world12 = 2 ∧
    (push_back throwingCtor 0 7 world12).1 = Outcome.raised Failure.ctor_throw ∧
    WellFormed (push_back throwingCtor 0 7 world12).2 0 ps12 ∧
    (push_back throwingCtor 0 7 world12).2.mem (Ptr.node 2)
      = some ⟨Ptr.node 2, Ptr.node 2, none⟩ ∧
    (push_back throwingCtor 0 7 world12).2.deallocated = world12.deallocated ∧
    outstanding (push_back throwingCtor 0 7 world12).2 = 3 ∧
    (push_front throwingCtor 0 7 world12).1 = Outcome.raised Failure.ctor_throw ∧
    WellFormed (push_front throwingCtor 0 7 world12).2 0 ps12 ∧
    outstanding (push_front throwingCtor 0 7 world12).2 = 3 ∧
    (push_back (failAlloc 2) 0 7 world12).1 = Outcome.raised Failure.bad_alloc ∧
    WellFormed (push_back (failAlloc 2) 0 7 world12).2 0 ps12 ∧
    outstanding (push_back (failAlloc 2) 0 7 world12).2 = 2 := by
  decide

theorem lastOf_eq_of_getLast (s : Ptr) (l : List (Ptr × T)) (pv : Ptr × T)
    (h : l.getLast? = some pv) : lastOf s l = pv.1 := by
  induction l generalizing s with
  | nil => simp at h
  | cons pc l ih =>
    cases l with
    | nil =>
      simp only [List.getLast?_singleton, Option.some.injEq] at h
      simp [h]
    | cons pd l =>
      rw [List.getLast?_cons_cons] at h
      simpa using ih pc.1 h

theorem nextOf_eq_of_head (s : Ptr) (l : List (Ptr × T)) (pv : Ptr × T)
    (h : l.head? = some pv) : nextOf l s = pv.1 := by
  cases l with
  | nil => simp at h
  | cons pc l =>
    simp only [List.head?_cons, Option.some.injEq] at h
    simp [h]

theorem Ring.deref {w : World T} {this : Nat} {ps : List (Ptr × T)} (h : Ring w this ps)
    {pv : Ptr × T} (hp : pv ∈ ps) : it_deref pv.1 w = (Outcome.done pv.2, w) := by
  obtain ⟨c, hc, hv⟩ := h.elem_value hp
  simp [it_deref, Prog.bind, getNode, hc, hv]

/-- C16: on a well-formed list with element nodes `ps`: when the list is not empty,
    `--end()` references the last node and dereferences to the last element, which is
    `back()`, and `++end()` wraps around to `begin()`, the first node, and dereferences to
    the first element, which is `front()`; when the list is empty, `++end()` and `--end()`
    are both `end()`. -/
theorem end_iterator_wraps (w : World T) (this : Nat) (ps : List (Ptr × T))
    (hwf : WellFormed w this ps) :
    (∀ first last, ps.head? = some first → ps.getLast? = some last →
      it_decr (end_ this) w = (Outcome.done last.1, w) ∧
      it_deref last.1 w = (Outcome.done last.2, w) ∧
      back this w = (Outcome.done last.2, w) ∧
      it_incr (end_ this) w = (Outcome.done first.1, w) ∧
      begin this w = (Outcome.done first.1, w) ∧
      it_deref first.1 w = (Outcome.done first.2, w) ∧
      front this w = (Outcome.done first.2, w)) ∧
    (ps = [] →
      it_incr (end_ this) w = (Outcome.done (end_ this), w) ∧
      it_decr (end_ this) w = (Outcome.done (end_ this), w)) := by
  have hR := hwf.1
  have hs := hR.sentinel
  constructor
  · intro first last hf hl
    have hfm : first ∈ ps := List.mem_of_mem_head? hf
    have hlm : last ∈ ps := List.mem_of_mem_getLast? hl
    have e1 := nextOf_eq_of_head (fakeNode this) ps first hf
    have e2 := lastOf_eq_of_getLast (fakeNode this) ps last hl
    rw [e1, e2] at hs
    have d1 := hR.deref hfm
    have d2 := hR.deref hlm
    refine ⟨?_, d2, ?_, ?_, ?_, d1, ?_⟩
    · simp [it_decr, end_, getPrev, Prog.bind, getNode, hs]
    · simp only [back, bind_apply]
      rw [Prog.bind_done (getPrev_eq hs)]
      exact d2
    · simp [it_incr, end_, getNext, Prog.bind, getNode, hs]
    · simp [begin, getNext, Prog.bind, getNode, hs]
    · simp only [front, bind_apply]
      rw [Prog.bind_done (getNext_eq hs)]
      exact d1
  · rintro rfl
    simp only [nextOf_nil, lastOf_nil] at hs
    constructor
    · simp [it_incr, end_, getNext, Prog.bind, getNode, hs]
    · simp [it_decr, end_, getPrev, Prog.bind, getNode, hs]

theorem end_iterator_wraps_witness :
    WellFormed world12 0 ps12 ∧
      it_decr (end_ 0) world12 = (Outcome.done (Ptr.node 1), world12) ∧
      back 0 world12 = (Outcome.done 2, world12) ∧
      it_incr (end_ 0) world12 = (Outcome.done (Ptr.node 0), world12) ∧
      front 0 world12 = (Outcome.done 1, world12) := by
  obtain ⟨h, -⟩ := end_iterator_wraps world12 0 ps12 world12_wf
  obtain ⟨h1, -, h3, h4, -, -, h7⟩ := h (Ptr.node 0, 1) (Ptr.node 1, 2) rfl rfl
  exact ⟨world12_wf, h1, h3, h4, h7⟩

theorem Ring.same_records {w w2 : World T} {this : Nat} {ps : List (Ptr × T)}
    (h : Ring w this ps) (h2 : Ring w2 this ps) :
    ∀ p ∈ fakeNode this :: keys ps, w2.mem p = w.mem p := by
  intro p hp
  have hk : (ringCells (fakeNode this) ps).map Prod.fst = fakeNode this :: keys ps := by
    simp [ringCells, cells_keys]
  rw [← hk] at hp
  obtain ⟨pc, hpc, rfl⟩ := List.mem_map.1 hp
  rw [h.1 pc hpc, h2.1 pc hpc]

theorem mem_keys_split {ps : List (Ptr × T)} {q : Ptr} (h : q ∈ keys ps) :
    ∃ l1 v l2, ps = l1 ++ (q, v) :: l2 := by
  obtain ⟨pv, hpv, rfl⟩ := List.mem_map.1 h
  obtain ⟨l1, l2, e⟩ := List.append_of_mem hpv
  exact ⟨l1, pv.2, l2, e⟩

/-- A node that is an element node of the rings of two list objects makes them the same
    list object: following the `next` links from it, both rings reach their sentinel at the
    same record. -/
theorem Ring.same_of_shared {w : World T} {a b : Nat} (l2 : List (Ptr × T)) :
    ∀ (l1 m1 m2 : List (Ptr × T)) (p : Ptr) (v u : T),
      Ring w a (l1 ++ (p, v) :: l2) → Ring w b (m1 ++ (p, u) :: m2) → a = b := by
  induction l2 with
  | nil =>
    intro l1 m1 m2 p v u ha hb
    have e := ha.at_elem
    rw [hb.at_elem] at e
    cases m2 with
    | nil =>
      simp only [nextOf_nil, Option.some.injEq, Node.mk.injEq, fakeNode, Ptr.obj.injEq] at e
      exact e.1.symm
    | cons r m2 =>
      simp only [nextOf_cons, nextOf_nil, Option.some.injEq, Node.mk.injEq] at e
      exact absurd e.1 (hb.key_ne_sentinel (by simp) a)
  | cons q l2 ih =>
    intro l1 m1 m2 p v u ha hb
    have e := ha.at_elem
    rw [hb.at_elem] at e
    cases m2 with
    | nil =>
      simp only [nextOf_cons, nextOf_nil, Option.some.injEq, Node.mk.injEq] at e
      exact absurd e.1.symm (ha.key_ne_sentinel (by simp) b)
    | cons r m2 =>
      simp only [nextOf_cons, Option.some.injEq, Node.mk.injEq] at e
      have ha2 : Ring w a ((l1 ++ [(p, v)]) ++ (q.1, q.2) :: l2) := by simpa using ha
      have hb2 : Ring w b ((m1 ++ [(p, u)]) ++ (q.1, r.2) :: m2) := by
        have : (q.1, r.2) = r := by rw [← e.1]
        rw [this]; simpa using hb
      exact ih _ _ _ _ _ _ ha2 hb2

/-- Two distinct list objects that are both rings own disjoint element nodes. -/
theorem Ring.disjoint {w : World T} {a b : Nat} {pa pb : List (Ptr × T)}
    (ha : Ring w a pa) (hb : Ring w b pb) (hne : a ≠ b) : ∀ p ∈ keys pa, p ∉ keys pb := by
  intro p hp hq
  obtain ⟨l1, v, l2, rfl⟩ := mem_keys_split hp
  obtain ⟨m1, u, m2, rfl⟩ := mem_keys_split hq
  exact hne (Ring.same_of_shared l2 l1 m1 m2 p v u ha hb)

/-- C13: for two distinct well-formed lists `lhs` and `rhs` with element nodes `pl` and
    `pr` (either may be empty), `swap(lhs, rhs)` performed twice in succession returns
    normally both times and restores both lists: `lhs` is again well-formed over `pl` and
    `rhs` over `pr`, every record of both rings (sentinels and nodes) holds what it held
    before, so the sequences are the original ones, the sizes and allocators are the
    original ones, and each ring is closed on its own sentinel. -/
theorem swap_twice_restores (w : World T) (lhs rhs : Nat) (pl pr : List (Ptr × T))
    (hwl : WellFormed w lhs pl) (hwr : WellFormed w rhs pr) (hne : lhs ≠ rhs) :
    ∃ w1 w2, swap lhs rhs w = (Outcome.done (), w1) ∧ swap lhs rhs w1 = (Outcome.done (), w2) ∧
      WellFormed w2 lhs pl ∧ WellFormed w2 rhs pr ∧
      (∀ p ∈ fakeNode lhs :: keys pl, w2.mem p = w.mem p) ∧
      (∀ p ∈ fakeNode rhs :: keys pr, w2.mem p = w.mem p) ∧
      (∀ g, pl.length < g → pr.length < g →
        to_seq g lhs w2 = (Outcome.done (values pl), w2) ∧
        to_seq g rhs w2 = (Outcome.done (values pr), w2) ∧
        to_seq g lhs w = (Outcome.done (values pl), w) ∧
        to_seq g rhs w = (Outcome.done (values pr), w)) ∧
      w2.sz lhs = w.sz lhs ∧ w2.sz rhs = w.sz rhs ∧
      w2.alloc lhs = w.alloc lhs ∧ w2.alloc rhs = w.alloc rhs ∧
      Closed w2 lhs pl ∧ Closed w2 rhs pr := by
  obtain ⟨hRl, hszl, hltl⟩ := hwl
  obtain ⟨hRr, hszr, hltr⟩ := hwr
  have hdis : ∀ p ∈ keys pl, p ∉ keys pr := hRl.disjoint hRr hne
  obtain ⟨h1, hR1, hR2, hS⟩ := swap_rings hRl hRr hne hdis hszl hszr
  have hs1 : (swap lhs rhs w).2.sz lhs = w.sz rhs := by
    rw [hS.1]; simp [Function.update_apply, hne]
  have hs2 : (swap lhs rhs w).2.sz rhs = w.sz lhs := by
    rw [hS.1]; simp
  have ha1 : (swap lhs rhs w).2.alloc lhs = w.alloc rhs := by
    rw [hS.2.1]; simp [Function.update_apply, hne]
  have ha2 : (swap lhs rhs w).2.alloc rhs = w.alloc lhs := by
    rw [hS.2.1]; simp
  obtain ⟨k1, hQ1, hQ2, hS2⟩ := swap_rings hR1 hR2 hne
    (fun p hp hq => hdis p hq hp) (by rw [hs1, hszr]) (by rw [hs2, hszl])
  have ht1 : (swap lhs rhs (swap lhs rhs w).2).2.sz lhs = w.sz lhs := by
    rw [hS2.1]; simp [Function.update_apply, hne, hs2]
  have ht2 : (swap lhs rhs (swap lhs rhs w).2).2.sz rhs = w.sz rhs := by
    rw [hS2.1]; simp [hs1]
  refine ⟨_, _, Prog.eq_of_fst h1, Prog.eq_of_fst k1, ⟨hQ1, by rw [ht1, hszl], hltl⟩,
    ⟨hQ2, by rw [ht2, hszr], hltr⟩, hRl.same_records hQ1, hRr.same_records hQ2, ?_, ht1, ht2,
    ?_, ?_, hQ1.closed, hQ2.closed⟩
  · intro g hg1 hg2
    exact ⟨to_seq_ring hQ1 g hg1, to_seq_ring hQ2 g hg2, to_seq_ring hRl g hg1,
      to_seq_ring hRr g hg2⟩
  · rw [hS2.2.1]; simp [Function.update_apply, hne, ha2]
  · rw [hS2.2.1]; simp [ha1]

theorem swap_twice_restores_witness :
    WellFormed worldTwo 0 ps12 ∧ WellFormed worldTwo 1 ps3 ∧ (0 : Nat) ≠ 1 ∧
      (swap 0 1 (swap 0 1 worldTwo).2).1 = Outcome.done () ∧
      (to_seq 3 0 (swap 0 1 (swap 0 1 worldTwo).2).2).1 = Outcome.done [1, 2] ∧
      (to_seq 3 1 (swap 0 1 (swap 0 1 worldTwo).2).2).1 = Outcome.done [3] := by
  obtain ⟨w1, w2, h1, h2, -, -, -, -, h3, -⟩ := swap_twice_restores worldTwo 0 1 ps12 ps3
    worldTwo_wf0 worldTwo_wf1 (by decide)
  obtain ⟨h4, h5, -, -⟩ := h3 3 (by decide) (by decide)
  refine ⟨worldTwo_wf0, worldTwo_wf1, by decide, ?_, ?_, ?_⟩
  · rw [h1, h2]
  · rw [h1, h2, h4]; rfl
  · rw [h1, h2, h5]; rfl

theorem list_default_frame (w : World T) (this : Nat) :
    (list_default this w).1 = Outcome.done () ∧
      (list_default this w).2.mem =
        Function.update w.mem (fakeNode this) (some ⟨fakeNode this, fakeNode this, none⟩) ∧
      (list_default this w).2.sz = Function.update w.sz this 0 ∧
      (list_default this w).2.alloc = Function.update w.alloc this 0 ∧
      (list_default this w).2.allocCalls = w.allocCalls ∧
      (list_default this w).2.allocated = w.allocated ∧
      (list_default this w).2.deallocated = w.deallocated ∧
      (list_default this w).2.ctorCalls = w.ctorCalls ∧
      (list_default this w).2.destroyed = w.destroyed := by
  simp [list_default, initFakeNode, putNode, setSz, setAlloc, Prog.bind]

/-- C11: move-constructing list `this` from a well-formed list `other` with element nodes
    `ps` (empty or not) returns normally; `this` is then well-formed over the very nodes
    `ps`, so it has the previous sequence and size of `other`; `other` is left empty:
    `size() == 0`, `empty()` is true and its sentinel is self-linked; no node is allocated,
    constructed, destroyed or deallocated. -/
theorem move_construct_takes_nodes (w : World T) (this other : Nat) (ps : List (Ptr × T))
    (hwf : WellFormed w other ps) (hne : this ≠ other) :
    ∃ w1, list_move this other w = (Outcome.done (), w1) ∧
      WellFormed w1 this ps ∧ WellFormed w1 other [] ∧
      (∀ g, ps.length < g →
        to_seq g this w1 = (Outcome.done (values ps), w1) ∧
        to_seq g other w = (Outcome.done (values ps), w)) ∧
      size this w1 = (Outcome.done (w.sz other), w1) ∧
      size other w1 = (Outcome.done 0, w1) ∧
      empty other w1 = (Outcome.done true, w1) ∧
      w1.mem (fakeNode other) = some ⟨fakeNode other, fakeNode other, none⟩ ∧
      w1.allocated = w.allocated ∧ w1.deallocated = w.deallocated ∧
      w1.ctorCalls = w.ctorCalls ∧ w1.destroyed = w.destroyed := by
  obtain ⟨hR, hsz, hlt⟩ := hwf
  obtain ⟨h0, hm, hs, -, -, c2, c3, c4, c5⟩ := list_default_frame w this
  have hso : fakeNode this ≠ fakeNode other := by simp [fakeNode, hne]
  have hRo : Ring (list_default this w).2 other ps := by
    refine hR.frame_ring ?_ ?_
    · rw [hm]; simp [Function.update_apply, Ne.symm hso]
    · intro p hp
      have := hR.key_ne_sentinel hp this
      rw [hm]; simp [Function.update_apply, this]
  have hRt : Ring (list_default this w).2 this [] :=
    ⟨by rw [hm]; simp [ringCells], by simp, by simp⟩
  have hst : (list_default this w).2.sz this = ([] : List (Ptr × T)).length := by
    rw [hs]; simp
  have hso2 : (list_default this w).2.sz other = ps.length := by
    rw [hs]; simp [Function.update_apply, Ne.symm hne, hsz]
  obtain ⟨h1, hR1, hR2, hS⟩ := swap_rings hRt hRo hne (by simp) hst hso2
  have hs1 : (swap this other (list_default this w).2).2.sz this = w.sz other := by
    rw [hS.1]; simp [Function.update_apply, hne, hso2, hsz]
  have hs2 : (swap this other (list_default this w).2).2.sz other = 0 := by
    rw [hS.1]; simp [hs]
  refine ⟨(swap this other (list_default this w).2).2, ?_, ⟨hR1, by rw [hs1, hsz], hlt⟩,
    ⟨hR2, by rw [hs2]; rfl, by simp⟩, ?_, ?_, ?_, ?_, ?_, ?_, ?_, ?_, ?_⟩
  · simp only [list_move, bind_apply]
    rw [Prog.bind_done (Prog.eq_of_fst h0)]
    exact Prog.eq_of_fst h1
  · intro g hg
    exact ⟨to_seq_ring hR1 g hg, to_seq_ring hR g hg⟩
  · simp only [size, getSz, hs1]
  · simp only [size, getSz, hs2]
  · simp [empty, getSz, Prog.bind, hs2]
  · simpa using hR2.sentinel
  · rw [hS.2.2.2.1, c2]
  · rw [hS.2.2.2.2.1, c3]
  · rw [hS.2.2.2.2.2.1, c4]
  · rw [hS.2.2.2.2.2.2, c5]

theorem move_construct_takes_nodes_witness :
    WellFormed world12 0 ps12 ∧ (1 : Nat) ≠ 0 ∧
      (list_move 1 0 world12).1 = Outcome.done () ∧
      (to_seq 3 1 (list_move 1 0 world12).2).1 = Outcome.done [1, 2] ∧
      (empty 0 (list_move 1 0 world12).2).1 = Outcome.done true := by
  obtain ⟨w1, h1, -, -, h2, -, -, h3, -⟩ := move_construct_takes_nodes world12 1 0 ps12
    world12_wf (by decide)
  refine ⟨world12_wf, by decide, ?_, ?_, ?_⟩
  · rw [h1]
  · rw [h1, (h2 3 (by decide)).1]; rfl
  · rw [h1, h3]

/-- C18: `list(count, value, alloc)`, when the `count` allocations and constructions it
    makes all succeed, returns normally with a well-formed list of `count` nodes;
    `size() == count`, walking from `begin()` to `end()` yields `count` copies of `value`
    (for `count == 0` the sentinel is self-linked), and exactly `count` allocations and no
    deallocation have been made. -/
theorem fill_construct_success (E : Env) (w : World T) (this count : Nat) (value : T)
    (a : Nat) (hF : Fresh w) (hcount : count < 2 ^ size_bits)
    (hEa : ∀ t, t < count → E.allocFails (w.allocCalls + t) = false)
    (hEc : ∀ t, t < count → E.ctorThrows (w.ctorCalls + t) = false) :
    ∃ w1, list_fill E this count value a w = (Outcome.done (), w1) ∧
      WellFormed w1 this (fillNodes w.allocCalls value count) ∧
      size this w1 = (Outcome.done count, w1) ∧
      (∀ g, count < g → to_seq g this w1 = (Outcome.done (List.replicate count value), w1)) ∧
      w1.allocated = w.allocated + count ∧ w1.deallocated = w.deallocated ∧
      w1.destroyed = w.destroyed ∧
      (count = 0 → w1.mem (fakeNode this) = some ⟨fakeNode this, fakeNode this, none⟩) := by
  obtain ⟨hR0, hF0⟩ := initFill_ring w this a hF
  obtain ⟨w1, hrun, hR1, hF1, hc1, hc2, hc3, hc4, hc5, -, -⟩ :=
    fillLoop_steps E this value 0 none _ [] hR0 hF0 count hEa hEc 0
  simp only [List.append_nil, Nat.zero_add, Nat.add_zero] at hR1 hrun hc1 hc2 hc3 hc4 hc5
  have hR2 : Ring { w1 with sz := Function.update w1.sz this count } this
      (fillNodes w.allocCalls value count) := hR1.frame_ring rfl (fun _ _ => rfl)
  refine ⟨{ w1 with sz := Function.update w1.sz this count }, ?_,
    ⟨hR2, by simp [length_fillNodes], by rw [length_fillNodes]; exact hcount⟩, ?_, ?_, hc3, hc4,
    hc5, ?_⟩
  · simp only [list_fill, fillInit, initFakeNode, putNode, setAlloc, Prog.bind, bind_apply]
    rw [hrun]
    simp [fillLoop, setSz]
  · simp [size, getSz]
  · intro g hg
    rw [← values_fillNodes w.allocCalls value count]
    exact to_seq_ring hR2 g (by rw [length_fillNodes]; exact hg)
  · rintro rfl
    simpa [fillNodes] using hR2.sentinel

theorem fill_construct_success_witness :
    Fresh (World.empty Nat) ∧ 3 < 2 ^ size_bits ∧
      (list_fill Env.reliable 0 3 5 0 (World.empty Nat)).1 = Outcome.done () ∧
      (to_seq 4 0 (list_fill Env.reliable 0 3 5 0 (World.empty Nat)).2).1
        = Outcome.done [5, 5, 5] ∧
      (list_fill Env.reliable 0 3 5 0 (World.empty Nat)).2.allocated = 3 := by
  obtain ⟨w1, h1, -, -, h2, h3, -⟩ := fill_construct_success Env.reliable (World.empty Nat)
    0 3 5 0 World.empty_fresh (by decide) (fun _ _ => rfl) (fun _ _ => rfl)
  refine ⟨World.empty_fresh, by decide, ?_, ?_, ?_⟩
  · rw [h1]
  · rw [h1, h2 4 (by decide)]; rfl
  · rw [h1]; exact h3

theorem size_decr_one : size_decr 1 = 0 := by decide

theorem clearLoop_cells (this : Nat) (l : List (Ptr × T)) :
    ∀ (bf x : Ptr) (w : World T), Holds w.mem (cells bf l x) → (keys l).Nodup →
      (∀ p ∈ keys l, p.isNode = true) → l.length < 2 ^ size_bits →
      ∃ w1, clearLoop this l.length (nextOf l x) w = (Outcome.done (), w1) ∧
        (∀ p ∈ keys l, w1.mem p = none) ∧ (∀ p, p ∉ keys l → w1.mem p = w.mem p) ∧
        w1.destroyed = w.destroyed + l.length ∧ w1.deallocated = w.deallocated + l.length ∧
        w1.allocated = w.allocated ∧ w1.allocCalls = w.allocCalls ∧
        w1.ctorCalls = w.ctorCalls ∧ w1.alloc = w.alloc ∧
        (l = [] → w1 = w) ∧ (l ≠ [] → w1.sz = Function.update w.sz this 0) := by
  induction l with
  | nil =>
    intro bf x w _ _ _ _
    exact ⟨w, rfl, by simp, fun _ _ => rfl, rfl, rfl, rfl, rfl, rfl, rfl, fun _ => rfl,
      fun h => absurd rfl h⟩
  | cons pc l ih =>
    intro bf x w h hnd hnode hlen
    simp only [cells_cons, Holds_cons, keys_cons, List.nodup_cons] at h hnd
    obtain ⟨n, hn⟩ : ∃ n, pc.1 = Ptr.node n := by
      have := hnode pc.1 (by simp)
      cases hp : pc.1 with
      | obj n => rw [hp] at this; simp [Ptr.isNode] at this
      | node n => exact ⟨n, rfl⟩
    let w' : World T :=
      { w with mem := Function.update w.mem pc.1 none
               destroyed := w.destroyed + 1
               deallocated := w.deallocated + 1
               sz := Function.update w.sz this (size_decr (l.length + 1)) }
    have hstep : clearLoop this (l.length + 1) pc.1 w =
        clearLoop this l.length (nextOf l x) w' := by
      have h1 := h.1
      rw [hn] at h1
      simp [clearLoop, Prog.bind, getNext, getNode, destroy, deallocate, setSz, h1, hn, w']
    have h2 : Holds w'.mem (cells pc.1 l x) := by
      refine h.2.frame ?_
      intro p hp
      rw [cells_keys] at hp
      have : p ≠ pc.1 := fun e => hnd.1 (e ▸ hp)
      simp [w', Function.update_apply, this]
    simp only [List.length_cons] at hlen
    obtain ⟨w1, hrun, hk, hfr, hd1, hd2, hd3, hd4, hd5, hd6, hd7, hd8⟩ :=
      ih pc.1 x w' h2 hnd.2 (fun p hp => hnode p (by simp [hp])) (by omega)
    refine ⟨w1, ?_, ?_, ?_, ?_, ?_, hd3, hd4, hd5, hd6, fun e => by simp at e, fun _ => ?_⟩
    · simp only [List.length_cons, nextOf_cons]
      rw [hstep, hrun]
    · intro p hp
      simp only [keys_cons, List.mem_cons] at hp
      by_cases hpl : p ∈ keys l
      · exact hk p hpl
      · rcases hp with rfl | hp
        · rw [hfr _ hpl]; simp [w']
        · exact absurd hp hpl
    · intro p hp
      simp only [keys_cons, List.mem_cons, not_or] at hp
      rw [hfr p hp.2]
      simp [w', Function.update_apply, hp.1]
    · rw [hd1]; simp [w']; omega
    · rw [hd2]; simp [w']; omega
    · by_cases hl : l = []
      · subst hl
        rw [hd7 rfl]
        simp [w', size_decr_one]
      · rw [hd8 hl]
        simp [w']

/-- C14: `clear()` on a well-formed list with element nodes `ps` returns normally; afterwards
    `empty()` is true, `size()` is 0, every element node of the ring is no longer live, and
    the call has destroyed and deallocated exactly as many nodes as the ring had, with no
    allocation; when the list is already empty the call changes nothing at all: the world
    after it is the world before it. -/
theorem clear_releases_all (w : World T) (this : Nat) (ps : List (Ptr × T))
    (hwf : WellFormed w this ps) :
    ∃ w1, clear this w = (Outcome.done (), w1) ∧
      empty this w1 = (Outcome.done true, w1) ∧ size this w1 = (Outcome.done 0, w1) ∧
      (∀ p ∈ keys ps, w1.mem p = none) ∧
      (∀ p ∈ keys ps, ∃ c, w.mem p = some c) ∧
      w1.destroyed = w.destroyed + ps.length ∧ w1.deallocated = w.deallocated + ps.length ∧
      w1.allocated = w.allocated ∧ w1.allocCalls = w.allocCalls ∧
      (∀ p, p ∉ keys ps → w1.mem p = w.mem p) ∧
      (ps = [] → w1 = w) := by
  obtain ⟨hR, hsz, hlt⟩ := hwf
  have hc := hR.1
  simp only [ringCells, Holds_cons] at hc
  obtain ⟨w1, hrun, hk, hfr, hd1, hd2, hd3, hd4, -, -, hd7, hd8⟩ :=
    clearLoop_cells this ps (fakeNode this) (fakeNode this) w hc.2 hR.2.1 hR.2.2 hlt
  have hz : w1.sz this = 0 := by
    by_cases hps : ps = []
    · rw [hd7 hps, hsz, hps]; rfl
    · rw [hd8 hps]; simp
  refine ⟨w1, ?_, ?_, ?_, hk, fun p hp => hR.live hp, hd1, hd2, hd3, hd4, hfr, hd7⟩
  · simp only [clear, bind_apply]
    rw [Prog.bind_done (getNext_eq hc.1)]
    simp only [bind_apply, Prog.bind, getSz, hsz]
    exact hrun
  · simp [empty, getSz, Prog.bind, hz]
  · simp [size, getSz, hz]

theorem clear_releases_all_witness :
    WellFormed world12 0 ps12 ∧
      (clear 0 world12).1 = Outcome.done () ∧
      (empty 0 (clear 0 world12).2).1 = Outcome.done true ∧
      (clear 0 world12).2.deallocated = 2 ∧
      (clear 0 world12).2.mem (Ptr.node 1) = none := by
  obtain ⟨w1, h1, h2, -, h3, -, -, h4, -⟩ := clear_releases_all world12 0 ps12 world12_wf
  refine ⟨world12_wf, ?_, ?_, ?_, ?_⟩
  · rw [h1]
  · rw [h1, h2]
  · rw [h1]; exact h4
  · rw [h1]; exact h3 (Ptr.node 1) (by decide)

theorem filter_ne_of_not_mem (l : List (Ptr × T)) (q : Ptr) (h : q ∉ keys l) :
    l.filter (fun pv => decide (pv.1 ≠ q)) = l := by
  rw [List.filter_eq_self]
  intro pv hpv
  have : pv.1 ≠ q := fun e => h (e ▸ List.mem_map_of_mem Prod.fst hpv)
  simpa using this

theorem filter_ne_split (l1 l2 : List (Ptr × T)) (q : Ptr) (v : T)
    (hnd : (keys (l1 ++ (q, v) :: l2)).Nodup) :
    (l1 ++ (q, v) :: l2).filter (fun pv => decide (pv.1 ≠ q)) = l1 ++ l2 := by
  simp only [keys_append, keys_cons, List.nodup_append, List.nodup_cons, List.mem_append,
    List.mem_cons] at hnd
  have h1 : q ∉ keys l1 := fun h => hnd.2.2 h (by simp)
  have h2 : q ∉ keys l2 := hnd.2.1.1
  rw [List.filter_append, List.filter_cons, filter_ne_of_not_mem l1 q h1,
    filter_ne_of_not_mem l2 q h2]
  simp

theorem erase_wf {w : World T} {this : Nat} {ps : List (Ptr × T)} {q : Ptr}
    (hwf : WellFormed w this ps) (hq : q ∈ keys ps) :
    (erase this q w).1 = Outcome.done () ∧
      WellFormed (erase this q w).2 this (ps.filter (fun pv => decide (pv.1 ≠ q))) := by
  obtain ⟨hR, hsz, hlt⟩ := hwf
  obtain ⟨l1, v, l2, rfl⟩ := mem_keys_split hq
  obtain ⟨h1, hP, hS⟩ := erase_ring hR
  have hU := hP.1
  have hR1 : Ring (erase this q w).2 this (l1 ++ l2) :=
    ⟨hR.1.unlink hR.2.1 hR.sentinel_not_mem hU, by
      have hnd := hR.2.1
      simp only [keys_append, keys_cons, List.nodup_append, List.nodup_cons, List.mem_append,
        List.mem_cons, List.Disjoint] at hnd ⊢
      exact ⟨hnd.1, hnd.2.1.2, fun a ha hb => hnd.2.2 ha (Or.inr hb)⟩, by
      intro p hp
      have := hR.2.2
      simp only [keys_append, keys_cons, List.mem_append, List.mem_cons] at hp this
      rcases hp with hp | hp
      · exact this p (Or.inl hp)
      · exact this p (Or.inr (Or.inr hp))⟩
  simp only [List.length_append, List.length_cons] at hsz hlt
  have hs1 := sz_decr_this hS (by omega) (by omega)
  rw [filter_ne_split l1 l2 q v hR.2.1]
  exact ⟨h1, hR1, by rw [hs1, hsz]; simp, by simp only [List.length_append]; omega⟩

theorem eraseMany_keeps (this : Nat) (qs : List Ptr) :
    ∀ (w : World T) (ps : List (Ptr × T)), WellFormed w this ps → qs.Nodup →
      (∀ q ∈ qs, q ∈ keys ps) →
      ∃ w1, eraseMany this qs w = (Outcome.done (), w1) ∧
        WellFormed w1 this (ps.filter (fun pv => decide (pv.1 ∉ qs))) := by
  induction qs with
  | nil =>
    intro w ps hwf _ _
    exact ⟨w, rfl, by simpa using hwf⟩
  | cons q qs ih =>
    intro w ps hwf hnd hq
    simp only [List.nodup_cons] at hnd
    obtain ⟨h1, hwf1⟩ := erase_wf hwf (hq q (by simp))
    obtain ⟨w2, hrun, hwf2⟩ := ih _ _ hwf1 hnd.2 (by
      intro r hr
      have hrk := hq r (List.mem_cons_of_mem _ hr)
      obtain ⟨pv, hpv, rfl⟩ := List.mem_map.1 hrk
      refine List.mem_map.2 ⟨pv, List.mem_filter.2 ⟨hpv, ?_⟩, rfl⟩
      have : pv.1 ≠ q := fun e => hnd.1 (e ▸ hr)
      simpa using this)
    refine ⟨w2, ?_, ?_⟩
    · simp only [eraseMany, bind_apply]
      rw [Prog.bind_done (Prog.eq_of_fst h1)]
      exact hrun
    · have e : (ps.filter (fun pv => decide (pv.1 ≠ q))).filter
          (fun pv => decide (pv.1 ∉ qs)) = ps.filter (fun pv => decide (pv.1 ∉ q :: qs)) := by
        rw [List.filter_filter]
        congr 1
        funext pv
        simp [not_or, Bool.and_comm]
      rw [← e]
      exact hwf2

/-- C17: on a well-formed list with element nodes `ps`, take an iterator `it` that
    references the element node holding `v`. After `insert(p, x)` at any position `p` of the
    list (the allocation and the construction succeeding), the list is well-formed, the node
    `it` references is one of its element nodes and `*it` is still `v`. After `erase(q)` has
    been called for every `q` of a list `qs` of other element nodes (`q ≠ it`, no node twice),
    the list is well-formed over the nodes not in `qs`, among them the node of `it`, and
    `*it` is still `v`; when `qs` holds all the other nodes, the ring is the single node of
    `it`. -/
theorem iterator_stays_valid (E : Env) (w : World T) (this : Nat) (ps : List (Ptr × T))
    (it : Ptr) (v x : T) (i : Nat) (qs : List Ptr)
    (hwf : WellFormed w this ps) (hF : Fresh w) (hit : (it, v) ∈ ps) (hi : i ≤ ps.length)
    (hE1 : E.allocFails w.allocCalls = false) (hE2 : E.ctorThrows w.ctorCalls = false)
    (hroom : ps.length + 1 < 2 ^ size_bits)
    (hqs : qs.Nodup) (hq : ∀ q ∈ qs, q ∈ keys ps ∧ q ≠ it) :
    it_deref it w = (Outcome.done v, w) ∧
    (∃ w1 ps1, insert E this (nodeAt this ps i) x w = (Outcome.done (), w1) ∧
      WellFormed w1 this ps1 ∧ (it, v) ∈ ps1 ∧ it_deref it w1 = (Outcome.done v, w1)) ∧
    (∃ w2, eraseMany this qs w = (Outcome.done (), w2) ∧
      WellFormed w2 this (ps.filter (fun pv => decide (pv.1 ∉ qs))) ∧
      (it, v) ∈ ps.filter (fun pv => decide (pv.1 ∉ qs)) ∧
      it_deref it w2 = (Outcome.done v, w2) ∧
      ((∀ p ∈ keys ps, p ≠ it → p ∈ qs) → WellFormed w2 this [(it, v)])) := by
  refine ⟨hwf.1.deref hit, ?_, ?_⟩
  · obtain ⟨hR, hsz, -⟩ := hwf
    have hR' : Ring w this (ps.take i ++ ps.drop i) := by rwa [List.take_append_drop]
    obtain ⟨h1, hP, hS⟩ := insert_ring (E := E) x hR' hF hE1 hE2
    obtain ⟨hR1, -⟩ := hP.ring_grows hR' hF
    have hlen : (ps.take i ++ (Ptr.node w.allocCalls, x) :: ps.drop i).length
        = ps.length + 1 := by
      have := congrArg List.length (List.take_append_drop i ps)
      simp only [List.length_append, List.length_cons] at this ⊢
      omega
    have hs1 := sz_incr_this hS (by rw [hsz]; exact hroom)
    have hmem : (it, v) ∈ ps.take i ++ (Ptr.node w.allocCalls, x) :: ps.drop i := by
      have : (it, v) ∈ ps.take i ++ ps.drop i := by rwa [List.take_append_drop]
      simp only [List.mem_append, List.mem_cons] at this ⊢
      tauto
    exact ⟨_, _, Prog.eq_of_fst h1, ⟨hR1, by rw [hlen, ← hsz]; exact hs1,
      by rw [hlen]; exact hroom⟩, hmem, hR1.deref hmem⟩
  · obtain ⟨w2, hrun, hwf2⟩ := eraseMany_keeps this qs w ps hwf hqs (fun q hq1 => (hq q hq1).1)
    have hmem : (it, v) ∈ ps.filter (fun pv => decide (pv.1 ∉ qs)) := by
      refine List.mem_filter.2 ⟨hit, ?_⟩
      have : it ∉ qs := fun h => (hq it h).2 rfl
      simpa using this
    refine ⟨w2, hrun, hwf2, hmem, hwf2.1.deref hmem, ?_⟩
    intro hall
    have hnd := hwf.1.2.1
    have e : ps.filter (fun pv => decide (pv.1 ∉ qs)) = [(it, v)] := by
      obtain ⟨l1, l2, rfl⟩ := List.append_of_mem hit
      have hnd' := hnd
      simp only [keys_append, keys_cons, List.nodup_append, List.nodup_cons, List.mem_append,
        List.mem_cons] at hnd'
      have hitq : it ∉ qs := fun h => (hq it h).2 rfl
      have f1 : l1.filter (fun pv => decide (pv.1 ∉ qs)) = [] := by
        rw [List.filter_eq_nil_iff]
        intro pv hpv
        have hk : pv.1 ∈ keys l1 := List.mem_map_of_mem Prod.fst hpv
        have : pv.1 ≠ it := fun e => hnd'.2.2 hk (by simp [e])
        have := hall pv.1 (by simp [hk]) this
        simpa using this
      have f2 : l2.filter (fun pv => decide (pv.1 ∉ qs)) = [] := by
        rw [List.filter_eq_nil_iff]
        intro pv hpv
        have hk : pv.1 ∈ keys l2 := List.mem_map_of_mem Prod.fst hpv
        have : pv.1 ≠ it := fun e => hnd'.2.1.1 (e ▸ hk)
        have := hall pv.1 (by simp [hk]) this
        simpa using this
      rw [List.filter_append, List.filter_cons, f1, f2]
      simp [hitq]
    rw [← e]
    exact hwf2

theorem iterator_stays_valid_witness :
    WellFormed world12 0 ps12 ∧ Fresh world12 ∧ (Ptr.node 0, 1) ∈ ps12 ∧ 1 ≤ ps12.length ∧
      [Ptr.node 1].Nodup ∧ (∀ q ∈ [Ptr.node 1], q ∈ keys ps12 ∧ q ≠ Ptr.node 0) ∧
      (it_deref (Ptr.node 0) (insert Env.reliable 0 (nodeAt 0 ps12 1) 7 world12).2).1
        = Outcome.done 1 ∧
      (it_deref (Ptr.node 0) (eraseMany 0 [Ptr.node 1] world12).2).1 = Outcome.done 1 ∧
      (to_seq 3 0 (eraseMany 0 [Ptr.node 1] world12).2).1 = Outcome.done [1] := by
  obtain ⟨-, ⟨w1, ps1, h1, -, -, h2⟩, ⟨w2, h3, -, -, h4, h5⟩⟩ :=
    iterator_stays_valid Env.reliable world12 0 ps12 (Ptr.node 0) 1 7 1 [Ptr.node 1]
      world12_wf world12_fresh (by decide) (by decide) rfl rfl (by decide) (by decide)
      (by decide)
  refine ⟨world12_wf, world12_fresh, by decide, by decide, by decide, by decide, ?_, ?_, ?_⟩
  · rw [h1, h2]
  · rw [h3, h4]
  · rw [h3, to_seq_ring (h5 (by decide)).1 3 (by decide)]
    rfl

theorem push_back_bad_alloc (E : Env) (w : World T) (this : Nat) (v : T)
    (h : E.allocFails w.allocCalls = true) :
    push_back E this v w =
      (Outcome.raised Failure.bad_alloc, { w with allocCalls := w.allocCalls + 1 }) := by
  simp [push_back, allocate, Prog.bind, h]

theorem push_front_bad_alloc (E : Env) (w : World T) (this : Nat) (v : T)
    (h : E.allocFails w.allocCalls = true) :
    push_front E this v w =
      (Outcome.raised Failure.bad_alloc, { w with allocCalls := w.allocCalls + 1 }) := by
  simp [push_front, allocate, Prog.bind, h]

theorem insert_bad_alloc (E : Env) (w : World T) (this : Nat) (pos : Ptr) (v : T)
    (h : E.allocFails w.allocCalls = true) :
    insert E this pos v w =
      (Outcome.raised Failure.bad_alloc, { w with allocCalls := w.allocCalls + 1 }) := by
  simp [insert, allocate, Prog.bind, h]

theorem push_back_ctor_throw (E : Env) (w : World T) (this : Nat) (v : T)
    (h1 : E.allocFails w.allocCalls = false) (h2 : E.ctorThrows w.ctorCalls = true) :
    push_back E this v w =
      (Outcome.raised Failure.ctor_throw,
        { w with
          mem := Function.update w.mem (Ptr.node w.allocCalls)
                  (some ⟨Ptr.node w.allocCalls, Ptr.node w.allocCalls, none⟩)
          allocCalls := w.allocCalls + 1
          allocated := w.allocated + 1
          ctorCalls := w.ctorCalls + 1 }) := by
  simp [push_back, allocate, construct, Prog.bind, h1, h2]

theorem push_front_ctor_throw (E : Env) (w : World T) (this : Nat) (v : T)
    (h1 : E.allocFails w.allocCalls = false) (h2 : E.ctorThrows w.ctorCalls = true) :
    push_front E this v w =
      (Outcome.raised Failure.ctor_throw,
        { w with
          mem := Function.update w.mem (Ptr.node w.allocCalls)
                  (some ⟨Ptr.node w.allocCalls, Ptr.node w.allocCalls, none⟩)
          allocCalls := w.allocCalls + 1
          allocated := w.allocated + 1
          ctorCalls := w.ctorCalls + 1 }) := by
  simp [push_front, allocate, construct, Prog.bind, h1, h2]

theorem insert_ctor_throw (E : Env) (w : World T) (this : Nat) (pos : Ptr) (v : T)
    (h1 : E.allocFails w.allocCalls = false) (h2 : E.ctorThrows w.ctorCalls = true) :
    insert E this pos v w =
      (Outcome.raised Failure.ctor_throw,
        { w with
          mem := Function.update w.mem (Ptr.node w.allocCalls)
                  (some ⟨Ptr.node w.allocCalls, Ptr.node w.allocCalls, none⟩)
          allocCalls := w.allocCalls + 1
          allocated := w.allocated + 1
          ctorCalls := w.ctorCalls + 1 }) := by
  simp [insert, allocate, construct, Prog.bind, h1, h2]

theorem Pushed.frame_live {w w1 : World T} {a b : Ptr} {v : T} (hP : Pushed w w1 a b v)
    (hF : Fresh w) {p : Ptr} (hp : ∃ c, w.mem p = some c) (ha : p ≠ a) (hb : p ≠ b) :
    w1.mem p = w.mem p := by
  refine hP.1.2.2.2 p ?_ ha hb
  intro e
  obtain ⟨c, hc⟩ := hp
  rw [e, hF _ (le_refl _)] at hc
  cases hc

theorem ne_of_outside {s p x : Ptr} {ps : List (Ptr × T)} (h1 : p ≠ s) (h2 : p ∉ keys ps)
    (hx : x = s ∨ x ∈ keys ps) : p ≠ x := by
  rintro rfl
  rcases hx with e | e
  · exact h1 e
  · exact h2 e

theorem keys_take_subset (ps : List (Ptr × T)) (i : Nat) {x : Ptr}
    (h : x ∈ keys (ps.take i)) : x ∈ keys ps := by
  obtain ⟨pv, hpv, rfl⟩ := List.mem_map.1 h
  exact List.mem_map.2 ⟨pv, List.mem_of_mem_take hpv, rfl⟩

theorem keys_drop_subset (ps : List (Ptr × T)) (i : Nat) {x : Ptr}
    (h : x ∈ keys (ps.drop i)) : x ∈ keys ps := by
  obtain ⟨pv, hpv, rfl⟩ := List.mem_map.1 h
  exact List.mem_map.2 ⟨pv, List.mem_of_mem_drop hpv, rfl⟩

theorem lastOf_take_cases (s : Ptr) (ps : List (Ptr × T)) (i : Nat) :
    lastOf s (ps.take i) = s ∨ lastOf s (ps.take i) ∈ keys ps := by
  rcases lastOf_cases s (ps.take i) with e | e
  · exact Or.inl e
  · exact Or.inr (keys_take_subset ps i e)

theorem nextOf_drop_cases (s : Ptr) (ps : List (Ptr × T)) (i : Nat) :
    nextOf (ps.drop i) s = s ∨ nextOf (ps.drop i) s ∈ keys ps := by
  rcases nextOf_cases s (ps.drop i) with e | e
  · exact Or.inl e
  · exact Or.inr (keys_drop_subset ps i e)

/-- What a record outside the ring of list `this` and the size of another list see of a
    step that links one node into the ring, whether the step succeeds, fails to allocate
    or fails to construct. -/
theorem push_frame {E : Env} {w : World T} {this : Nat} {ps : List (Ptr × T)}
    (op : Prog T Unit) (a b : Ptr) (v : T) (hF : Fresh w)
    (ha : a = fakeNode this ∨ a ∈ keys ps) (hb : b = fakeNode this ∨ b ∈ keys ps)
    (hok : E.allocFails w.allocCalls = false → E.ctorThrows w.ctorCalls = false →
      Pushed w (op w).2 a b v ∧
        (op w).2.sz = Function.update w.sz this (size_incr (w.sz this)))
    (hba : E.allocFails w.allocCalls = true →
      op w = (Outcome.raised Failure.bad_alloc, { w with allocCalls := w.allocCalls + 1 }))
    (hct : E.allocFails w.allocCalls = false → E.ctorThrows w.ctorCalls = true →
      op w = (Outcome.raised Failure.ctor_throw,
        { w with
          mem := Function.update w.mem (Ptr.node w.allocCalls)
                  (some ⟨Ptr.node w.allocCalls, Ptr.node w.allocCalls, none⟩)
          allocCalls := w.allocCalls + 1
          allocated := w.allocated + 1
          ctorCalls := w.ctorCalls + 1 })) :
    (∀ p, p ≠ fakeNode this → p ∉ keys ps → (∃ c, w.mem p = some c) →
        (op w).2.mem p = w.mem p) ∧
      (∀ n, n ≠ this → (op w).2.sz n = w.sz n) := by
  cases h1 : E.allocFails w.allocCalls with
  | true =>
    rw [hba h1]
    exact ⟨fun _ _ _ _ => rfl, fun _ _ => rfl⟩
  | false =>
    cases h2 : E.ctorThrows w.ctorCalls with
    | true =>
      rw [hct h1 h2]
      refine ⟨fun p _ _ hp => ?_, fun _ _ => rfl⟩
      have : p ≠ Ptr.node w.allocCalls := by
        intro e
        obtain ⟨c, hc⟩ := hp
        rw [e, hF _ (le_refl _)] at hc
        cases hc
      simp [Function.update_apply, this]
    | false =>
      obtain ⟨hP, hS⟩ := hok h1 h2
      refine ⟨fun p hp1 hp2 hp => ?_, fun n hn => ?_⟩
      · exact hP.frame_live hF hp (ne_of_outside hp1 hp2 ha) (ne_of_outside hp1 hp2 hb)
      · rw [hS]; simp [Function.update_apply, hn]

/-- What a record outside the ring of list `this` and the size of another list see of a
    step that unlinks and releases one node of the ring. -/
theorem pop_frame {w w1 : World T} {this : Nat} {ps : List (Ptr × T)} {a q b : Ptr}
    (ha : a = fakeNode this ∨ a ∈ keys ps) (hq : q ∈ keys ps)
    (hb : b = fakeNode this ∨ b ∈ keys ps) (hP : Popped w w1 a q b)
    (hS : w1.sz = Function.update w.sz this (size_decr (w.sz this))) :
    (∀ p, p ≠ fakeNode this → p ∉ keys ps → (∃ c, w.mem p = some c) →
        w1.mem p = w.mem p) ∧
      (∀ n, n ≠ this → w1.sz n = w.sz n) := by
  refine ⟨fun p hp1 hp2 _ => ?_, fun n hn => ?_⟩
  · exact hP.1.2.2 p (ne_of_outside hp1 hp2 (Or.inr hq)) (ne_of_outside hp1 hp2 ha)
      (ne_of_outside hp1 hp2 hb)
  · rw [hS]; simp [Function.update_apply, hn]

/-- Every mutator of list `this`, run within its precondition on a well-formed list with
    element nodes `ps`, leaves untouched every live record that is neither the sentinel
    of `this` nor one of its element nodes, and the size of every other list; this holds
    whether the mutator returns or throws. -/
theorem mutation_frame (E : Env) (w : World T) (this : Nat) (ps : List (Ptr × T))
    (m : Mutation T) (hwf : WellFormed w this ps) (hF : Fresh w) (hv : m.valid ps) :
    (∀ p, p ≠ fakeNode this → p ∉ keys ps → (∃ c, w.mem p = some c) →
        (m.run E this ps w).2.mem p = w.mem p) ∧
      (∀ n, n ≠ this → (m.run E this ps w).2.sz n = w.sz n) := by
  obtain ⟨hR, hsz, hlt⟩ := hwf
  cases m with
  | push_back v =>
    exact push_frame (push_back E this v) (lastOf (fakeNode this) ps) (fakeNode this) v hF
      (lastOf_cases _ _) (Or.inl rfl) (fun h1 h2 => (push_back_ring v hR hF h1 h2).2)
      (push_back_bad_alloc E w this v) (push_back_ctor_throw E w this v)
  | push_front v =>
    exact push_frame (push_front E this v) (fakeNode this) (nextOf ps (fakeNode this)) v hF
      (Or.inl rfl) (nextOf_cases _ _) (fun h1 h2 => (push_front_ring v hR hF h1 h2).2)
      (push_front_bad_alloc E w this v) (push_front_ctor_throw E w this v)
  | insert i v =>
    have hR' : Ring w this (ps.take i ++ ps.drop i) := by
      rw [List.take_append_drop]; exact hR
    exact push_frame (insert E this (nodeAt this ps i) v) (lastOf (fakeNode this) (ps.take i))
      (nextOf (ps.drop i) (fakeNode this)) v hF (lastOf_take_cases _ _ _)
      (nextOf_drop_cases _ _ _) (fun h1 h2 => (insert_ring v hR' hF h1 h2).2)
      (insert_bad_alloc E w this _ v) (insert_ctor_throw E w this _ v)
  | pop_back =>
    obtain ⟨l1, pv, hps⟩ := List.eq_nil_or_concat ps |>.resolve_left hv
    rw [List.concat_eq_append] at hps
    subst hps
    obtain ⟨-, hP, hS⟩ := pop_back_ring (p := pv.1) (v := pv.2) hR
    refine pop_frame (q := pv.1) ?_ (by simp) (Or.inl rfl) hP hS
    rcases lastOf_cases (fakeNode this) l1 with e | e
    · exact Or.inl e
    · exact Or.inr (by simp [e])
  | pop_front =>
    obtain ⟨pv, l2, rfl⟩ := List.exists_cons_of_ne_nil hv
    obtain ⟨-, hP, hS⟩ := pop_front_ring (p := pv.1) (v := pv.2) hR
    refine pop_frame (q := pv.1) (Or.inl rfl) (by simp) ?_ hP hS
    rcases nextOf_cases (fakeNode this) l2 with e | e
    · exact Or.inl e
    · exact Or.inr (by simp [e])
  | erase i =>
    have hi : i < ps.length := hv
    have hsplit : ps = ps.take i ++ (ps[i].1, ps[i].2) :: ps.drop (i + 1) := by
      conv_lhs => rw [← List.take_append_drop i ps, List.drop_eq_getElem_cons hi]
    have hnode : nodeAt this ps i = ps[i].1 := by
      show nextOf (ps.drop i) _ = _
      rw [List.drop_eq_getElem_cons hi]; rfl
    have hR' : Ring w this (ps.take i ++ (ps[i].1, ps[i].2) :: ps.drop (i + 1)) := by
      rw [← hsplit]; exact hR
    obtain ⟨-, hP, hS⟩ := erase_ring hR'
    show (∀ p, p ≠ fakeNode this → p ∉ keys ps → (∃ c, w.mem p = some c) →
        (erase this (nodeAt this ps i) w).2.mem p = w.mem p) ∧
      (∀ n, n ≠ this → (erase this (nodeAt this ps i) w).2.sz n = w.sz n)
    rw [hnode]
    exact pop_frame (lastOf_take_cases _ _ _)
      (List.mem_map.2 ⟨ps[i], List.getElem_mem _, rfl⟩) (nextOf_drop_cases _ _ _) hP hS
  | clear =>
    have hc := hR.1
    simp only [ringCells, Holds_cons] at hc
    obtain ⟨w1, hrun, -, hfr, -, -, -, -, -, -, hd7, hd8⟩ :=
      clearLoop_cells this ps (fakeNode this) (fakeNode this) w hc.2 hR.2.1 hR.2.2 hlt
    have hcl : clear this w = (Outcome.done (), w1) := by
      simp only [clear, bind_apply]
      rw [Prog.bind_done (getNext_eq hc.1)]
      simp only [bind_apply, Prog.bind, getSz, hsz]
      exact hrun
    show (∀ p, p ≠ fakeNode this → p ∉ keys ps → (∃ c, w.mem p = some c) →
        (clear this w).2.mem p = w.mem p) ∧ (∀ n, n ≠ this → (clear this w).2.sz n = w.sz n)
    rw [hcl]
    refine ⟨fun p _ hp _ => hfr p hp, fun n hn => ?_⟩
    by_cases hps : ps = []
    · rw [hd7 hps]
    · show w1.sz n = w.sz n
      rw [hd8 hps]; simp [Function.update_apply, hn]
  | assign i v =>
    have hi : i < ps.length := hv
    have hnode : nodeAt this ps i = ps[i].1 := by
      show nextOf (ps.drop i) _ = _
      rw [List.drop_eq_getElem_cons hi]; rfl
    obtain ⟨c, hc, hcv⟩ := hR.elem_value (List.getElem_mem hi)
    show (∀ p, p ≠ fakeNode this → p ∉ keys ps → (∃ c, w.mem p = some c) →
        (it_assign (nodeAt this ps i) v w).2.mem p = w.mem p) ∧
      (∀ n, n ≠ this → (it_assign (nodeAt this ps i) v w).2.sz n = w.sz n)
    rw [hnode]
    have hk : ps[i].1 ∈ keys ps := List.mem_map.2 ⟨ps[i], List.getElem_mem _, rfl⟩
    refine ⟨fun p _ hp _ => ?_, fun n _ => ?_⟩
    · have : p ≠ ps[i].1 := fun e => hp (e ▸ hk)
      simp [it_assign, getNode, putNode, Prog.bind, hc, hcv, Function.update_apply, this]
    · simp [it_assign, getNode, putNode, Prog.bind, hc, hcv]
/-- Copy construction without failures, at the level of rings: both lists are rings
    afterwards, over disjoint nodes, the allocator is still consistent with the memory
    and both sizes are the size of the source. -/
theorem list_copy_rings (E : Env) (hEa : ∀ k, E.allocFails k = false)
    (hEc : ∀ k, E.ctorThrows k = false) (w : World T) (this other : Nat)
    (ps : List (Ptr × T)) (fuel : Nat) (hwf : WellFormed w other ps) (hF : Fresh w)
    (hne : this ≠ other) (hfuel : ps.length < fuel) :
    ∃ w1 ps1, list_copy E fuel this other w = (Outcome.done (), w1) ∧
      Ring w1 other ps ∧ Ring w1 this ps1 ∧ values ps1 = values ps ∧
      (∀ p ∈ keys ps1, p ∉ keys ps) ∧ Fresh w1 ∧
      w1.sz this = w.sz other ∧ w1.sz other = w.sz other := by
  obtain ⟨hR, hsz, hlt⟩ := hwf
  have hso : fakeNode this ≠ fakeNode other := by simp [fakeNode, hne]
  set w0 : World T :=
    { w with
      mem := Function.update w.mem (fakeNode this) (some ⟨fakeNode this, fakeNode this, none⟩)
      sz := Function.update w.sz this (w.sz other)
      alloc := Function.update w.alloc this (select_on_container_copy_construction (w.alloc other)) }
    with hw0
  have hinit : copyInit this other w = (Outcome.done (nextOf ps (fakeNode other)), w0) := by
    simp [copyInit, initFakeNode, putNode, setSz, getSz, setAlloc, getAlloc, begin, getNext, getNode,
      Prog.bind, Function.update_apply, Ne.symm hso, hR.sentinel, hw0]
  have hRo0 : Ring w0 other ps := by
    refine hR.frame_ring ?_ ?_
    · simp [hw0, Function.update_apply, Ne.symm hso]
    · intro p hp
      have := hR.key_ne_sentinel hp this
      simp [hw0, Function.update_apply, this]
  have hRt0 : Ring w0 this [] := ⟨by simp [ringCells, hw0], by simp, by simp⟩
  have hF0 : Fresh w0 := by
    intro n hn
    have := hF n hn
    simpa [hw0, fakeNode, Function.update_apply] using this
  obtain ⟨w1, pt1, hrun, hRo1, hRt1, hv1, hdis1, hF1, hs1, -, -, -, -⟩ :=
    copyLoop_ok E hEa hEc this other hne ps [] [] w0 fuel (by simpa using hRo0) hRt0
      (by simp) hF0 hfuel
  simp only [List.nil_append] at hRo1 hRt1 hdis1
  refine ⟨w1, pt1, ?_, hRo1, hRt1, hv1, hdis1, hF1, ?_, ?_⟩
  · simp only [list_copy]
    rw [hinit]
    simp only []
    rw [hrun]
  · rw [hs1]; simp [hw0]
  · rw [hs1]; simp [hw0, Function.update_apply, Ne.symm hne]

/-- C15: copy-construct list `this` (the copy D) from a well-formed list `other` (C, with
    element nodes `ps`) when no allocation and no construction fails. The copy is
    well-formed over nodes `pd` none of which is a node of C. Then every mutator of the
    copy run within its precondition (`push_back`, `push_front`, `pop_back`, `pop_front`,
    `insert` at any position, `erase` of any element, `clear`, assignment through an
    iterator to any element), in any environment `Em` (so also when the mutator throws),
    leaves every record of C (its sentinel, hence the sentinel links, and each element
    node) and the size of C exactly as they were before the copy was made; C is still
    well-formed over `ps` and walking it yields the same sequence. -/
theorem copy_is_independent (E Em : Env) (hEa : ∀ k, E.allocFails k = false)
    (hEc : ∀ k, E.ctorThrows k = false) (w : World T) (this other : Nat)
    (ps : List (Ptr × T)) (fuel : Nat) (hwf : WellFormed w other ps) (hF : Fresh w)
    (hne : this ≠ other) (hfuel : ps.length < fuel) :
    ∃ w1 pd, list_copy E fuel this other w = (Outcome.done (), w1) ∧
      WellFormed w1 this pd ∧ values pd = values ps ∧ (∀ p ∈ keys pd, p ∉ keys ps) ∧
      ∀ m : Mutation T, m.valid pd →
        (∀ p ∈ fakeNode other :: keys ps, (m.run Em this pd w1).2.mem p = w.mem p) ∧
        (m.run Em this pd w1).2.sz other = w.sz other ∧
        WellFormed (m.run Em this pd w1).2 other ps ∧
        ∀ g, ps.length < g →
          (to_seq g other (m.run Em this pd w1).2).1 = Outcome.done (values ps) ∧
          (to_seq g other w).1 = Outcome.done (values ps) := by
  obtain ⟨w1, pd, hrun, hRo1, hRt1, hv1, hdis, hF1, hst, hso⟩ :=
    list_copy_rings E hEa hEc w this other ps fuel hwf hF hne hfuel
  obtain ⟨hR, hsz, hlt⟩ := hwf
  have hlen : pd.length = ps.length := by
    have := congrArg List.length hv1
    simpa using this
  have hwfd : WellFormed w1 this pd := ⟨hRt1, by rw [hst, hsz, hlen], by rw [hlen]; exact hlt⟩
  refine ⟨w1, pd, hrun, hwfd, hv1, hdis, fun m hv => ?_⟩
  obtain ⟨hmem, hsize⟩ := mutation_frame Em w1 this pd m hwfd hF1 hv
  have hrec : ∀ p ∈ fakeNode other :: keys ps, (m.run Em this pd w1).2.mem p = w.mem p := by
    intro p hp
    rw [← Ring.same_records hR hRo1 p hp]
    simp only [List.mem_cons] at hp
    rcases hp with rfl | hp
    · refine hmem _ (by simp [fakeNode, Ne.symm hne]) ?_ ⟨_, hRo1.sentinel⟩
      exact fun h => hRt1.key_ne_sentinel h other rfl
    · exact hmem p (hR.key_ne_sentinel hp this) (fun h => hdis p h hp) (hRo1.live hp)
  have hs2 : (m.run Em this pd w1).2.sz other = w.sz other := by
    rw [hsize other (Ne.symm hne), hso]
  have hR2 : Ring (m.run Em this pd w1).2 other ps :=
    hR.frame_ring (hrec _ (by simp)) (fun p hp => hrec p (by simp [hp]))
  refine ⟨hrec, hs2, ⟨hR2, by rw [hs2, hsz], hlt⟩, fun g hg => ⟨?_, ?_⟩⟩
  · rw [to_seq_ring hR2 g hg]
  · rw [to_seq_ring hR g hg]

theorem copy_is_independent_witness :
    WellFormed world12 0 ps12 ∧ Fresh world12 ∧ (1 : Nat) ≠ 0 ∧ ps12.length < 3 ∧
      (to_seq 3 0 (clear 1 (list_copy Env.reliable 3 1 0 world12).2).2).1
        = Outcome.done [1, 2] ∧
      (clear 1 (list_copy Env.reliable 3 1 0 world12).2).2.sz 0 = 2 ∧
      (to_seq 3 0 (push_back (failAlloc 4) 1 5 (list_copy Env.reliable 3 1 0 world12).2).2).1
        = Outcome.done [1, 2] := by
  obtain ⟨w1, pd, h1, -, -, -, h4⟩ := copy_is_independent Env.reliable (failAlloc 4)
    (fun _ => rfl) (fun _ => rfl) world12 1 0 ps12 3 world12_wf world12_fresh (by decide)
    (by decide)
  refine ⟨world12_wf, world12_fresh, by decide, by decide, ?_, ?_, ?_⟩
  · rw [h1]
    exact ((h4 Mutation.clear trivial).2.2.2 3 (by decide)).1
  · rw [h1]
    exact (h4 Mutation.clear trivial).2.1
  · rw [h1]
    exact ((h4 (Mutation.push_back 5) trivial).2.2.2 3 (by decide)).1
/-- C19 (defect): the invariant is not preserved by `clear()`. On the well-formed list
    holding 1, 2, `clear()` returns normally with `size() == 0` and both nodes deallocated,
    but the sentinel is not re-linked: its `next` still refers to node 0 and its `prev` to
    node 1, both deallocated. Following `next` from the sentinel does not return to the
    sentinel after `size` = 0 nodes, the ring is not closed, and the list is well-formed
    over no sequence of nodes at all. -/
theorem clear_breaks_invariant :
    WellFormed world12 0 ps12 ∧ Closed world12 0 ps12 ∧
    (clear 0 world12).1 = Outcome.done () ∧
    (size 0 (clear 0 world12).2).1 = Outcome.done 0 ∧
    (getNext (fakeNode 0) (clear 0 world12).2).1 = Outcome.done (Ptr.node 0) ∧
    (getPrev (fakeNode 0) (clear 0 world12).2).1 = Outcome.done (Ptr.node 1) ∧
    Ptr.node 0 ≠ fakeNode 0 ∧
    (clear 0 world12).2.mem (Ptr.node 0) = none ∧
    (clear 0 world12).2.mem (Ptr.node 1) = none ∧
    (clear 0 world12).2.deallocated = world12.deallocated + 2 ∧
    ¬ Closed (clear 0 world12).2 0 [] ∧
    ∀ ps, ¬ WellFormed (clear 0 world12).2 0 ps := by
  have hm : (clear 0 world12).2.mem (fakeNode 0) = some ⟨Ptr.node 0, Ptr.node 1, none⟩ := by
    decide
  refine ⟨world12_wf, world12_wf.1.closed, by decide, by decide, by decide, by decide,
    by decide, by decide, by decide, by decide, ?_, ?_⟩
  · intro h
    obtain ⟨c, hc, hn, -⟩ := h (fakeNode 0) (by simp)
    rw [hm] at hc
    cases hc
    simp [fakeNode, keys] at hn
  intro ps h
  have hsz : (clear 0 world12).2.sz 0 = 0 := by decide
  have hlen : ps.length = 0 := by rw [← h.2.1, hsz]
  have hps : ps = [] := List.length_eq_zero.1 hlen
  subst hps
  have hs := h.1.sentinel
  rw [hm] at hs
  simp [nextOf, fakeNode] at hs
theorem copyFailWorld_incr_node :
    (it_incr (Ptr.node 2) copyFailWorld).1 = Outcome.done (Ptr.obj 1) := by
  simp [copyFailWorld, copyInit, copyLoop, copyStep, bindNewNodeToEnd, initFakeNode, allocate,
    construct, getNext, getPrev, setNext, setPrev, getNode, putNode, setAlloc, getAlloc, setSz,
    getSz, raise, undef, Prog.bind, failAlloc, world12, fakeNode, Function.update_apply,
    Outcome.forget, begin, end_, it_deref, it_incr, select_on_container_copy_construction]

theorem copyFailWorld_incr_sentinel :
    (it_incr (Ptr.obj 1) copyFailWorld).1 = Outcome.done (Ptr.node 2) := by
  simp [copyFailWorld, copyInit, copyLoop, copyStep, bindNewNodeToEnd, initFakeNode, allocate,
    construct, getNext, getPrev, setNext, setPrev, getNode, putNode, setAlloc, getAlloc, setSz,
    getSz, raise, undef, Prog.bind, failAlloc, world12, fakeNode, Function.update_apply,
    Outcome.forget, begin, end_, it_deref, it_incr, select_on_container_copy_construction]

theorem copyFailWorld_advance (n : Nat) :
    ∀ it, it = Ptr.node 2 ∨ it = Ptr.obj 1 →
      advance copyFailWorld n it = some (Ptr.node 2) ∨
        advance copyFailWorld n it = some (Ptr.obj 1) := by
  induction n with
  | zero =>
    intro it h
    rcases h with rfl | rfl
    · exact Or.inl rfl
    · exact Or.inr rfl
  | succ n ih =>
    intro it h
    rcases h with rfl | rfl
    · simp only [advance, copyFailWorld_incr_node]
      exact ih _ (Or.inr rfl)
    · simp only [advance, copyFailWorld_incr_sentinel]
      exact ih _ (Or.inl rfl)

/-- C20 (defect): copy-constructing list 1 from the list holding 1, 2 when the second
    allocation of the copy fails. The try block is left with `bad_alloc` in flight and `it`
    at node 1 of the source; the handler starts `start` at `this->begin()`, node 2 of the
    new list. The loop condition `it != start` compares an iterator into the source ring
    with one into the new ring: however often `start` is advanced it is node 2 or the
    sentinel of the new list, never `it`, so the condition never becomes false. The loop
    body has undefined behaviour from its second round on (it destroys the released
    node 1 again), and whatever the step budget, the call never ends with `bad_alloc`
    rethrown: it runs out of budget or reaches the undefined behaviour. -/
theorem copy_rollback_never_rethrows :
    WellFormed world12 0 ps12 ∧
    (copyLoop (failAlloc 3) 1 0 10 (Ptr.node 0) (copyInit 1 0 world12).2).1
      = Outcome.raised Failure.bad_alloc ∧
    (copyLoop (failAlloc 3) 1 0 10 (Ptr.node 0) (copyInit 1 0 world12).2).2.1 = Ptr.node 1 ∧
    (begin 1 copyFailWorld).1 = Outcome.done (Ptr.node 2) ∧
    (∀ n, advance copyFailWorld n (Ptr.node 2) ≠ some (Ptr.node 1)) ∧
    (∀ fuel, (list_copy (failAlloc 3) fuel 1 0 world12).1
      ≠ Outcome.raised Failure.bad_alloc) ∧
    (∀ fuel, 2 ≤ fuel → (list_copy (failAlloc 3) fuel 1 0 world12).1 = Outcome.undefined) := by
  refine ⟨world12_wf, ?_, ?_, ?_, ?_, ?_, ?_⟩
  · simp [copyInit, copyLoop, copyStep, bindNewNodeToEnd, initFakeNode, allocate,
      construct, getNext, getPrev, setNext, setPrev, getNode, putNode, setAlloc, getAlloc, setSz,
      getSz, raise, undef, Prog.bind, failAlloc, world12, fakeNode, Function.update_apply,
      Outcome.forget, begin, end_, it_deref, it_incr, select_on_container_copy_construction]
  · simp [copyInit, copyLoop, copyStep, bindNewNodeToEnd, initFakeNode, allocate,
      construct, getNext, getPrev, setNext, setPrev, getNode, putNode, setAlloc, getAlloc, setSz,
      getSz, raise, undef, Prog.bind, failAlloc, world12, fakeNode, Function.update_apply,
      Outcome.forget, begin, end_, it_deref, it_incr, select_on_container_copy_construction]
  · simp [copyFailWorld, copyInit, copyLoop, copyStep, bindNewNodeToEnd, initFakeNode, allocate,
      construct, getNext, getPrev, setNext, setPrev, getNode, putNode, setAlloc, getAlloc, setSz,
      getSz, raise, undef, Prog.bind, failAlloc, world12, fakeNode, Function.update_apply,
      Outcome.forget, begin, end_, it_deref, it_incr, select_on_container_copy_construction]
  · intro n h
    rcases copyFailWorld_advance n (Ptr.node 2) (Or.inl rfl) with e | e
    · rw [e] at h; cases h
    · rw [e] at h; cases h
  · intro fuel
    match fuel with
    | 0 =>
      simp [list_copy, copyInit, copyLoop, initFakeNode, getNext, getNode, putNode, setAlloc,
        getAlloc, setSz, getSz, Prog.bind, world12, fakeNode, Function.update_apply, begin,
        select_on_container_copy_construction]
    | 1 =>
      simp [list_copy, copyInit, copyLoop, copyStep, bindNewNodeToEnd, initFakeNode, allocate,
        construct, getNext, getPrev, setNext, setPrev, getNode, putNode, setAlloc, getAlloc,
        setSz, getSz, raise, undef, Prog.bind, failAlloc, world12, fakeNode,
        Function.update_apply, Outcome.forget, begin, end_, it_deref, it_incr,
        select_on_container_copy_construction]
    | f + 2 =>
      simp [list_copy, copyInit, copyLoop, copyStep, copyHandler, copyRollback, destroyBase,
        bindNewNodeToEnd, initFakeNode, allocate, construct, destroy, deallocate, getNext,
        getPrev, setNext, setPrev, getNode, putNode, setAlloc, getAlloc, setSz, getSz, raise,
        undef, diverge, Prog.bind, failAlloc, world12, fakeNode, Function.update_apply,
        Outcome.forget, begin, end_, it_deref, it_incr,
        select_on_container_copy_construction]
  · intro fuel hf
    obtain ⟨f, rfl⟩ : ∃ f, fuel = f + 2 := ⟨fuel - 2, by omega⟩
    simp [list_copy, copyInit, copyLoop, copyStep, copyHandler, copyRollback, destroyBase,
      bindNewNodeToEnd, initFakeNode, allocate, construct, destroy, deallocate, getNext,
      getPrev, setNext, setPrev, getNode, putNode, setAlloc, getAlloc, setSz, getSz, raise,
      undef, diverge, Prog.bind, failAlloc, world12, fakeNode, Function.update_apply,
      Outcome.forget, begin, end_, it_deref, it_incr,
      select_on_container_copy_construction]
/-- C12 (defect): copy assignment when construction of the temporary fails. In `worldTwo`
    list 1 (A) holds 3 and list 0 (B) holds 1, 2; list object 2 is the by-value parameter.
    Without failure `A = B` gives A the sequence 1, 2 and size 2 and leaves B as it was.
    When the second allocation of the temporary fails (allocate call number 4), the handler
    of the copy constructor destroys and deallocates node 1 of B and then destroys it again:
    the assignment has undefined behaviour instead of propagating `bad_alloc`, and B can no
    longer be walked. For the self-assignment `B = B` of the list holding 1, 2 with the
    second allocation failing, the target itself loses its second node: its sequence is not
    what it was before the assignment. -/
theorem assign_failure_releases_source :
    WellFormed worldTwo 1 ps3 ∧ WellFormed worldTwo 0 ps12 ∧
    (assign Env.reliable 10 1 2 0 worldTwo).1 = Outcome.done () ∧
    (to_seq 5 1 (assign Env.reliable 10 1 2 0 worldTwo).2).1 = Outcome.done [1, 2] ∧
    (size 1 (assign Env.reliable 10 1 2 0 worldTwo).2).1 = Outcome.done 2 ∧
    (to_seq 5 0 (assign Env.reliable 10 1 2 0 worldTwo).2).1 = Outcome.done [1, 2] ∧
    (assign (failAlloc 4) 10 1 2 0 worldTwo).1 = Outcome.undefined ∧
    (assign (failAlloc 4) 10 1 2 0 worldTwo).2.mem (Ptr.node 1) = none ∧
    (to_seq 5 0 (assign (failAlloc 4) 10 1 2 0 worldTwo).2).1 = Outcome.undefined ∧
    (to_seq 5 0 world12).1 = Outcome.done [1, 2] ∧
    (assign (failAlloc 3) 10 0 2 0 world12).1 = Outcome.undefined ∧
    (assign (failAlloc 3) 10 0 2 0 world12).2.mem (Ptr.node 1) = none ∧
    (to_seq 5 0 (assign (failAlloc 3) 10 0 2 0 world12).2).1 = Outcome.undefined := by
  refine ⟨worldTwo_wf1, worldTwo_wf0, ?_⟩
  simp [assign, list_dtor, clear, clearLoop, swap, empty, size, size_decr, size_bits,
    list_copy, copyInit, copyLoop, copyStep, copyHandler, copyRollback,
    destroyBase, bindNewNodeToEnd, initFakeNode, allocate, construct, destroy, deallocate,
    getNext, getPrev, setNext, setPrev, getNode, putNode, setAlloc, getAlloc, setSz, getSz, raise,
    undef, diverge, Prog.bind, failAlloc, Env.reliable, world12, worldTwo, fakeNode,
    Function.update_apply, Outcome.forget, begin, end_, it_deref, it_incr, to_seq, collect,
    select_on_container_copy_construction]

end claims

end ktxlist
